import Mathlib

/-!
# Chunked bitmap index store (kv/bitmapdb/bitmapdb.go)

A shallow embedding of the 32-bit chunk store: `CutLeft` and its three selectable
bodies, `WalkChunks`, `WalkChunkWithKeys`, `Get`, `Walk` and `TruncateRange`.

The roaring bitmap library is an external dependency.  A bitmap is modelled by the finite
set of values it holds; the library's serialized-size estimate and its (de)serialisation
are parameters (`Roaring`), so every theorem holds for any such library.  Values are natural
numbers; on 32-bit values no operation of the code below overflows.

Loops that the code does not bound (`WalkChunks`, `Walk`) take the number of iterations they
may use as an argument and return `none` when it is exhausted.  A run-time fault of the Go
code (an index out of range, `Maximum` of an empty bitmap) is the result `Res.fault`.
-/

namespace Bitmapdb

/-- A byte string (`[]byte`); every element produced by this development is below 256. -/
abbrev Bytes := List ℕ

/-- The value set of a `*roaring.Bitmap`. -/
abbrev Bitmap := Finset ℕ

/-- The operations of the roaring library whose results the chunk store depends on and that
are not determined by the value set alone.  The serialized size of a bitmap depends on how the
bitmap was built and not on its values alone, so it comes as two measurements. -/
structure Roaring where
  /-- Go `GetSerializedSizeInBytes` where `CutLeft` calls it: on the source bitmap as it stands
  (`sz := bm.GetSerializedSizeInBytes()`) and on the probes of the search, each a fresh
  run-optimised bitmap holding a range of the source that ends below its maximum.  Within one
  cut these are bitmaps of different value sets, so one function of the value set gives what
  the code measures.  A chunk cut by the search is built like the probes and has the size
  measured there. -/
  size : Bitmap → ℕ
  /-- Go `GetSerializedSizeInBytes` of the chunk that `CutLeft` returns in the single-chunk
  case: a fresh bitmap with all the values of the source, filled by `AddRange` and `And` and
  then run-optimised.  The code never measures it, and the library gives no order between it
  and the size of the source as it stands. -/
  sizeRebuilt : Bitmap → ℕ
  /-- Go `WriteTo` into an in-memory buffer: the bytes written -/
  WriteTo : Bitmap → Bytes
  /-- Go `ReadFrom`: the decoded bitmap, `none` on a decoding error -/
  ReadFrom : Bytes → Option Bitmap

/-- Go `const MaxUint32 = 1<<32 - 1` -/
def MaxUint32 : ℕ := 2 ^ 32 - 1

/-- Go `const ChunkLimit = uint64(1950 * datasize.B)` -/
def ChunkLimit : ℕ := 1950

/-- Go `lft := roaring.New(); lft.AddRange(lo, hi); lft.And(bm)`: the values of `bm` in the
half-open range `[lo, hi)`. -/
def rangeAnd (bm : Bitmap) (lo hi : ℕ) : Bitmap :=
  bm.filter (fun x => lo ≤ x ∧ x < hi)

/-- Go `bm.RemoveRange(lo, hi)`: the values of `bm` outside `[lo, hi)`. -/
def RemoveRange (bm : Bitmap) (lo hi : ℕ) : Bitmap :=
  bm.filter (fun x => ¬ (lo ≤ x ∧ x < hi))

/-- Go `bm.Maximum()`; the library call faults on an empty bitmap (`none`). -/
def Maximum (bm : Bitmap) : Option ℕ :=
  if h : bm.Nonempty then some (bm.max' h) else none

/-- The loop of Go's `sort.Search`: `for i < j { h := int(uint(i+j) >> 1); if !f(h) { i = h + 1 }
else { j = h } }; return i`.  The first argument bounds the number of iterations. -/
def searchLoop (f : ℕ → Bool) : ℕ → ℕ → ℕ → ℕ
  | 0, i, _ => i
  | fuel + 1, i, j =>
    if i < j then
      let h := (i + j) / 2
      if !f h then searchLoop f fuel (h + 1) j else searchLoop f fuel i h
    else i

/-- Go `sort.Search(n, f)`: `i, j := 0, n` and the loop above; `j - i` shrinks at every
iteration, so `n` iterations are enough. -/
def Search (n : ℕ) (f : ℕ → Bool) : ℕ :=
  searchLoop f n 0 n

/-- The bitmap holds 32-bit values only. -/
def Is32 (bm : Bitmap) : Prop := ∀ x ∈ bm, x < 2 ^ 32

instance (bm : Bitmap) : Decidable (Is32 bm) := by
  unfold Is32; infer_instance

/-- The index found by the search of `CutLeftRaw`. -/
def cutIndex (R : Roaring) (bm : Bitmap) (sizeLimit mn mx : ℕ) : ℕ :=
  Search (mx - mn) (fun i => decide (R.size (rangeAnd bm mn (mn + i + 1)) > sizeLimit))

/-- Go `CutLeftRaw(bm, sizeLimit)`: the returned pointer (`none` for `nil`) and the contents of
`bm` after the call.  The chunk is given by its values; `lft.RunOptimize()` changes its
representation only, and its serialized size is `chunkSize`. -/
def CutLeftRaw (R : Roaring) (bm : Bitmap) (sizeLimit : ℕ) : Option Bitmap × Bitmap :=
  if h : bm.Nonempty then
    let mn := bm.min' h
    let mx := bm.max' h
    if R.size bm ≤ sizeLimit then
      (some (rangeAnd bm mn (mx + 1)), ∅)
    else
      let frm := mn
      let minMax := mx - mn
      let upto := Search minMax (fun i => decide (R.size (rangeAnd bm frm (frm + i + 1)) > sizeLimit))
      (some (rangeAnd bm frm (frm + upto)), RemoveRange bm frm (frm + upto))
  else (none, bm)

/-- Go `CutLeftGPT(bm, sizeLimit)`: as `CutLeftRaw`, the probe bitmap being cleared and refilled
instead of freshly allocated. -/
def CutLeftGPT (R : Roaring) (bm : Bitmap) (sizeLimit : ℕ) : Option Bitmap × Bitmap :=
  if h : bm.Nonempty then
    let mn := bm.min' h
    let mx := bm.max' h
    if R.size bm ≤ sizeLimit then
      (some (rangeAnd bm mn (mx + 1)), ∅)
    else
      let frm := mn
      let minMax := mx - mn
      let upto := Search minMax (fun i => decide (R.size (rangeAnd bm frm (frm + i + 1)) > sizeLimit))
      (some (rangeAnd bm frm (frm + upto)), RemoveRange bm frm (frm + upto))
  else (none, bm)

/-- The loop of `binarySearchRaw`: `for low < high { mid := (low + high) / 2; ... }`. -/
def binarySearchLoop (R : Roaring) (frm : ℕ) (bm : Bitmap) (sizeLimit : ℕ) : ℕ → ℕ → ℕ → ℕ
  | 0, low, _ => low
  | fuel + 1, low, high =>
    if low < high then
      let mid := (low + high) / 2
      if R.size (rangeAnd bm frm (frm + mid)) > sizeLimit then
        binarySearchLoop R frm bm sizeLimit fuel low mid
      else binarySearchLoop R frm bm sizeLimit fuel (mid + 1) high
    else low

/-- Go `binarySearchRaw(from, minMax, bm, sizeLimit)`. -/
def binarySearchRaw (R : Roaring) (frm minMax : ℕ) (bm : Bitmap) (sizeLimit : ℕ) : ℕ :=
  binarySearchLoop R frm bm sizeLimit minMax 0 minMax

/-- Go `CutLeftDoubao(bm, sizeLimit)`: it never writes to `bm`. -/
def CutLeftDoubao (R : Roaring) (bm : Bitmap) (sizeLimit : ℕ) : Option Bitmap × Bitmap :=
  if h : bm.Nonempty then
    if R.size bm ≤ sizeLimit then
      (some bm, bm)
    else
      let frm := bm.min' h
      let minMax := bm.max' h - bm.min' h
      let upto := binarySearchRaw R frm minMax bm sizeLimit
      (some (rangeAnd bm frm (frm + upto)), bm)
  else (none, bm)

/-- Go `CutLeft(bm, sizeLimit)` under the package variable `myType`. -/
def CutLeft (myType : ℤ) (R : Roaring) (bm : Bitmap) (sizeLimit : ℕ) : Option Bitmap × Bitmap :=
  if myType = 0 then CutLeftRaw R bm sizeLimit
  else if myType = 1 then CutLeftGPT R bm sizeLimit
  else if myType = 2 then CutLeftDoubao R bm sizeLimit
  else (none, bm)

/-- How a call ends: with a value, with a Go `error`, or with a run-time fault (an index
out of range, a nil dereference, a library call on an empty bitmap). -/
inductive Res (ε α : Type) where
  | ok (a : α)
  | error (e : ε)
  | fault
  deriving DecidableEq, Repr

/-- The result of a function that returns only an `error`. -/
abbrev Outcome (ε : Type) := Res ε Unit

/-- A finished `WalkChunks` run. -/
structure Walked (σ ε : Type) where
  /-- the state of the visitor after its last call -/
  st : σ
  /-- the contents of the source bitmap on return -/
  bm : Bitmap
  /-- the returned error, if any -/
  res : Outcome ε
  /-- the arguments `(chunk, isLast)` of every call of the visitor, in order -/
  calls : List (Option Bitmap × Bool)
  deriving DecidableEq

/-- Go `WalkChunks(bm, sizeLimit, f)`: `for bm.GetCardinality() > 0 { if err := f(CutLeft(bm,
sizeLimit), bm.GetCardinality() == 0); err != nil { return err } }; return nil`.  The
arguments of `f` are evaluated left to right, so `isLast` is read after the cut.  The first
argument bounds the number of iterations; `none` means the bound was reached. -/
def WalkChunks {σ ε : Type} (myType : ℤ) (R : Roaring)
    (f : σ → Option Bitmap → Bool → σ × Outcome ε) :
    ℕ → Bitmap → ℕ → σ → Option (Walked σ ε)
  | 0, _, _, _ => none
  | fuel + 1, bm, sizeLimit, st =>
    if 0 < bm.card then
      let cut := CutLeft myType R bm sizeLimit
      let isLast := decide (cut.2.card = 0)
      match f st cut.1 isLast with
      | (st1, Res.ok _) =>
        (WalkChunks myType R f fuel cut.2 sizeLimit st1).map
          (fun w => { w with calls := (cut.1, isLast) :: w.calls })
      | (st1, r) => some ⟨st1, cut.2, r, [(cut.1, isLast)]⟩
    else some ⟨st, bm, Res.ok (), []⟩

/-- Go `copy(dst, src)`: the contents of `dst` afterwards. -/
def copy (dst src : Bytes) : Bytes :=
  src.take dst.length ++ dst.drop src.length

/-- Go `binary.BigEndian.PutUint32(b, v)`: the contents of `b` afterwards; it faults when `b` is
shorter than 4 bytes. -/
def PutUint32 (b : Bytes) (v : ℕ) : Option Bytes :=
  if 4 ≤ b.length then
    some ([v / 2 ^ 24 % 256, v / 2 ^ 16 % 256, v / 2 ^ 8 % 256, v % 256] ++ b.drop 4)
  else none

/-- Go `binary.BigEndian.Uint32(b)`; it faults when `b` is shorter than 4 bytes.  For bytes the
bitwise or of the shifted operands is their sum. -/
def Uint32 : Bytes → Option ℕ
  | b0 :: b1 :: b2 :: b3 :: _ => some (b0 * 2 ^ 24 + b1 * 2 ^ 16 + b2 * 2 ^ 8 + b3)
  | _ => none

/-- The key computed by the closure of `WalkChunkWithKeys`: `chunkKey := make([]byte,
len(k)+4); copy(chunkKey, k); PutUint32(chunkKey[len(k):], ^uint32(0))` when `isLast`, and
`PutUint32(chunkKey[len(k):], chunk.Maximum())` otherwise (`none`: a fault). -/
def chunkKeyOf (k : Bytes) (chunk : Option Bitmap) (isLast : Bool) : Option Bytes :=
  let chunkKey := copy (List.replicate (k.length + 4) 0) k
  if isLast then
    (PutUint32 (chunkKey.drop k.length) (2 ^ 32 - 1)).map (fun b => chunkKey.take k.length ++ b)
  else
    match chunk with
    | none => none
    | some c =>
      match Maximum c with
      | none => none
      | some m => (PutUint32 (chunkKey.drop k.length) m).map (fun b => chunkKey.take k.length ++ b)

/-- The closure that `WalkChunkWithKeys` hands to `WalkChunks`.  Next to the state of `f` it
records the arguments `(chunkKey, chunk)` of every call of `f`. -/
def keyedVisit {σ ε : Type} (k : Bytes) (f : σ → Bytes → Option Bitmap → σ × Outcome ε) :
    σ × List (Bytes × Option Bitmap) → Option Bitmap → Bool →
      (σ × List (Bytes × Option Bitmap)) × Outcome ε :=
  fun s chunk isLast =>
    match chunkKeyOf k chunk isLast with
    | none => (s, Res.fault)
    | some chunkKey =>
      (((f s.1 chunkKey chunk).1, s.2 ++ [(chunkKey, chunk)]), (f s.1 chunkKey chunk).2)

/-- Go `WalkChunkWithKeys(k, m, sizeLimit, f)`. -/
def WalkChunkWithKeys {σ ε : Type} (myType : ℤ) (R : Roaring) (k : Bytes)
    (f : σ → Bytes → Option Bitmap → σ × Outcome ε) (fuel : ℕ) (m : Bitmap) (sizeLimit : ℕ)
    (st : σ) : Option (Walked (σ × List (Bytes × Option Bitmap)) ε) :=
  WalkChunks myType R (keyedVisit k f) fuel m sizeLimit (st, [])

/-- Go `bytes.Compare(a, b) < 0`: the byte-wise lexicographic order of keys. -/
def bytesLt : Bytes → Bytes → Bool
  | [], [] => false
  | [], _ :: _ => true
  | _ :: _, [] => false
  | a :: as, b :: bs => decide (a < b) || (decide (a = b) && bytesLt as bs)

/-- Go `bytes.HasPrefix(s, pre)` -/
def HasPrefix (s pre : Bytes) : Bool :=
  pre.isPrefixOf s

/-- Modelled from the spec: a table of the ordered key/value store (package `kv` is not among
the sources): its rows, in increasing key order. -/
abbrev Table := List (Bytes × Bytes)

/-- Modelled from the spec: `Put(table, key, value)` inserts the row at its place in key
order, replacing the value of a key already present. -/
def Table.Put : Table → Bytes → Bytes → Table
  | [], k, v => [(k, v)]
  | r :: rest, k, v =>
    if bytesLt k r.1 then (k, v) :: r :: rest
    else if k = r.1 then (k, v) :: rest
    else r :: Table.Put rest k v

/-- Modelled from the spec: `Delete(table, key)` removes the row of the key. -/
def Table.Delete (t : Table) (k : Bytes) : Table :=
  t.filter (fun r => decide (r.1 ≠ k))

/-- Modelled from the spec: `Seek(key)` moves the cursor to the first row whose key is at
least `key`; `none` signals the end of the table. -/
def Table.Seek (t : Table) (k : Bytes) : Option (Bytes × Bytes) :=
  t.find? (fun r => !bytesLt r.1 k)

/-- Modelled from the spec: `Next()` of a cursor standing at key `cur` moves to the first row
with a larger key, in the table as it is at the time of the call. -/
def Table.Next (t : Table) (cur : Bytes) : Option (Bytes × Bytes) :=
  t.find? (fun r => bytesLt cur r.1)

instance instDecidableEqKeyedState : DecidableEq (Table × List (Bytes × Option Bitmap)) :=
  inferInstance

/-- The errors the chunk store itself can meet on an in-memory table. -/
inductive StoreErr where
  | decode
  deriving DecidableEq, Repr

/-- Go `roaring.FastOr(chunks...)` -/
def FastOr (chunks : List Bitmap) : Bitmap :=
  chunks.foldl (fun acc c => acc ∪ c) ∅

/-- The loop of `Get`, the cursor standing at `cur`: the chunks read. -/
def getLoop (R : Roaring) (db : Table) (key : Bytes) (to_ : ℕ) :
    ℕ → Option (Bytes × Bytes) → List Bitmap → Option (Res StoreErr (List Bitmap))
  | 0, _, _ => none
  | _ + 1, none, chunks => some (Res.ok chunks)
  | fuel + 1, some (k, v), chunks =>
    if !HasPrefix k key then some (Res.ok chunks)
    else
      match R.ReadFrom v with
      | none => some (Res.error StoreErr.decode)
      | some bm =>
        if k.length < 4 then some Res.fault
        else
          match Uint32 (k.drop (k.length - 4)) with
          | none => some Res.fault
          | some ub =>
            if ub ≥ to_ then some (Res.ok (chunks ++ [bm]))
            else getLoop R db key to_ fuel (db.Next k) (chunks ++ [bm])

/-- Go `Get(db, bucket, key, from, to)` on the table `db` of the bucket.  The cursor moves
forward at each iteration, so one iteration per row and one more are enough. -/
def Get (R : Roaring) (db : Table) (key : Bytes) (from_ to_ : ℕ) :
    Option (Res StoreErr Bitmap) :=
  let fromKey := copy (List.replicate (key.length + 4) 0) key
  match PutUint32 (fromKey.drop (fromKey.length - 4)) from_ with
  | none => some Res.fault
  | some b =>
    let fromKey := fromKey.take (fromKey.length - 4) ++ b
    match getLoop R db key to_ (db.length + 1) (db.Seek fromKey) [] with
    | none => none
    | some (Res.ok chunks) => some (Res.ok (if chunks.length = 0 then ∅ else FastOr chunks))
    | some (Res.error e) => some (Res.error e)
    | some Res.fault => some Res.fault

/-- Go `Bytesmask(fixedbits)`: `fixedbytes = (fixedbits + 7) / 8` (Go division truncates) and the
byte `0xff << (8 - fixedbits&7)`, `0xff` when `fixedbits&7 == 0`. -/
def Bytesmask (fixedbits : ℤ) : ℤ × ℕ :=
  let fixedbytes := Int.tdiv (fixedbits + 7) 8
  let shiftbits := fixedbits % 8
  (fixedbytes, if shiftbits ≠ 0 then (255 * 2 ^ (8 - shiftbits).toNat) % 256 else 255)

/-- The loop condition of `Walk` at the row key `k`: `len(k) >= fixedbytes && (fixedbits == 0
|| bytes.Equal(k[:fixedbytes-1], startkey[:fixedbytes-1]) && (k[fixedbytes-1]&mask) ==
(startkey[fixedbytes-1]&mask))`; `none` when a slice or index expression is out of range
(the capacity of `startkey` is taken to be its length). -/
def walkCond (startkey : Bytes) (fixedbits : ℤ) (k : Bytes) : Option Bool :=
  let fixedbytes := (Bytesmask fixedbits).1
  let mask := (Bytesmask fixedbits).2
  if ¬ ((k.length : ℤ) ≥ fixedbytes) then some false
  else if fixedbits = 0 then some true
  else if fixedbytes - 1 < 0 then none
  else
    let n := (fixedbytes - 1).toNat
    if startkey.length < n then none
    else if k.take n ≠ startkey.take n then some false
    else
      match k.get? n, startkey.get? n with
      | some a, some b => some (decide (Nat.land a mask = Nat.land b mask))
      | _, _ => none

/-- The loop of `Walk`, the cursor standing at `cur`.  The walker may write to the table the
cursor reads, so the table is threaded through. -/
def walkLoop {σ ε : Type} (startkey : Bytes) (fixedbits : ℤ)
    (walker : Table × σ → Bytes → Bytes → (Table × σ) × Res ε Bool) :
    ℕ → Table × σ → Option (Bytes × Bytes) → Option ((Table × σ) × Outcome ε)
  | 0, _, _ => none
  | _ + 1, s, none => some (s, Res.ok ())
  | fuel + 1, s, some (k, v) =>
    match walkCond startkey fixedbits k with
    | none => some (s, Res.fault)
    | some false => some (s, Res.ok ())
    | some true =>
      match walker s k v with
      | (s1, Res.error e) => some (s1, Res.error e)
      | (s1, Res.fault) => some (s1, Res.fault)
      | (s1, Res.ok false) => some (s1, Res.ok ())
      | (s1, Res.ok true) => walkLoop startkey fixedbits walker fuel s1 (s1.1.Next k)

/-- Go `Walk(c, startkey, fixedbits, walker)` with a cursor `c` of the table in `s`. -/
def Walk {σ ε : Type} (startkey : Bytes) (fixedbits : ℤ)
    (walker : Table × σ → Bytes → Bytes → (Table × σ) × Res ε Bool) (fuel : ℕ)
    (s : Table × σ) : Option ((Table × σ) × Outcome ε) :=
  walkLoop startkey fixedbits walker fuel s (s.1.Seek startkey)

/-- The walker of `TruncateRange`: stop at the first key outside the series, delete the row
otherwise. -/
def truncateWalker (key : Bytes) : Table × Unit → Bytes → Bytes → (Table × Unit) × Res StoreErr Bool :=
  fun s k _ =>
    if !HasPrefix k key then (s, Res.ok false)
    else ((s.1.Delete k, ()), Res.ok true)

/-- The visitor of `TruncateRange`: `chunk.WriteTo(buf)` and `db.Put(bucket, chunkKey, ...)`. -/
def putChunk (R : Roaring) : Table → Bytes → Option Bitmap → Table × Outcome StoreErr :=
  fun db chunkKey chunk =>
    match chunk with
    | none => (db, Res.fault)
    | some c => (db.Put chunkKey (R.WriteTo c), Res.ok ())

/-- Go `TruncateRange(db, bucket, key, to)` on the table `db` of the bucket: the table afterwards
and the returned error.  `fuel` bounds the iterations of each of its two walks. -/
def TruncateRange (myType : ℤ) (R : Roaring) (fuel : ℕ) (db : Table) (key : Bytes) (to_ : ℕ) :
    Option (Table × Outcome StoreErr) :=
  let chunkKey := copy (List.replicate (key.length + 4) 0) key
  match PutUint32 (chunkKey.drop (chunkKey.length - 4)) to_ with
  | none => some (db, Res.fault)
  | some b =>
    let chunkKey := chunkKey.take (chunkKey.length - 4) ++ b
    match Get R db key to_ MaxUint32 with
    | none => none
    | some (Res.error e) => some (db, Res.error e)
    | some Res.fault => some (db, Res.fault)
    | some (Res.ok bm) =>
      let bm1 :=
        match Maximum bm with
        | some mx => if 0 < bm.card ∧ to_ ≤ mx then RemoveRange bm to_ (mx + 1) else bm
        | none => bm
      match Walk chunkKey 0 (truncateWalker key) fuel (db, ()) with
      | none => none
      | some (s, Res.error e) => some (s.1, Res.error e)
      | some (s, Res.fault) => some (s.1, Res.fault)
      | some (s, Res.ok _) =>
        (WalkChunkWithKeys myType R key (putChunk R) fuel bm1 ChunkLimit s.1).map
          (fun w => (w.st.1, w.res))

/-- A sample library instance: 8 header bytes plus 2 bytes per value as size estimate, for a
bitmap as it stands and for a rebuilt one alike, and one byte per candidate value up to the
maximum as serialisation. -/
def sampleRoaring : Roaring where
  size := fun s => 8 + 2 * s.card
  sizeRebuilt := fun s => 8 + 2 * s.card
  WriteTo := fun s => (List.range (s.sup id + 1)).map (fun i => if i ∈ s then 1 else 0)
  ReadFrom := fun bs => some ((Finset.range bs.length).filter (fun i => bs.getD i 0 = 1))

/-- The serialized size of a chunk that a cut returns, `isLast` telling whether the cut emptied
the source.  A cut empties the source exactly in the single-chunk case of `CutLeftRaw`, where
the chunk is the whole source rebuilt and run-optimised; any other chunk is cut by the
search. -/
def chunkSize (R : Roaring) (chunk : Bitmap) (isLast : Bool) : ℕ :=
  if isLast then R.sizeRebuilt chunk else R.size chunk

/-- The chunks among the arguments of the visitor calls. -/
def chunksOf (calls : List (Option Bitmap × Bool)) : List Bitmap :=
  calls.filterMap (fun c => c.1)

/-- Every value of `A` is smaller than every value of `B`. -/
def SetLt (A B : Bitmap) : Prop := ∀ x ∈ A, ∀ y ∈ B, x < y

/-- The relation `CutTrace R L bm calls bm1`: cutting `bm` repeatedly with `CutLeft` under the default
selector gives the visitor arguments `calls` and leaves `bm1`. -/
inductive CutTrace (R : Roaring) (L : ℕ) : Bitmap → List (Option Bitmap × Bool) → Bitmap → Prop
  | nil (bm : Bitmap) : CutTrace R L bm [] bm
  | cons (bm : Bitmap) (c : Option Bitmap) (bm0 : Bitmap) (rest : List (Option Bitmap × Bool))
      (bm1 : Bitmap) :
      bm.Nonempty → CutLeft 0 R bm L = (c, bm0) → CutTrace R L bm0 rest bm1 →
      CutTrace R L bm ((c, decide (bm0.card = 0)) :: rest) bm1

/-- The visitor that accepts every chunk and keeps no state. -/
def acceptAll : Unit → Option Bitmap → Bool → Unit × Outcome Unit :=
  fun _ _ _ => ((), Res.ok ())

/-- The four bytes that `binary.BigEndian.PutUint32` writes for `v`. -/
def bigEndian32 (v : ℕ) : Bytes :=
  [v / 2 ^ 24 % 256, v / 2 ^ 16 % 256, v / 2 ^ 8 % 256, v % 256]

/-- The calls `(chunkKey, chunk)` that the closure of `WalkChunkWithKeys` makes for the visitor
arguments `calls`: one for each call whose key computation does not fault. -/
def keyedCalls (k : Bytes) (calls : List (Option Bitmap × Bool)) : List (Bytes × Option Bitmap) :=
  calls.filterMap (fun c => (chunkKeyOf k c.1 c.2).map (fun key => (key, c.1)))

/-- The rows of a chunk series under the prefix `p`: the chunk `c` with upper bound `u` is
stored under the key `p ++ bigEndian32 u`. -/
def rowsOf (R : Roaring) (p : Bytes) (kcs : List (ℕ × Bitmap)) : Table :=
  kcs.map (fun a => (p ++ bigEndian32 a.1, R.WriteTo a.2))

/-- The upper bound and the chunk of each visitor call: the sentinel for the last chunk, the
maximum of the chunk otherwise. -/
def boundsOf (calls : List (Option Bitmap × Bool)) : List (ℕ × Bitmap) :=
  calls.filterMap (fun c => c.1.map (fun P => (if c.2 then 2 ^ 32 - 1 else P.sup id, P)))

instance (A B : Bitmap) : Decidable (SetLt A B) := by
  unfold SetLt; infer_instance

/-- A chunk series, as (upper bound, chunk) pairs in key order: every chunk is non-empty and
32-bit; a chunk that is followed by another is keyed by its maximum and lies below the chunks
after it; the final chunk is keyed by its maximum or by the sentinel. -/
structure IsSeries (kcs : List (ℕ × Bitmap)) : Prop where
  chunk : ∀ a ∈ kcs, a.2.Nonempty ∧ Is32 a.2 ∧ (a.1 = a.2.sup id ∨ a.1 = 2 ^ 32 - 1)
  order : kcs.Pairwise (fun a b => a.1 = a.2.sup id ∧ SetLt a.2 b.2)

/-- The final chunk of the series is keyed by the all-ones sentinel. -/
def EndsWithSentinel (kcs : List (ℕ × Bitmap)) : Prop :=
  ∀ a, kcs.getLast? = some a → a.1 = 2 ^ 32 - 1

/-- The values stored in a series. -/
def valuesOf (kcs : List (ℕ × Bitmap)) : Bitmap :=
  FastOr (kcs.map Prod.snd)

/-- The chunks of a series read from its head up to and including the first one whose upper
bound is at least `to_`. -/
def readThrough (to_ : ℕ) : List (ℕ × Bitmap) → List Bitmap
  | [] => []
  | a :: rest => if a.1 ≥ to_ then [a.2] else a.2 :: readThrough to_ rest

/-- A sample series: the chunk `{1, 2}` keyed by its maximum and the final chunk `{3}` keyed by
the sentinel. -/
def sampleSeries : List (ℕ × Bitmap) := [(2, {1, 2}), (2 ^ 32 - 1, {3})]

/-- Go `const math.MaxUint64` -/
def MaxUint64 : ℕ := 2 ^ 64 - 1

/-- The bitmap holds 64-bit values only (`*roaring64.Bitmap`). -/
def Is64 (bm : Bitmap) : Prop := ∀ x ∈ bm, x < 2 ^ 64

instance (bm : Bitmap) : Decidable (Is64 bm) := by
  unfold Is64; infer_instance

/-- Go `int(x)` for a `uint64` value `x` on a 64-bit platform: the two's complement reading. -/
def toInt (x : ℕ) : ℤ :=
  if x < 2 ^ 63 then (x : ℤ) else (x : ℤ) - 2 ^ 64

/-- Go `sort.Search(n, f)` for an `int` argument `n`: `i, j := 0, n`, so the loop does not run
and 0 is returned when `n` is not positive. -/
def SearchInt (n : ℤ) (f : ℕ → Bool) : ℕ :=
  Search n.toNat f

/-- Go `CutLeft64Raw(bm, sizeLimit)`: the returned pointer and the contents of `bm` after the
call.  `bm.Maximum()+1` and the range bounds are `uint64` sums, `int(minMax)` is a
conversion to a signed 64-bit integer. -/
def CutLeft64Raw (R : Roaring) (bm : Bitmap) (sizeLimit : ℕ) : Option Bitmap × Bitmap :=
  if h : bm.Nonempty then
    let mn := bm.min' h
    let mx := bm.max' h
    if R.size bm ≤ sizeLimit then
      (some (rangeAnd bm mn ((mx + 1) % 2 ^ 64)), ∅)
    else
      let frm := mn
      let minMax := mx - mn
      let upto := SearchInt (toInt minMax)
        (fun i => decide (R.size (rangeAnd bm frm ((frm + i + 1) % 2 ^ 64)) > sizeLimit))
      (some (rangeAnd bm frm ((frm + upto) % 2 ^ 64)), RemoveRange bm frm ((frm + upto) % 2 ^ 64))
  else (none, bm)

/-- Go `CutLeft64GPT(bm, sizeLimit)`: as `CutLeft64Raw`, the probe bitmap being cleared and
refilled instead of freshly allocated. -/
def CutLeft64GPT (R : Roaring) (bm : Bitmap) (sizeLimit : ℕ) : Option Bitmap × Bitmap :=
  if h : bm.Nonempty then
    let mn := bm.min' h
    let mx := bm.max' h
    if R.size bm ≤ sizeLimit then
      (some (rangeAnd bm mn ((mx + 1) % 2 ^ 64)), ∅)
    else
      let frm := mn
      let minMax := mx - mn
      let upto := SearchInt (toInt minMax)
        (fun i => decide (R.size (rangeAnd bm frm ((frm + i + 1) % 2 ^ 64)) > sizeLimit))
      (some (rangeAnd bm frm ((frm + upto) % 2 ^ 64)), RemoveRange bm frm ((frm + upto) % 2 ^ 64))
  else (none, bm)

/-- The loop of `binarySearch64`: `for low < high { mid := (low + high) / 2; ... }`, the bounds
being non-negative while the loop runs. -/
def binarySearch64Loop (R : Roaring) (frm : ℕ) (bm : Bitmap) (sizeLimit : ℕ) : ℕ → ℕ → ℕ → ℕ
  | 0, low, _ => low
  | fuel + 1, low, high =>
    if low < high then
      let mid := (low + high) / 2
      if R.size (rangeAnd bm frm ((frm + mid) % 2 ^ 64)) > sizeLimit then
        binarySearch64Loop R frm bm sizeLimit fuel low mid
      else binarySearch64Loop R frm bm sizeLimit fuel (mid + 1) high
    else low

/-- Go `binarySearch64(from, minMax, bm, sizeLimit)`: `low, high := 0, int(minMax)`. -/
def binarySearch64 (R : Roaring) (frm minMax : ℕ) (bm : Bitmap) (sizeLimit : ℕ) : ℕ :=
  binarySearch64Loop R frm bm sizeLimit (toInt minMax).toNat 0 (toInt minMax).toNat

/-- Go `CutLeft64Doubao(bm, sizeLimit)`: it never writes to `bm`. -/
def CutLeft64Doubao (R : Roaring) (bm : Bitmap) (sizeLimit : ℕ) : Option Bitmap × Bitmap :=
  if h : bm.Nonempty then
    if R.size bm ≤ sizeLimit then
      (some bm, bm)
    else
      let frm := bm.min' h
      let minMax := bm.max' h - bm.min' h
      let upto := binarySearch64 R frm minMax bm sizeLimit
      (some (rangeAnd bm frm ((frm + upto) % 2 ^ 64)), bm)
  else (none, bm)

/-- Go `CutLeft64(bm, sizeLimit)` under the package variable `myType`. -/
def CutLeft64 (myType : ℤ) (R : Roaring) (bm : Bitmap) (sizeLimit : ℕ) : Option Bitmap × Bitmap :=
  if myType = 0 then CutLeft64Raw R bm sizeLimit
  else if myType = 1 then CutLeft64GPT R bm sizeLimit
  else if myType = 2 then CutLeft64Doubao R bm sizeLimit
  else (none, bm)

/-- Go `WalkChunks64(bm, sizeLimit, f)`: the loop of `WalkChunks` over `CutLeft64`. -/
def WalkChunks64 {σ ε : Type} (myType : ℤ) (R : Roaring)
    (f : σ → Option Bitmap → Bool → σ × Outcome ε) :
    ℕ → Bitmap → ℕ → σ → Option (Walked σ ε)
  | 0, _, _, _ => none
  | fuel + 1, bm, sizeLimit, st =>
    if 0 < bm.card then
      let cut := CutLeft64 myType R bm sizeLimit
      let isLast := decide (cut.2.card = 0)
      match f st cut.1 isLast with
      | (st1, Res.ok _) =>
        (WalkChunks64 myType R f fuel cut.2 sizeLimit st1).map
          (fun w => { w with calls := (cut.1, isLast) :: w.calls })
      | (st1, r) => some ⟨st1, cut.2, r, [(cut.1, isLast)]⟩
    else some ⟨st, bm, Res.ok (), []⟩

/-- Go roaring64 `m.Rank(x)`: the number of values of `m` that are at most `x`. -/
def Rank (m : Bitmap) (x : ℕ) : ℕ :=
  (m.filter (fun y => y ≤ x)).card

/-- Go roaring64 `m.Select(i)`: the value of `m` with exactly `i` smaller values in `m`
(`none`: the error returned when `i` is not below the cardinality). -/
def Select (m : Bitmap) (i : ℕ) : Option ℕ :=
  if h : (m.filter (fun x => (m.filter (fun y => y < x)).card = i)).Nonempty then
    some ((m.filter (fun x => (m.filter (fun y => y < x)).card = i)).min' h)
  else none

/-- Go `SeekInBitmap64(m, n)`: the pair `(found, ok)`.  The error of `Select` is dropped and
`found` is then the zero value. -/
def SeekInBitmap64 (m : Bitmap) (n : ℕ) : ℕ × Bool :=
  if h : m.Nonempty then
    if n = 0 then (m.min' h, true)
    else
      let searchRank := Rank m (n - 1)
      if searchRank ≥ m.card then (0, false)
      else ((Select m searchRank).getD 0, true)
  else (0, false)

/-- Every element of the byte string is a byte. -/
def IsBytes (b : Bytes) : Prop := ∀ x ∈ b, x < 256

instance (b : Bytes) : Decidable (IsBytes b) := by
  unfold IsBytes; infer_instance

/-- Bit number `i` of a key, counted from the most significant bit of its first byte. -/
def keyBit (k : Bytes) (i : ℕ) : Bool :=
  (k.getD (i / 8) 0).testBit (7 - i % 8)

/-- The matching condition of `Walk` in the words of the spec: the key has at least
`ceil(fixedbits/8)` bytes and its leading `fixedbits` bits equal those of `startkey`. -/
def MatchesBits (startkey : Bytes) (fixedbits : ℕ) (k : Bytes) : Prop :=
  (fixedbits + 7) / 8 ≤ k.length ∧ ∀ i < fixedbits, keyBit k i = keyBit startkey i

instance (startkey : Bytes) (fixedbits : ℕ) (k : Bytes) :
    Decidable (MatchesBits startkey fixedbits k) := by
  unfold MatchesBits; infer_instance

/-- The calls of a walker on a list of rows, in order, until it returns false, an error or
faults: its final state and the error to return. -/
def visitRows {σ ε : Type} (walker : σ → Bytes → Bytes → σ × Res ε Bool) :
    σ → List (Bytes × Bytes) → σ × Outcome ε
  | s, [] => (s, Res.ok ())
  | s, r :: rest =>
    match walker s r.1 r.2 with
    | (s1, Res.error e) => (s1, Res.error e)
    | (s1, Res.fault) => (s1, Res.fault)
    | (s1, Res.ok false) => (s1, Res.ok ())
    | (s1, Res.ok true) => visitRows walker s1 rest

/-- The walk in the words of the spec: the walker is invoked, in key order, on the consecutive
rows from the first key that is at least `startkey` on whose keys match, up to the first row
for which it returns false or an error. -/
def walkSpec {σ ε : Type} (startkey : Bytes) (fixedbits : ℕ)
    (walker : σ → Bytes → Bytes → σ × Res ε Bool) (t : Table) (s : σ) : σ × Outcome ε :=
  visitRows walker s
    ((t.dropWhile (fun r => bytesLt r.1 startkey)).takeWhile
      (fun r => decide (MatchesBits startkey fixedbits r.1)))

/-- A walker that leaves the table alone, as a walker of `Walk`. -/
def readOnly {σ ε : Type} (walker : σ → Bytes → Bytes → σ × Res ε Bool) :
    Table × σ → Bytes → Bytes → (Table × σ) × Res ε Bool :=
  fun s k v => ((s.1, (walker s.2 k v).1), (walker s.2 k v).2)

/-- A walker that records the keys it is called with and stops at a given key. -/
def recordUntil (stop : Bytes) : List Bytes → Bytes → Bytes → List Bytes × Res Unit Bool :=
  fun log k _ => (log ++ [k], Res.ok (decide (k ≠ stop)))

/-- The rows of the table are in strictly increasing key order. -/
def Table.Sorted (t : Table) : Prop := t.Pairwise (fun a b => bytesLt a.1 b.1 = true)

instance (t : Table) : Decidable (Table.Sorted t) := by
  unfold Table.Sorted; infer_instance

end Bitmapdb

namespace Memdb

open Bitmapdb

/-! # Overlay batch snapshots (kv/memdb/memory_mutation_zkevm.go)

Go maps, the staging transaction and the batches themselves are reference objects, so the
embedding keeps them in an explicit heap: a batch is the record of the addresses its fields
hold, and every function reads and writes the heap through these addresses.  A Go map is held
as an association list; its order stands for the iteration order a run happens to take. -/

/-- Go `m[k]` on a map held as an association list. -/
def mapGet {κ α : Type} [DecidableEq κ] : List (κ × α) → κ → Option α
  | [], _ => none
  | p :: rest, k => if p.1 = k then some p.2 else mapGet rest k

/-- Go `m[k] = v`. -/
def mapSet {κ α : Type} [DecidableEq κ] : List (κ × α) → κ → α → List (κ × α)
  | [], k, v => [(k, v)]
  | p :: rest, k, v => if p.1 = k then (k, v) :: rest else p :: mapSet rest k v

/-- Go `delete(m, k)`. -/
def mapDelete {κ α : Type} [DecidableEq κ] (l : List (κ × α)) (k : κ) : List (κ × α) :=
  l.filter (fun p => decide (p.1 ≠ k))

/-- Go `s[k] = struct{}{}` on a `map[K]struct{}`, held as the list of its keys. -/
def setAdd {κ : Type} [DecidableEq κ] (l : List κ) (k : κ) : List κ :=
  if k ∈ l then l else l ++ [k]

/-- Go `delete(s, k)` on a `map[K]struct{}`. -/
def setRemove {κ : Type} [DecidableEq κ] (l : List κ) (k : κ) : List κ :=
  l.filter (fun x => decide (x ≠ k))

/-- Modelled from the spec: the contents of a transaction, a table of rows per bucket (the
transaction types of package `kv` are not among the sources). -/
abbrev TxData := List (String × Table)

/-- Modelled from the spec: `Put(bucket, k, v)` on a transaction. -/
def txPut (tx : TxData) (bucket : String) (k v : Bytes) : TxData :=
  mapSet tx bucket (((mapGet tx bucket).getD []).Put k v)

/-- Modelled from the spec: `Delete(bucket, k)` on a transaction. -/
def txDelete (tx : TxData) (bucket : String) (k : Bytes) : TxData :=
  match mapGet tx bucket with
  | some t => mapSet tx bucket (t.Delete k)
  | none => tx

/-- Modelled from the spec: `ClearBucket(bucket)` on a transaction. -/
def txClear (tx : TxData) (bucket : String) : TxData :=
  match mapGet tx bucket with
  | some _ => mapSet tx bucket []
  | none => tx

/-- Go `*MemoryMutation`: the references its fields hold (the struct itself is declared outside
the sources; the fields are those `Clone`, `Snapshot` and `SnapshotFlush` use). -/
structure MemoryMutation where
  /-- the base transaction -/
  db : ℕ
  /-- the staging transaction -/
  memTx : ℕ
  /-- Go `map[string]map[string]struct{}` -/
  deletedEntries : ℕ
  /-- Go `map[string]struct{}` -/
  clearedTables : ℕ
  /-- Go `map[uint64]*MemoryMutation` -/
  snapshots : ℕ
  deriving DecidableEq, Repr

/-- The heap: the contents of the staging transactions, of the inner key sets and the outer
map of `deletedEntries`, of the `clearedTables` sets and of the snapshot maps, each by
address, and the next free address. -/
structure Heap where
  /-- staging transactions -/
  memTxs : ℕ → TxData
  /-- the inner maps of `deletedEntries`: the deleted keys of one table -/
  keySets : ℕ → List Bytes
  /-- the outer maps of `deletedEntries`: the address of the inner map of each table -/
  deleted : ℕ → List (String × ℕ)
  /-- the `clearedTables` sets -/
  cleared : ℕ → List String
  /-- the snapshot maps -/
  snapshots : ℕ → List (ℕ × MemoryMutation)
  /-- the next free address -/
  next : ℕ

/-- The heap with nothing allocated. -/
def emptyHeap : Heap :=
  { memTxs := fun _ => [], keySets := fun _ => [], deleted := fun _ => [],
    cleared := fun _ => [], snapshots := fun _ => [], next := 0 }

/-- The errors of the snapshot protocol. -/
inductive MemErr where
  /-- Go `fmt.Errorf("snapshot with id %d already exists", id)` -/
  | duplicateSnapshot (id : ℕ)
  /-- Go `fmt.Errorf("snapshot with id %d does not exist", id)` -/
  | unknownSnapshot (id : ℕ)
  /-- an error of a transaction or a cursor -/
  | store (code : ℕ)
  /-- Go `fmt.Errorf("failed to flush snapshot with id %d: %w", id, err)` -/
  | flushFailed (id : ℕ) (cause : MemErr)
  deriving DecidableEq, Repr

/-- Which calls on the staging transactions fail during a `Clone`, and with which error. -/
structure Faults where
  /-- Go `src.memTx.ListBuckets()` -/
  listBuckets : Option ℕ
  /-- Go `src.memTx.Cursor(bucket)` -/
  cursor : String → Option ℕ
  /-- the read number `i` of the cursor of a bucket (`First` is read 0, each `Next` one more) -/
  read : String → ℕ → Option ℕ
  /-- Go `dst.memTx.Put(bucket, k, v)` -/
  put : String → Bytes → Option ℕ

/-- No call fails. -/
def noFaults : Faults :=
  { listBuckets := none, cursor := fun _ => none, read := fun _ _ => none,
    put := fun _ _ => none }

/-- Modelled from the spec: `NewMemoryBatch(tx, tmpDir)` creates an overlay over the base
transaction with an empty staging transaction, empty bookkeeping sets and an empty snapshot
map, each freshly allocated. -/
def NewMemoryBatch (tx : ℕ) (h : Heap) : MemoryMutation × Heap :=
  ({ db := tx, memTx := h.next, deletedEntries := h.next + 1, clearedTables := h.next + 2,
     snapshots := h.next + 3 },
   { memTxs := Function.update h.memTxs h.next [],
     keySets := h.keySets,
     deleted := Function.update h.deleted (h.next + 1) [],
     cleared := Function.update h.cleared (h.next + 2) [],
     snapshots := Function.update h.snapshots (h.next + 3) [],
     next := h.next + 4 })

/-- Modelled from the spec: `Put(table, key, value)` records the write in the staging
transaction and clears any prior deleted-key record for that key. -/
def Put (m : MemoryMutation) (table : String) (k v : Bytes) (h : Heap) : Heap :=
  let h1 : Heap :=
    match mapGet (h.deleted m.deletedEntries) table with
    | some a => { h with keySets := Function.update h.keySets a (setRemove (h.keySets a) k) }
    | none => h
  { h1 with memTxs := Function.update h1.memTxs m.memTx (txPut (h1.memTxs m.memTx) table k v) }

/-- Modelled from the spec: `Delete(table, key)` records the key in the per-table deleted set,
creating the set of the table when there is none, and removes any staged value for the key. -/
def Delete (m : MemoryMutation) (table : String) (k : Bytes) (h : Heap) : Heap :=
  let h1 : Heap :=
    match mapGet (h.deleted m.deletedEntries) table with
    | some a => { h with keySets := Function.update h.keySets a (setAdd (h.keySets a) k) }
    | none =>
      { h with
        deleted := Function.update h.deleted m.deletedEntries
          (mapSet (h.deleted m.deletedEntries) table h.next),
        keySets := Function.update h.keySets h.next [k],
        next := h.next + 1 }
  { h1 with memTxs := Function.update h1.memTxs m.memTx (txDelete (h1.memTxs m.memTx) table k) }

/-- A write to the live batch. -/
inductive BatchOp where
  | put (table : String) (k v : Bytes)
  | delete (table : String) (k : Bytes)
  deriving DecidableEq, Repr

/-- The heap after a write to the batch. -/
def BatchOp.apply (m : MemoryMutation) (h : Heap) : BatchOp → Heap
  | BatchOp.put table k v => Put m table k v h
  | BatchOp.delete table k => Delete m table k h

/-- The heap after a sequence of writes to the batch. -/
def applyBatch (m : MemoryMutation) (ops : List BatchOp) (h : Heap) : Heap :=
  ops.foldl (BatchOp.apply m) h

/-- The inner loop of the copy of the deleted entries in `Clone`:
`for key := range entries { dst.deletedEntries[table][key] = struct{}{} }`; a write through a
missing entry of the outer map is a write to a nil map. -/
def cloneKeys (dst : MemoryMutation) (table : String) :
    List Bytes → Heap → Heap × Outcome MemErr
  | [], h => (h, Res.ok ())
  | key :: rest, h =>
    match mapGet (h.deleted dst.deletedEntries) table with
    | none => (h, Res.fault)
    | some a =>
      cloneKeys dst table rest
        { h with keySets := Function.update h.keySets a (setAdd (h.keySets a) key) }

/-- The loop `for table, entries := range src.deletedEntries` of `Clone`, over the entries of
the source map as read at its start. -/
def cloneDeleted (dst : MemoryMutation) : List (String × ℕ) → Heap → Heap × Outcome MemErr
  | [], h => (h, Res.ok ())
  | te :: rest, h =>
    let h1 : Heap :=
      if (mapGet (h.deleted dst.deletedEntries) te.1).isSome then h
      else
        { h with
          deleted := Function.update h.deleted dst.deletedEntries
            (mapSet (h.deleted dst.deletedEntries) te.1 h.next),
          keySets := Function.update h.keySets h.next [],
          next := h.next + 1 }
    match cloneKeys dst te.1 (h1.keySets te.2) h1 with
    | (h2, Res.ok _) => cloneDeleted dst rest h2
    | (h2, Res.error e) => (h2, Res.error e)
    | (h2, Res.fault) => (h2, Res.fault)

/-- The loop `for table := range src.clearedTables` of `Clone`. -/
def cloneCleared (dst : MemoryMutation) : List String → Heap → Heap
  | [], h => h
  | table :: rest, h =>
    cloneCleared dst rest
      { h with
        cleared := Function.update h.cleared dst.clearedTables
          (setAdd (h.cleared dst.clearedTables) table) }

/-- The cursor loop of `Clone` over the rows of one bucket, `i` reads of the cursor done:
`for k, v, err := c.First(); k != nil; k, v, err = c.Next()`.  Modelled from the spec: a
failing read returns a key that is not nil, so that the loop body returns the error; the end
of the table is a nil key without error. -/
def cloneRows (F : Faults) (dst : MemoryMutation) (bucket : String) :
    ℕ → List (Bytes × Bytes) → Heap → Heap × Outcome MemErr
  | i, [], h =>
    match F.read bucket i with
    | some e => (h, Res.error (MemErr.store e))
    | none => (h, Res.ok ())
  | i, r :: rest, h =>
    match F.read bucket i with
    | some e => (h, Res.error (MemErr.store e))
    | none =>
      match F.put bucket r.1 with
      | some e => (h, Res.error (MemErr.store e))
      | none =>
        cloneRows F dst bucket (i + 1) rest
          { h with
            memTxs := Function.update h.memTxs dst.memTx
              (txPut (h.memTxs dst.memTx) bucket r.1 r.2) }

/-- The loop `for _, bucket := range buckets` of `Clone`; the cursor of a bucket walks the rows
the bucket has in the staging transaction of the source. -/
def cloneBuckets (F : Faults) (src dst : MemoryMutation) :
    List String → Heap → Heap × Outcome MemErr
  | [], h => (h, Res.ok ())
  | bucket :: rest, h =>
    match F.cursor bucket with
    | some e => (h, Res.error (MemErr.store e))
    | none =>
      match cloneRows F dst bucket 0 ((mapGet (h.memTxs src.memTx) bucket).getD []) h with
      | (h1, Res.ok _) => cloneBuckets F src dst rest h1
      | (h1, Res.error e) => (h1, Res.error e)
      | (h1, Res.fault) => (h1, Res.fault)

/-- Go `m.Clone(tx, tmpDir, src)`; the receiver is not used. -/
def Clone (F : Faults) (tx : ℕ) (src : MemoryMutation) (h : Heap) :
    Heap × Res MemErr MemoryMutation :=
  let dst := (NewMemoryBatch tx h).1
  let h0 := (NewMemoryBatch tx h).2
  match cloneDeleted dst (h0.deleted src.deletedEntries) h0 with
  | (h1, Res.error e) => (h1, Res.error e)
  | (h1, Res.fault) => (h1, Res.fault)
  | (h1, Res.ok _) =>
    let h2 := cloneCleared dst (h1.cleared src.clearedTables) h1
    match F.listBuckets with
    | some e => (h2, Res.error (MemErr.store e))
    | none =>
      match cloneBuckets F src dst ((h2.memTxs src.memTx).map Prod.fst) h2 with
      | (h3, Res.ok _) => (h3, Res.ok dst)
      | (h3, Res.error e) => (h3, Res.error e)
      | (h3, Res.fault) => (h3, Res.fault)

/-- Go `m.Snapshot(id)`; the mutex is held for the whole call, so the call is one step. -/
def Snapshot (F : Faults) (m : MemoryMutation) (id : ℕ) (h : Heap) : Heap × Outcome MemErr :=
  if (mapGet (h.snapshots m.snapshots) id).isSome then
    (h, Res.error (MemErr.duplicateSnapshot id))
  else
    match Clone F m.db m h with
    | (h1, Res.error e) => (h1, Res.error e)
    | (h1, Res.fault) => (h1, Res.fault)
    | (h1, Res.ok snapshot) =>
      ({ h1 with
         snapshots := Function.update h1.snapshots m.snapshots
           (mapSet (h1.snapshots m.snapshots) id snapshot) }, Res.ok ())

/-- An operation of `Flush` on the target transaction. -/
inductive TxOp where
  | clearBucket (bucket : String)
  | delete (bucket : String) (k : Bytes)
  | put (bucket : String) (k v : Bytes)
  deriving DecidableEq, Repr

/-- The target transaction after an operation. -/
def TxOp.apply (tx : TxData) : TxOp → TxData
  | TxOp.clearBucket bucket => txClear tx bucket
  | TxOp.delete bucket k => txDelete tx bucket k
  | TxOp.put bucket k v => txPut tx bucket k v

/-- The pending state of a batch: the deleted keys of each table, the cleared tables, and the
staged key/value pairs with their bucket. -/
structure Pending where
  deleted : List (String × List Bytes)
  cleared : List String
  staged : List (String × Bytes × Bytes)
  deriving DecidableEq, Repr

/-- The pending state of the batch `m` in the heap. -/
def pendingOf (h : Heap) (m : MemoryMutation) : Pending :=
  { deleted := (h.deleted m.deletedEntries).map (fun te => (te.1, h.keySets te.2)),
    cleared := h.cleared m.clearedTables,
    staged := (h.memTxs m.memTx).flatMap (fun bt => bt.2.map (fun r => (bt.1, r.1, r.2))) }

/-- Modelled from the spec: the operations by which `Flush` applies a pending state to the
target: the clears first, then the deletes, then the staged writes. -/
def flushOps (p : Pending) : List TxOp :=
  p.cleared.map TxOp.clearBucket ++
    p.deleted.flatMap (fun te => te.2.map (fun k => TxOp.delete te.1 k)) ++
    p.staged.map (fun r => TxOp.put r.1 r.2.1 r.2.2)

/-- The operations applied to the target in order, `i` of them done before; the operation
number `failAt` fails, and the run stops there with its error. -/
def applyOps (failAt : Option (ℕ × ℕ)) : ℕ → List TxOp → TxData → TxData × Outcome MemErr
  | _, [], tx => (tx, Res.ok ())
  | i, op :: rest, tx =>
    match failAt with
    | some (n, e) =>
      if n = i then (tx, Res.error (MemErr.store e))
      else applyOps failAt (i + 1) rest (op.apply tx)
    | none => applyOps failAt (i + 1) rest (op.apply tx)

/-- Modelled from the spec: `m.Flush(tx)` applies the pending state of the batch to the target
transaction; `failAt` names the operation on the target that fails, if any, and its error. -/
def Flush (failAt : Option (ℕ × ℕ)) (m : MemoryMutation) (h : Heap) (tx : TxData) :
    TxData × Outcome MemErr :=
  applyOps failAt 0 (flushOps (pendingOf h m)) tx

/-- Go `m.SnapshotFlush(id, tx)`: the heap and the target transaction after the call, and the
returned error. -/
def SnapshotFlush (failAt : Option (ℕ × ℕ)) (m : MemoryMutation) (id : ℕ) (tx : TxData)
    (h : Heap) : (Heap × TxData) × Outcome MemErr :=
  match mapGet (h.snapshots m.snapshots) id with
  | none => ((h, tx), Res.error (MemErr.unknownSnapshot id))
  | some snapshot =>
    match Flush failAt snapshot h tx with
    | (tx1, Res.error e) => ((h, tx1), Res.error (MemErr.flushFailed id e))
    | (tx1, Res.fault) => ((h, tx1), Res.fault)
    | (tx1, Res.ok _) =>
      (({ h with
          snapshots := Function.update h.snapshots m.snapshots
            (mapDelete (h.snapshots m.snapshots) id) }, tx1), Res.ok ())

/-- The heap is well formed for the batch: the cells of the batch and of its inner key sets are
allocated, its maps and sets have no repeated key, and the tables of its staging transaction
are in key order. -/
def WellFormed (h : Heap) (m : MemoryMutation) : Prop :=
  m.memTx < h.next ∧ m.deletedEntries < h.next ∧ m.clearedTables < h.next ∧
  m.snapshots < h.next ∧
  (∀ te ∈ h.deleted m.deletedEntries, te.2 < h.next ∧ (h.keySets te.2).Nodup) ∧
  ((h.deleted m.deletedEntries).map Prod.fst).Nodup ∧
  (h.cleared m.clearedTables).Nodup ∧
  ((h.memTxs m.memTx).map Prod.fst).Nodup ∧
  (∀ bt ∈ h.memTxs m.memTx, Table.Sorted bt.2)

instance (h : Heap) (m : MemoryMutation) : Decidable (WellFormed h m) := by
  unfold WellFormed; infer_instance

/-- The batch of the examples: a fresh batch over the base transaction at address 0. -/
def sampleBatch : MemoryMutation := (NewMemoryBatch 0 emptyHeap).1

/-- The heap of the examples after `Put(k, v1)` on the fresh batch, with the table "T",
the key `[1]` and the value `[10]`. -/
def sampleHeap : Heap := Put sampleBatch "T" [1] [10] (NewMemoryBatch 0 emptyHeap).2

/-- The cells below the address `N` hold in `g` what they hold in `h`. -/
def AgreeBelow (N : ℕ) (h g : Heap) : Prop :=
  ∀ a < N, g.memTxs a = h.memTxs a ∧ g.keySets a = h.keySets a ∧ g.deleted a = h.deleted a ∧
    g.cleared a = h.cleared a ∧ g.snapshots a = h.snapshots a

/-- A `Clone` in which every `Put` on the staging transaction of the copy fails with error
code 7. -/
def putFails : Faults :=
  { listBuckets := none, cursor := fun _ => none, read := fun _ _ => none,
    put := fun _ _ => some 7 }

end Memdb

namespace Remote

open Bitmapdb

/-! # Ordering of node-info replies (gointerfaces/remote/sort.go) -/

/-- Go `*types.NodeInfoReply`, not nil: the two string fields the comparison reads (the struct
is declared in package `types`, outside the sources).  A Go string is its sequence of
bytes. -/
structure NodeInfoReply where
  /-- Go `Name string` -/
  Name : Bytes
  /-- Go `Enode string` -/
  Enode : Bytes
  deriving DecidableEq, Repr

/-- Go `strings.Compare(a, b)`: 0 when `a == b`, -1 when `a < b` in the byte-wise
lexicographic order, +1 otherwise. -/
def Compare (a b : Bytes) : ℤ :=
  if a = b then 0 else if bytesLt a b then -1 else 1

/-- Go `NodeInfoReplyLess(i, j)` -/
def NodeInfoReplyLess (i j : NodeInfoReply) : Bool :=
  if Compare i.Name j.Name ≠ 0 then decide (Compare i.Name j.Name = -1)
  else decide (Compare i.Enode j.Enode = -1)

end Remote

namespace Bitmapdb

/-- A second sample series: the chunk `{1, 2}` keyed by its maximum and the final chunk
`{3, 5}` keyed by the sentinel. -/
def sampleSeries2 : List (ℕ × Bitmap) := [(2, {1, 2}), (2 ^ 32 - 1, {3, 5})]

/-! # Properties -/

set_option linter.unusedVariables false

/-! ## Binary search -/

theorem searchLoop_bounds (f : ℕ → Bool) :
    ∀ fuel i j, i ≤ j → i ≤ searchLoop f fuel i j ∧ searchLoop f fuel i j ≤ j := by
  intro fuel
  induction fuel with
  | zero => intro i j h; simp [searchLoop, h]
  | succ n ih =>
    intro i j h
    unfold searchLoop
    by_cases hij : i < j
    · simp only [hij, if_true]
      by_cases hf : f ((i + j) / 2) = true
      · have := ih i ((i + j) / 2) (by omega)
        simp only [hf, Bool.not_true, Bool.false_eq_true, if_false]
        omega
      · have := ih ((i + j) / 2 + 1) j (by omega)
        simp only [Bool.not_eq_true] at hf
        simp only [hf, Bool.not_false, if_true]
        omega
    · simp [hij, h]

theorem searchLoop_below (f : ℕ → Bool) :
    ∀ fuel i j, searchLoop f fuel i j = i ∨
      (0 < searchLoop f fuel i j ∧ f (searchLoop f fuel i j - 1) = false) := by
  intro fuel
  induction fuel with
  | zero => intro i j; simp [searchLoop]
  | succ n ih =>
    intro i j
    unfold searchLoop
    by_cases hij : i < j
    · simp only [hij, if_true]
      by_cases hf : f ((i + j) / 2) = true
      · simp only [hf, Bool.not_true, Bool.false_eq_true, if_false]
        exact ih i ((i + j) / 2)
      · simp only [Bool.not_eq_true] at hf
        simp only [hf, Bool.not_false, if_true]
        rcases ih ((i + j) / 2 + 1) j with h | h
        · right
          rw [h]
          exact ⟨by omega, by simpa using hf⟩
        · exact Or.inr h
    · simp [hij]

theorem searchLoop_above (f : ℕ → Bool) :
    ∀ fuel i j, i ≤ j → j - i ≤ fuel →
      searchLoop f fuel i j = j ∨ f (searchLoop f fuel i j) = true := by
  intro fuel
  induction fuel with
  | zero => intro i j h1 h2; left; simp [searchLoop]; omega
  | succ n ih =>
    intro i j h1 h2
    unfold searchLoop
    by_cases hij : i < j
    · simp only [hij, if_true]
      by_cases hf : f ((i + j) / 2) = true
      · simp only [hf, Bool.not_true, Bool.false_eq_true, if_false]
        rcases ih i ((i + j) / 2) (by omega) (by omega) with h | h
        · right; rw [h]; exact hf
        · exact Or.inr h
      · simp only [Bool.not_eq_true] at hf
        simp only [hf, Bool.not_false, if_true]
        exact ih ((i + j) / 2 + 1) j (by omega) (by omega)
    · simp only [hij, if_false]; left; omega

theorem Search_le (n : ℕ) (f : ℕ → Bool) : Search n f ≤ n :=
  (searchLoop_bounds f n 0 n (Nat.zero_le n)).2

theorem Search_below (n : ℕ) (f : ℕ → Bool) :
    Search n f = 0 ∨ (0 < Search n f ∧ f (Search n f - 1) = false) :=
  searchLoop_below f n 0 n

theorem Search_above (n : ℕ) (f : ℕ → Bool) : Search n f = n ∨ f (Search n f) = true :=
  searchLoop_above f n 0 n (Nat.zero_le n) (by omega)

/-! ## CutLeft -/

theorem mem_rangeAnd {bm : Bitmap} {lo hi x : ℕ} :
    x ∈ rangeAnd bm lo hi ↔ x ∈ bm ∧ lo ≤ x ∧ x < hi := by
  simp [rangeAnd]

theorem mem_RemoveRange {bm : Bitmap} {lo hi x : ℕ} :
    x ∈ RemoveRange bm lo hi ↔ x ∈ bm ∧ ¬ (lo ≤ x ∧ x < hi) := by
  simp [RemoveRange]

theorem rangeAnd_full {bm : Bitmap} (h : bm.Nonempty) :
    rangeAnd bm (bm.min' h) (bm.max' h + 1) = bm := by
  ext x
  rw [mem_rangeAnd]
  constructor
  · exact fun hx => hx.1
  · intro hx
    exact ⟨hx, Finset.min'_le bm x hx, Nat.lt_succ_of_le (Finset.le_max' bm x hx)⟩

theorem CutLeftRaw_fits (R : Roaring) (bm : Bitmap) (sizeLimit : ℕ) (h : bm.Nonempty)
    (hs : R.size bm ≤ sizeLimit) : CutLeftRaw R bm sizeLimit = (some bm, ∅) := by
  unfold CutLeftRaw
  rw [dif_pos h]
  simp only [hs, if_true, rangeAnd_full h]

theorem CutLeftRaw_cut (R : Roaring) (bm : Bitmap) (sizeLimit : ℕ) (h : bm.Nonempty)
    (hs : ¬ R.size bm ≤ sizeLimit) :
    CutLeftRaw R bm sizeLimit =
      (some (rangeAnd bm (bm.min' h) (bm.min' h + cutIndex R bm sizeLimit (bm.min' h) (bm.max' h))),
        RemoveRange bm (bm.min' h) (bm.min' h + cutIndex R bm sizeLimit (bm.min' h) (bm.max' h))) := by
  unfold CutLeftRaw
  rw [dif_pos h]
  simp only [hs, if_false, cutIndex]

theorem CutLeftRaw_empty (R : Roaring) (bm : Bitmap) (sizeLimit : ℕ) (h : ¬ bm.Nonempty) :
    CutLeftRaw R bm sizeLimit = (none, bm) := by
  unfold CutLeftRaw
  rw [dif_neg h]

/-- What `CutLeftRaw` does to a non-empty bitmap: it returns the values below a bound `b` and
leaves the values from `b` on. -/
theorem CutLeftRaw_split (R : Roaring) (bm : Bitmap) (sizeLimit : ℕ) (h : bm.Nonempty) :
    ∃ b, CutLeftRaw R bm sizeLimit =
      (some (bm.filter (fun x => x < b)), bm.filter (fun x => ¬ x < b)) := by
  by_cases hs : R.size bm ≤ sizeLimit
  · refine ⟨bm.max' h + 1, ?_⟩
    rw [CutLeftRaw_fits R bm sizeLimit h hs]
    congr 1
    · congr 1
      ext x
      simp only [Finset.mem_filter, iff_self_and]
      exact fun hx => Nat.lt_succ_of_le (Finset.le_max' bm x hx)
    · ext x
      simp only [Finset.not_mem_empty, Finset.mem_filter, false_iff, not_and, not_not]
      exact fun hx => Nat.lt_succ_of_le (Finset.le_max' bm x hx)
  · refine ⟨bm.min' h + cutIndex R bm sizeLimit (bm.min' h) (bm.max' h), ?_⟩
    rw [CutLeftRaw_cut R bm sizeLimit h hs]
    congr 1
    · congr 1
      ext x
      simp only [mem_rangeAnd, Finset.mem_filter]
      constructor
      · exact fun hx => ⟨hx.1, hx.2.2⟩
      · exact fun hx => ⟨hx.1, Finset.min'_le bm x hx.1, hx.2⟩
    · ext x
      simp only [mem_RemoveRange, Finset.mem_filter, not_and]
      constructor
      · exact fun hx => ⟨hx.1, hx.2 (Finset.min'_le bm x hx.1)⟩
      · exact fun hx => ⟨hx.1, fun _ => hx.2⟩

theorem CutLeft_zero (R : Roaring) (bm : Bitmap) (sizeLimit : ℕ) :
    CutLeft 0 R bm sizeLimit = CutLeftRaw R bm sizeLimit := by
  simp [CutLeft]

/-- C1: for every non-empty 32-bit set `S` and every size limit `L`, `CutLeft(S, L)` under the
default selector returns a chunk `P` and leaves a remainder `Rm` in the source such that `P`
and `Rm` are disjoint, their union is `S`, and every element of `P` is smaller than every
element of `Rm`. -/
theorem CutLeft_prefix_split (R : Roaring) (S : Bitmap) (L : ℕ) (h32 : Is32 S)
    (hne : S.Nonempty) :
    ∃ P Rm, CutLeft 0 R S L = (some P, Rm) ∧ Disjoint P Rm ∧ P ∪ Rm = S ∧
      ∀ x ∈ P, ∀ y ∈ Rm, x < y := by
  obtain ⟨b, hb⟩ := CutLeftRaw_split R S L hne
  refine ⟨_, _, (CutLeft_zero R S L).trans hb, ?_, ?_, ?_⟩
  · exact Finset.disjoint_filter_filter_neg S S _
  · exact Finset.filter_union_filter_neg_eq _ S
  · intro x hx y hy
    simp only [Finset.mem_filter] at hx hy
    omega

theorem CutLeft_prefix_split_witness :
    Is32 {10, 20, 30, 1000000} ∧ (∃ P Rm, CutLeft 0 sampleRoaring {10, 20, 30, 1000000} 14 = (some P, Rm) ∧
      Disjoint P Rm ∧ P ∪ Rm = {10, 20, 30, 1000000} ∧ ∀ x ∈ P, ∀ y ∈ Rm, x < y) :=
  ⟨by decide, CutLeft_prefix_split sampleRoaring {10, 20, 30, 1000000} 14 (by decide) (by decide)⟩

/-- The chunk cut by the search of `CutLeftRaw` is empty or was measured within the limit by
the last probe the search accepted. -/
theorem CutLeftRaw_size (R : Roaring) (bm : Bitmap) (sizeLimit : ℕ) (P : Bitmap)
    (hs : ¬ R.size bm ≤ sizeLimit)
    (h : (CutLeftRaw R bm sizeLimit).1 = some P) : P = ∅ ∨ R.size P ≤ sizeLimit := by
  by_cases hne : bm.Nonempty
  · rw [CutLeftRaw_cut R bm sizeLimit hne hs] at h
    simp only [Option.some.injEq] at h
    rcases Search_below (bm.max' hne - bm.min' hne)
      (fun i => decide (R.size (rangeAnd bm (bm.min' hne) (bm.min' hne + i + 1)) > sizeLimit))
      with h0 | ⟨hpos, hf⟩
    · left
      rw [← h, cutIndex, h0]
      ext x
      simp only [mem_rangeAnd, Finset.not_mem_empty, iff_false]
      omega
    · right
      rw [← h, cutIndex]
      simp only [gt_iff_lt, decide_eq_false_iff_not, not_lt] at hf
      have e : bm.min' hne + (Search (bm.max' hne - bm.min' hne)
          (fun i => decide (R.size (rangeAnd bm (bm.min' hne) (bm.min' hne + i + 1)) > sizeLimit)) - 1) + 1
          = bm.min' hne + Search (bm.max' hne - bm.min' hne)
          (fun i => decide (R.size (rangeAnd bm (bm.min' hne) (bm.min' hne + i + 1)) > sizeLimit)) := by
        omega
      rw [e] at hf
      exact hf
  · rw [CutLeftRaw_empty R bm sizeLimit hne] at h
    simp at h

/-- The two cases of a cut of a non-empty bitmap.  Single chunk: the source as it stands was
measured within the limit, the chunk has all its values and the source is left empty.  Search:
the source was measured above the limit, it keeps its maximum, and the chunk is empty or was
measured within the limit. -/
theorem CutLeftRaw_cases (R : Roaring) (bm : Bitmap) (sizeLimit : ℕ) (hne : bm.Nonempty)
    (P Rm : Bitmap) (h : CutLeftRaw R bm sizeLimit = (some P, Rm)) :
    (R.size bm ≤ sizeLimit ∧ P = bm ∧ Rm = ∅) ∨
    (sizeLimit < R.size bm ∧ Rm.Nonempty ∧ (P = ∅ ∨ R.size P ≤ sizeLimit)) := by
  by_cases hs : R.size bm ≤ sizeLimit
  · left
    rw [CutLeftRaw_fits R bm sizeLimit hne hs] at h
    simp only [Prod.mk.injEq, Option.some.injEq] at h
    exact ⟨hs, h.1.symm, h.2.symm⟩
  · right
    refine ⟨by omega, ?_, CutLeftRaw_size R bm sizeLimit P hs (by rw [h])⟩
    rw [CutLeftRaw_cut R bm sizeLimit hne hs] at h
    simp only [Prod.mk.injEq] at h
    rw [← h.2]
    refine ⟨bm.max' hne, ?_⟩
    rw [mem_RemoveRange]
    refine ⟨Finset.max'_mem bm hne, ?_⟩
    have hle : cutIndex R bm sizeLimit (bm.min' hne) (bm.max' hne) ≤
        bm.max' hne - bm.min' hne := Search_le _ _
    have hmm : bm.min' hne ≤ bm.max' hne := Finset.min'_le bm _ (Finset.max'_mem bm hne)
    omega

/-! ## WalkChunks -/

theorem WalkChunks_trace {σ ε : Type} (R : Roaring) (f : σ → Option Bitmap → Bool → σ × Outcome ε)
    (L : ℕ) : ∀ (fuel : ℕ) (bm : Bitmap) (st : σ) (w : Walked σ ε),
      WalkChunks 0 R f fuel bm L st = some w →
        CutTrace R L bm w.calls w.bm ∧ (w.res = Res.ok () → w.bm = ∅) := by
  intro fuel
  induction fuel with
  | zero => intro bm st w h; simp [WalkChunks] at h
  | succ n ih =>
    intro bm st w h
    unfold WalkChunks at h
    by_cases hc : 0 < bm.card
    · simp only [hc, if_true] at h
      have hne : bm.Nonempty := Finset.card_pos.mp hc
      split at h
      · rename_i st1 u heq
        simp only [Option.map_eq_some'] at h
        obtain ⟨w1, hw1, rfl⟩ := h
        exact ⟨CutTrace.cons bm _ _ _ _ hne rfl (ih _ _ _ hw1).1, (ih _ _ _ hw1).2⟩
      · rename_i st1 r hr heq
        simp only [Option.some.injEq] at h
        subst h
        refine ⟨CutTrace.cons bm _ _ _ _ hne rfl (CutTrace.nil _), ?_⟩
        intro hok
        exact absurd hok (hr ())
    · simp only [hc, if_false, Option.some.injEq] at h
      subst h
      exact ⟨CutTrace.nil _, fun _ => by simpa using hc⟩

/-- One cut of a non-empty bitmap: the chunk holds the values below a bound, the rest stays. -/
theorem CutLeft_zero_split (R : Roaring) (bm : Bitmap) (L : ℕ) (h : bm.Nonempty) :
    ∃ b, CutLeft 0 R bm L = (some (bm.filter (fun x => x < b)), bm.filter (fun x => ¬ x < b)) := by
  obtain ⟨b, hb⟩ := CutLeftRaw_split R bm L h
  exact ⟨b, (CutLeft_zero R bm L).trans hb⟩

theorem CutTrace_chunks (R : Roaring) (L : ℕ) {bm bm1 : Bitmap}
    {calls : List (Option Bitmap × Bool)} (h : CutTrace R L bm calls bm1) :
    (∀ c ∈ calls, ∃ P, c.1 = some P) ∧
    (∀ x, x ∈ bm ↔ (∃ c ∈ chunksOf calls, x ∈ c) ∨ x ∈ bm1) ∧
    (chunksOf calls).Pairwise SetLt ∧
    (∀ c ∈ chunksOf calls, SetLt c bm1) ∧
    (∀ c ∈ calls, ∀ P, c.1 = some P →
      (c.2 = true ∧ R.size P ≤ L) ∨ (c.2 = false ∧ (P = ∅ ∨ R.size P ≤ L))) := by
  induction h with
  | nil bm => simp [chunksOf]
  | cons bm c bm0 rest bm1 hne hcut _ ih =>
    obtain ⟨ih1, ih2, ih3, ih4, ih5⟩ := ih
    obtain ⟨b, hb⟩ := CutLeft_zero_split R bm L hne
    have hsz : ∀ P, c = some P →
        (decide (bm0.card = 0) = true ∧ R.size P ≤ L) ∨
        (decide (bm0.card = 0) = false ∧ (P = ∅ ∨ R.size P ≤ L)) := by
      intro P hP
      rw [hP, CutLeft_zero] at hcut
      rcases CutLeftRaw_cases R bm L hne P bm0 hcut with ⟨h1, h2, h3⟩ | ⟨h1, h2, h3⟩
      · left
        rw [h3, h2]
        exact ⟨by simp, h1⟩
      · right
        have hc : bm0.card ≠ 0 := (Finset.card_pos.mpr h2).ne'
        exact ⟨by simp [hc], h3⟩
    rw [hcut] at hb
    simp only [Prod.mk.injEq] at hb
    obtain ⟨rfl, rfl⟩ := hb
    have hch : chunksOf ((some (bm.filter (fun x => x < b)),
        decide ((bm.filter (fun x => ¬ x < b)).card = 0)) :: rest)
        = bm.filter (fun x => x < b) :: chunksOf rest := by
      simp [chunksOf]
    rw [hch]
    refine ⟨?_, ?_, ?_, ?_, ?_⟩
    · intro c hc
      rcases List.mem_cons.mp hc with rfl | hc
      · exact ⟨_, rfl⟩
      · exact ih1 c hc
    · intro x
      have h2 := ih2 x
      simp only [Finset.mem_filter] at h2
      simp only [List.mem_cons, exists_eq_or_imp, Finset.mem_filter]
      constructor
      · intro hm
        by_cases hx : x < b
        · exact Or.inl (Or.inl ⟨hm, hx⟩)
        · rcases h2.mp ⟨hm, hx⟩ with h | h
          · exact Or.inl (Or.inr h)
          · exact Or.inr h
      · rintro ((h | h) | h)
        · exact h.1
        · exact (h2.mpr (Or.inl h)).1
        · exact (h2.mpr (Or.inr h)).1
    · rw [List.pairwise_cons]
      refine ⟨?_, ih3⟩
      intro d hd x hx y hy
      have hy2 : y ∈ bm.filter (fun x => ¬ x < b) := (ih2 y).mpr (Or.inl ⟨d, hd, hy⟩)
      simp only [Finset.mem_filter] at hx hy2
      omega
    · intro d hd
      rcases List.mem_cons.mp hd with rfl | hd
      · intro x hx y hy
        have hy2 : y ∈ bm.filter (fun x => ¬ x < b) := (ih2 y).mpr (Or.inr hy)
        simp only [Finset.mem_filter] at hx hy2
        omega
      · exact ih4 d hd
    · intro d hd P hP
      rcases List.mem_cons.mp hd with rfl | hd
      · exact hsz P hP
      · exact ih5 d hd P hP

theorem CutTrace_nil_inv (R : Roaring) (L : ℕ) {bm bm1 : Bitmap}
    (h : CutTrace R L bm [] bm1) : bm1 = bm := by
  cases h
  rfl

theorem CutTrace_cons_nonempty (R : Roaring) (L : ℕ) {bm bm1 : Bitmap}
    {c : Option Bitmap × Bool} {rest : List (Option Bitmap × Bool)}
    (h : CutTrace R L bm (c :: rest) bm1) : bm.Nonempty := by
  cases h
  assumption

/-- In a trace every call but the final one has `isLast = false`, and the final one has
`isLast = true` exactly when the source is empty afterwards. -/
theorem CutTrace_flags (R : Roaring) (L : ℕ) {bm bm1 : Bitmap}
    {calls : List (Option Bitmap × Bool)} (h : CutTrace R L bm calls bm1) :
    ∀ init last, calls = init ++ [last] →
      (∀ c ∈ init, c.2 = false) ∧ last.2 = decide (bm1.card = 0) := by
  induction h with
  | nil bm => intro init last h; simp at h
  | cons bm c bm0 rest bm1 hne hcut hrest ih =>
    intro init last heq
    cases init with
    | nil =>
      simp only [List.nil_append, List.cons.injEq] at heq
      obtain ⟨rfl, rfl⟩ := heq
      have := CutTrace_nil_inv R L hrest
      subst this
      simp
    | cons a init1 =>
      simp only [List.cons_append, List.cons.injEq] at heq
      obtain ⟨rfl, rfl⟩ := heq
      obtain ⟨ih1, ih2⟩ := ih init1 last rfl
      refine ⟨?_, ih2⟩
      have hne0 : bm0.Nonempty := by
        cases init1 with
        | nil => exact CutTrace_cons_nonempty R L hrest
        | cons _ _ => exact CutTrace_cons_nonempty R L hrest
      intro d hd
      rcases List.mem_cons.mp hd with rfl | hd
      · simpa using Finset.nonempty_iff_ne_empty.mp hne0
      · exact ih1 d hd

/-- The call number `i` has `isLast = true` exactly when the chunks handed out up to and
including it exhaust the source. -/
theorem CutTrace_flag_iff (R : Roaring) (L : ℕ) {bm bm1 : Bitmap}
    {calls : List (Option Bitmap × Bool)} (h : CutTrace R L bm calls bm1) :
    ∀ (i : ℕ) (hi : i < calls.length),
      ((calls.get ⟨i, hi⟩).2 = true ↔ ∀ x ∈ bm, ∃ c ∈ chunksOf (calls.take (i + 1)), x ∈ c) := by
  induction h with
  | nil bm => intro i hi; simp at hi
  | cons bm c bm0 rest bm1 hne hcut hrest ih =>
    intro i hi
    obtain ⟨b, hb⟩ := CutLeft_zero_split R bm L hne
    rw [hcut] at hb
    simp only [Prod.mk.injEq] at hb
    obtain ⟨rfl, rfl⟩ := hb
    cases i with
    | zero =>
      simp only [List.get_eq_getElem, List.getElem_cons_zero, decide_eq_true_eq,
        Finset.card_eq_zero, zero_add, List.take_succ_cons, List.take_zero, chunksOf,
        List.filterMap_cons, List.filterMap_nil, List.mem_singleton, exists_eq_left,
        Finset.mem_filter]
      rw [Finset.filter_eq_empty_iff]
      constructor
      · intro h x hx
        exact ⟨hx, not_not.mp (h hx)⟩
      · intro h x hx
        exact not_not.mpr (h x hx).2
    | succ j =>
      have hj : j < rest.length := by simpa using hi
      have := ih j hj
      simp only [List.get_eq_getElem, List.getElem_cons_succ] at this ⊢
      rw [this]
      simp only [List.take_succ_cons, chunksOf, List.filterMap_cons, List.mem_cons,
        exists_eq_or_imp, Finset.mem_filter]
      constructor
      · intro h x hx
        by_cases hxb : x < b
        · exact Or.inl ⟨hx, hxb⟩
        · exact Or.inr (h x ⟨hx, hxb⟩)
      · intro h x hx
        rcases h x hx.1 with h1 | h1
        · exact absurd h1.2 hx.2
        · exact h1

theorem mem_FastOr_aux (l : List Bitmap) : ∀ (acc : Bitmap) (x : ℕ),
    x ∈ l.foldl (fun acc c => acc ∪ c) acc ↔ x ∈ acc ∨ ∃ c ∈ l, x ∈ c := by
  induction l with
  | nil => intro acc x; simp
  | cons a l ih =>
    intro acc x
    rw [List.foldl_cons, ih]
    simp only [Finset.mem_union, List.mem_cons, exists_eq_or_imp]
    tauto

theorem mem_FastOr (l : List Bitmap) (x : ℕ) : x ∈ FastOr l ↔ ∃ c ∈ l, x ∈ c := by
  simp [FastOr, mem_FastOr_aux]

theorem SetLt.disjoint {A B : Bitmap} (h : SetLt A B) : Disjoint A B := by
  rw [Finset.disjoint_left]
  intro x hx hy
  exact absurd (h x hx x hy) (lt_irrefl x)

/-- C2 as stated fails: with a limit below the serialized size of the empty bitmap, `CutLeft`
returns the empty chunk, whose size exceeds the limit. -/
theorem CutLeft_chunk_size_fails :
    ∃ P, (CutLeft 0 sampleRoaring {3, 5} 0).1 = some P ∧ ¬ sampleRoaring.size P ≤ 0 :=
  ⟨∅, by decide, by decide⟩

/-- C2 (amended): for every non-empty 32-bit set `S` and size limit `L`, `CutLeft(S, L)` is
in one of two cases.  Search: `S` as it stands serializes to more than `L`, the source keeps
values, and the chunk is empty or has serialized size at most `L`.  Single chunk: `S` as it
stands serializes within `L`, the chunk has exactly the values of `S` and the source is left
empty; the chunk is `S` rebuilt and run-optimised, and its size is the size of that rebuilt
bitmap, which the code does not compare with `L`.  Every chunk that `WalkChunks` passes to
the visitor is of one of these two kinds, the single chunk being the one flagged as last.  So
every chunk is empty or within `L` whenever rebuilding never enlarges a bitmap. -/
theorem CutLeft_chunk_size (R : Roaring) (S : Bitmap) (L : ℕ) (h32 : Is32 S) (hne : S.Nonempty) :
    (∃ P Rm, CutLeft 0 R S L = (some P, Rm) ∧
      ((L < R.size S ∧ Rm.Nonempty ∧
          (P = ∅ ∨ chunkSize R P (decide (Rm.card = 0)) ≤ L)) ∨
        (R.size S ≤ L ∧ P = S ∧ Rm = ∅ ∧
          chunkSize R P (decide (Rm.card = 0)) = R.sizeRebuilt S))) ∧
    (∀ (σ ε : Type) (f : σ → Option Bitmap → Bool → σ × Outcome ε) (fuel : ℕ) (st : σ)
      (w : Walked σ ε), WalkChunks 0 R f fuel S L st = some w →
        ∀ c ∈ w.calls, ∃ P, c.1 = some P ∧
          ((c.2 = false ∧ (P = ∅ ∨ chunkSize R P c.2 ≤ L)) ∨
            (c.2 = true ∧ R.size P ≤ L ∧ chunkSize R P c.2 = R.sizeRebuilt P))) ∧
    ((∀ T, R.sizeRebuilt T ≤ R.size T) →
      (∃ P Rm, CutLeft 0 R S L = (some P, Rm) ∧
        (P = ∅ ∨ chunkSize R P (decide (Rm.card = 0)) ≤ L)) ∧
      ∀ (σ ε : Type) (f : σ → Option Bitmap → Bool → σ × Outcome ε) (fuel : ℕ) (st : σ)
        (w : Walked σ ε), WalkChunks 0 R f fuel S L st = some w →
          ∀ c ∈ w.calls, ∃ P, c.1 = some P ∧ (P = ∅ ∨ chunkSize R P c.2 ≤ L)) := by
  have hone : ∃ P Rm, CutLeft 0 R S L = (some P, Rm) ∧
      ((L < R.size S ∧ Rm.Nonempty ∧
          (P = ∅ ∨ chunkSize R P (decide (Rm.card = 0)) ≤ L)) ∨
        (R.size S ≤ L ∧ P = S ∧ Rm = ∅ ∧
          chunkSize R P (decide (Rm.card = 0)) = R.sizeRebuilt S)) := by
    obtain ⟨b, hb⟩ := CutLeft_zero_split R S L hne
    refine ⟨_, _, hb, ?_⟩
    rw [CutLeft_zero] at hb
    rcases CutLeftRaw_cases R S L hne _ _ hb with ⟨h1, h2, h3⟩ | ⟨h1, h2, h3⟩
    · right
      refine ⟨h1, h2, h3, ?_⟩
      rw [h3, h2]
      simp [chunkSize]
    · left
      refine ⟨h1, h2, ?_⟩
      have hc : ¬ (S.filter (fun x => ¬ x < b)).card = 0 := (Finset.card_pos.mpr h2).ne'
      rw [decide_eq_false hc]
      unfold chunkSize
      simp only [Bool.false_eq_true, if_false]
      exact h3
  have hwalk : ∀ (σ ε : Type) (f : σ → Option Bitmap → Bool → σ × Outcome ε) (fuel : ℕ)
      (st : σ) (w : Walked σ ε), WalkChunks 0 R f fuel S L st = some w →
        ∀ c ∈ w.calls, ∃ P, c.1 = some P ∧
          ((c.2 = false ∧ (P = ∅ ∨ chunkSize R P c.2 ≤ L)) ∨
            (c.2 = true ∧ R.size P ≤ L ∧ chunkSize R P c.2 = R.sizeRebuilt P)) := by
    intro σ ε f fuel st w hw c hc
    obtain ⟨h1, -, -, -, h5⟩ := CutTrace_chunks R L (WalkChunks_trace R f L fuel S st w hw).1
    obtain ⟨P, hP⟩ := h1 c hc
    refine ⟨P, hP, ?_⟩
    rcases h5 c hc P hP with ⟨h6, h7⟩ | ⟨h6, h7⟩
    · right
      exact ⟨h6, h7, by simp [chunkSize, h6]⟩
    · left
      exact ⟨h6, by simpa [chunkSize, h6] using h7⟩
  refine ⟨hone, hwalk, ?_⟩
  intro hle
  constructor
  · obtain ⟨P, Rm, h1, h2⟩ := hone
    refine ⟨P, Rm, h1, ?_⟩
    rcases h2 with ⟨-, -, h3⟩ | ⟨h3, h4, -, h5⟩
    · exact h3
    · right
      rw [h5]
      exact le_trans (hle S) h3
  · intro σ ε f fuel st w hw c hc
    obtain ⟨P, hP, h2⟩ := hwalk σ ε f fuel st w hw c hc
    refine ⟨P, hP, ?_⟩
    rcases h2 with ⟨-, h3⟩ | ⟨-, h3, h4⟩
    · exact h3
    · right
      rw [h4]
      exact le_trans (hle P) h3

theorem CutLeft_chunk_size_witness :
    Is32 {10, 20, 30, 1000000} ∧ ({10, 20, 30, 1000000} : Bitmap).Nonempty ∧
    (∀ T, sampleRoaring.sizeRebuilt T ≤ sampleRoaring.size T) ∧
    CutLeft 0 sampleRoaring {10, 20, 30, 1000000} 14 = (some {10, 20, 30}, {1000000}) ∧
    chunkSize sampleRoaring {10, 20, 30} false = 14 ∧
    ((∃ P Rm, CutLeft 0 sampleRoaring {10, 20, 30, 1000000} 14 = (some P, Rm) ∧
        (P = ∅ ∨ chunkSize sampleRoaring P (decide (Rm.card = 0)) ≤ 14)) ∧
      ∀ (σ ε : Type) (f : σ → Option Bitmap → Bool → σ × Outcome ε) (fuel : ℕ) (st : σ)
        (w : Walked σ ε), WalkChunks 0 sampleRoaring f fuel {10, 20, 30, 1000000} 14 st = some w →
          ∀ c ∈ w.calls, ∃ P, c.1 = some P ∧ (P = ∅ ∨ chunkSize sampleRoaring P c.2 ≤ 14)) :=
  ⟨by decide, by decide, fun _ => le_refl _, by decide, by decide,
    (CutLeft_chunk_size sampleRoaring {10, 20, 30, 1000000} 14 (by decide) (by decide)).2.2
      (fun _ => le_refl _)⟩

/-- C6: for every non-empty 32-bit set `S` and size limit `L` for which `WalkChunks(S, L, visit)`
returns without error, every call of the visitor receives a chunk, the chunks are pairwise
disjoint, their union is `S`, and they arrive in increasing value order: every element of an
earlier chunk is smaller than every element of a later chunk. -/
theorem WalkChunks_partition (R : Roaring) (S : Bitmap) (L : ℕ) (h32 : Is32 S)
    (hne : S.Nonempty) {σ ε : Type} (f : σ → Option Bitmap → Bool → σ × Outcome ε) (fuel : ℕ)
    (st : σ) (w : Walked σ ε) (hw : WalkChunks 0 R f fuel S L st = some w)
    (hok : w.res = Res.ok ()) :
    (∀ c ∈ w.calls, ∃ P, c.1 = some P) ∧
    (chunksOf w.calls).Pairwise Disjoint ∧
    FastOr (chunksOf w.calls) = S ∧
    (chunksOf w.calls).Pairwise SetLt := by
  obtain ⟨htr, hemp⟩ := WalkChunks_trace R f L fuel S st w hw
  obtain ⟨h1, h2, h3, -, -⟩ := CutTrace_chunks R L htr
  refine ⟨h1, h3.imp (fun h => h.disjoint), ?_, h3⟩
  ext x
  rw [mem_FastOr, h2 x, hemp hok]
  simp

theorem WalkChunks_partition_witness :
    Is32 {1, 2, 3} ∧ ({1, 2, 3} : Bitmap).Nonempty ∧
    WalkChunks 0 sampleRoaring acceptAll 5 {1, 2, 3} 12 () =
      some ⟨(), ∅, Res.ok (), [(some {1, 2}, false), (some {3}, true)]⟩ ∧
    ((∀ c ∈ [((some {1, 2} : Option Bitmap), false), (some {3}, true)], ∃ P, c.1 = some P) ∧
      (chunksOf [(some {1, 2}, false), (some {3}, true)]).Pairwise Disjoint ∧
      FastOr (chunksOf [(some {1, 2}, false), (some {3}, true)]) = {1, 2, 3} ∧
      (chunksOf [(some {1, 2}, false), (some {3}, true)]).Pairwise SetLt) :=
  ⟨by decide, by decide, by decide,
    WalkChunks_partition sampleRoaring {1, 2, 3} 12 (by decide) (by decide) acceptAll 5 ()
      ⟨(), ∅, Res.ok (), [(some {1, 2}, false), (some {3}, true)]⟩ (by decide) rfl⟩

/-- C7: in a `WalkChunks` run on a non-empty 32-bit set that completes without error, the
source is empty on return, `isLast` is false on every call but the final one and true on the
final one; and a call has `isLast = true` exactly when the chunks cut up to and including it
exhaust the source. -/
theorem WalkChunks_isLast (R : Roaring) (S : Bitmap) (L : ℕ) (h32 : Is32 S)
    (hne : S.Nonempty) {σ ε : Type} (f : σ → Option Bitmap → Bool → σ × Outcome ε) (fuel : ℕ)
    (st : σ) (w : Walked σ ε) (hw : WalkChunks 0 R f fuel S L st = some w)
    (hok : w.res = Res.ok ()) :
    w.bm = ∅ ∧
    (∃ init last, w.calls = init ++ [last] ∧ last.2 = true ∧ ∀ c ∈ init, c.2 = false) ∧
    ∀ (i : ℕ) (hi : i < w.calls.length),
      ((w.calls.get ⟨i, hi⟩).2 = true ↔
        ∀ x ∈ S, ∃ c ∈ chunksOf (w.calls.take (i + 1)), x ∈ c) := by
  obtain ⟨htr, hemp⟩ := WalkChunks_trace R f L fuel S st w hw
  have hb := hemp hok
  refine ⟨hb, ?_, CutTrace_flag_iff R L htr⟩
  rcases List.eq_nil_or_concat w.calls with h | ⟨init, last, h⟩
  · rw [h] at htr
    have := CutTrace_nil_inv R L htr
    rw [hb] at this
    exact absurd this.symm (Finset.nonempty_iff_ne_empty.mp hne)
  · rw [List.concat_eq_append] at h
    obtain ⟨h1, h2⟩ := CutTrace_flags R L htr init last h
    refine ⟨init, last, h, ?_, h1⟩
    rw [h2, hb]
    simp

theorem WalkChunks_isLast_witness :
    Is32 {1, 2, 3} ∧ ({1, 2, 3} : Bitmap).Nonempty ∧
    WalkChunks 0 sampleRoaring acceptAll 5 {1, 2, 3} 12 () =
      some ⟨(), ∅, Res.ok (), [(some {1, 2}, false), (some {3}, true)]⟩ ∧
    ((∅ : Bitmap) = ∅ ∧
      (∃ init last, [((some {1, 2} : Option Bitmap), false), (some {3}, true)] = init ++ [last] ∧
        last.2 = true ∧ ∀ c ∈ init, c.2 = false) ∧
      ∀ (i : ℕ) (hi : i < [((some {1, 2} : Option Bitmap), false), (some {3}, true)].length),
        (([((some {1, 2} : Option Bitmap), false), (some {3}, true)].get ⟨i, hi⟩).2 = true ↔
          ∀ x ∈ ({1, 2, 3} : Bitmap), ∃ c ∈ chunksOf
            (([((some {1, 2} : Option Bitmap), false), (some {3}, true)]).take (i + 1)), x ∈ c)) :=
  ⟨by decide, by decide, by decide,
    WalkChunks_isLast sampleRoaring {1, 2, 3} 12 (by decide) (by decide) acceptAll 5 ()
      ⟨(), ∅, Res.ok (), [(some {1, 2}, false), (some {3}, true)]⟩ (by decide) rfl⟩

/-! ## Keys -/

theorem bytesLt_irrefl : ∀ a : Bytes, bytesLt a a = false := by
  intro a
  induction a with
  | nil => rfl
  | cons x xs ih => simp [bytesLt, ih]

theorem bytesLt_trans : ∀ a b c : Bytes, bytesLt a b = true → bytesLt b c = true →
    bytesLt a c = true := by
  intro a
  induction a with
  | nil =>
    intro b c h1 h2
    cases b with
    | nil => simp [bytesLt] at h1
    | cons y ys =>
      cases c with
      | nil => simp [bytesLt] at h2
      | cons z zs => simp [bytesLt]
  | cons x xs ih =>
    intro b c h1 h2
    cases b with
    | nil => simp [bytesLt] at h1
    | cons y ys =>
      cases c with
      | nil => simp [bytesLt] at h2
      | cons z zs =>
        simp only [bytesLt, Bool.or_eq_true, decide_eq_true_eq, Bool.and_eq_true] at h1 h2 ⊢
        rcases h1 with h1 | ⟨h1, h1t⟩
        · rcases h2 with h2 | ⟨h2, _⟩
          · exact Or.inl (by omega)
          · exact Or.inl (by omega)
        · rcases h2 with h2 | ⟨h2, h2t⟩
          · exact Or.inl (by omega)
          · exact Or.inr ⟨by omega, ih ys zs h1t h2t⟩

theorem bytesLt_asymm (a b : Bytes) (h : bytesLt a b = true) : bytesLt b a = false := by
  cases hba : bytesLt b a with
  | false => rfl
  | true =>
    have := bytesLt_trans a b a h hba
    rw [bytesLt_irrefl] at this
    exact absurd this (by simp)

theorem bytesLt_total : ∀ a b : Bytes, bytesLt a b = false → bytesLt b a = false → a = b := by
  intro a
  induction a with
  | nil =>
    intro b h1 h2
    cases b with
    | nil => rfl
    | cons y ys => simp [bytesLt] at h1
  | cons x xs ih =>
    intro b h1 h2
    cases b with
    | nil => simp [bytesLt] at h2
    | cons y ys =>
      simp only [bytesLt, Bool.or_eq_false_iff, decide_eq_false_iff_not, Bool.and_eq_false_imp,
        decide_eq_true_eq] at h1 h2
      have hxy : x = y := by omega
      subst hxy
      rw [ih ys (h1.2 rfl) (h2.2 rfl)]

theorem bytesLt_append_left (p a b : Bytes) : bytesLt (p ++ a) (p ++ b) = bytesLt a b := by
  induction p with
  | nil => rfl
  | cons x xs ih => simp [bytesLt, ih]

theorem bigEndian32_value (u : ℕ) (hu : u < 2 ^ 32) :
    u / 2 ^ 24 % 256 * 2 ^ 24 + u / 2 ^ 16 % 256 * 2 ^ 16 + u / 2 ^ 8 % 256 * 2 ^ 8 + u % 256
      = u := by
  have h1 : u / 2 ^ 16 = u / 2 ^ 8 / 2 ^ 8 := by rw [Nat.div_div_eq_div_mul]; norm_num
  have h2 : u / 2 ^ 24 = u / 2 ^ 8 / 2 ^ 8 / 2 ^ 8 := by
    rw [Nat.div_div_eq_div_mul, Nat.div_div_eq_div_mul]; norm_num
  rw [h2, h1]
  norm_num at hu ⊢
  omega

theorem bytesLt_digits (a0 a1 a2 a3 b0 b1 b2 b3 : ℕ) (ha1 : a1 < 256) (ha2 : a2 < 256)
    (ha3 : a3 < 256) (hb1 : b1 < 256) (hb2 : b2 < 256) (hb3 : b3 < 256) :
    bytesLt [a0, a1, a2, a3] [b0, b1, b2, b3] =
      decide (a0 * 2 ^ 24 + a1 * 2 ^ 16 + a2 * 2 ^ 8 + a3 <
        b0 * 2 ^ 24 + b1 * 2 ^ 16 + b2 * 2 ^ 8 + b3) := by
  by_cases h : a0 * 2 ^ 24 + a1 * 2 ^ 16 + a2 * 2 ^ 8 + a3 <
      b0 * 2 ^ 24 + b1 * 2 ^ 16 + b2 * 2 ^ 8 + b3
  · simp only [h, decide_True]
    simp only [bytesLt, Bool.or_eq_true, decide_eq_true_eq, Bool.and_eq_true,
      Bool.or_false, Bool.and_false]
    omega
  · simp only [h, decide_False]
    simp only [bytesLt, Bool.or_eq_false_iff, decide_eq_false_iff_not,
      Bool.and_eq_false_imp, decide_eq_true_eq, Bool.or_false, Bool.and_false]
    omega

theorem bytesLt_bigEndian32 (u v : ℕ) (hu : u < 2 ^ 32) (hv : v < 2 ^ 32) :
    bytesLt (bigEndian32 u) (bigEndian32 v) = decide (u < v) := by
  unfold bigEndian32
  rw [bytesLt_digits _ _ _ _ _ _ _ _ (Nat.mod_lt _ (by norm_num)) (Nat.mod_lt _ (by norm_num))
    (Nat.mod_lt _ (by norm_num)) (Nat.mod_lt _ (by norm_num)) (Nat.mod_lt _ (by norm_num))
    (Nat.mod_lt _ (by norm_num)), bigEndian32_value u hu, bigEndian32_value v hv]

theorem Uint32_bigEndian32 (u : ℕ) (hu : u < 2 ^ 32) (rest : Bytes) :
    Uint32 (bigEndian32 u ++ rest) = some u := by
  simp only [bigEndian32, Uint32, List.cons_append, List.nil_append, Option.some.injEq]
  exact bigEndian32_value u hu

theorem bytesLt_key (p : Bytes) (u v : ℕ) (hu : u < 2 ^ 32) (hv : v < 2 ^ 32) :
    bytesLt (p ++ bigEndian32 u) (p ++ bigEndian32 v) = decide (u < v) := by
  rw [bytesLt_append_left, bytesLt_bigEndian32 u v hu hv]

theorem copy_make (k : Bytes) (n : ℕ) :
    copy (List.replicate (k.length + n) 0) k = k ++ List.replicate n 0 := by
  simp [copy, List.take_of_length_le]

theorem chunkKeyOf_last (k : Bytes) (chunk : Option Bitmap) :
    chunkKeyOf k chunk true = some (k ++ bigEndian32 (2 ^ 32 - 1)) := by
  simp [chunkKeyOf, copy_make, PutUint32, bigEndian32]

theorem chunkKeyOf_notLast (k : Bytes) (chunk : Option Bitmap) :
    chunkKeyOf k chunk false =
      (chunk.bind Maximum).map (fun m => k ++ bigEndian32 m) := by
  cases chunk with
  | none => simp [chunkKeyOf]
  | some c =>
    cases h : Maximum c with
    | none => simp [chunkKeyOf, h]
    | some m => simp [chunkKeyOf, h, copy_make, PutUint32, bigEndian32]

/-- What the closure of `WalkChunkWithKeys` does over a whole walk: the visitor is called once
for each `WalkChunks` call whose key computation does not fault, and its state is threaded
through these calls. -/
theorem keyedVisit_log {σ ε : Type} (myType : ℤ) (R : Roaring) (k : Bytes)
    (f : σ → Bytes → Option Bitmap → σ × Outcome ε) (L : ℕ) :
    ∀ (fuel : ℕ) (bm : Bitmap) (s : σ × List (Bytes × Option Bitmap))
      (w : Walked (σ × List (Bytes × Option Bitmap)) ε),
      WalkChunks myType R (keyedVisit k f) fuel bm L s = some w →
        w.st.2 = s.2 ++ keyedCalls k w.calls ∧
        w.st.1 = (keyedCalls k w.calls).foldl (fun t kc => (f t kc.1 kc.2).1) s.1 ∧
        (w.res = Res.ok () → ∀ c ∈ w.calls, ∃ key, chunkKeyOf k c.1 c.2 = some key) := by
  intro fuel
  induction fuel with
  | zero => intro bm s w h; simp [WalkChunks] at h
  | succ n ih =>
    intro bm s w h
    unfold WalkChunks at h
    by_cases hc : 0 < bm.card
    · simp only [hc, if_true] at h
      generalize CutLeft myType R bm L = cut at h
      generalize decide (cut.2.card = 0) = flag at h
      cases hk : chunkKeyOf k cut.1 flag with
      | none =>
        have hv : keyedVisit k f s cut.1 flag = (s, Res.fault) := by
          simp [keyedVisit, hk]
        rw [hv] at h
        simp only [Option.some.injEq] at h
        subst h
        simp [keyedCalls, hk]
      | some key =>
        have hv : keyedVisit k f s cut.1 flag =
            (((f s.1 key cut.1).1, s.2 ++ [(key, cut.1)]), (f s.1 key cut.1).2) := by
          simp [keyedVisit, hk]
        rw [hv] at h
        have hkc : ∀ rest, keyedCalls k ((cut.1, flag) :: rest) =
            (key, cut.1) :: keyedCalls k rest := by
          intro rest
          simp [keyedCalls, hk]
        split at h
        · rename_i st1 u heq
          simp only [Option.map_eq_some'] at h
          obtain ⟨w1, hw1, rfl⟩ := h
          obtain ⟨i1, i2, i3⟩ := ih _ _ _ hw1
          simp only [Prod.mk.injEq] at heq
          obtain ⟨rfl, -⟩ := heq
          refine ⟨?_, ?_, ?_⟩
          · simp only [hkc, i1, List.append_assoc, List.singleton_append]
          · simp only [hkc, i2, List.foldl_cons]
          · intro hok c hcm
            rcases List.mem_cons.mp hcm with rfl | hcm
            · exact ⟨key, hk⟩
            · exact i3 hok c hcm
        · rename_i st1 r hr heq
          simp only [Option.some.injEq] at h
          subst h
          simp only [Prod.mk.injEq] at heq
          obtain ⟨rfl, rfl⟩ := heq
          refine ⟨?_, ?_, ?_⟩
          · rw [hkc]; simp [keyedCalls]
          · rw [hkc]; simp [keyedCalls]
          · intro hok
            exact absurd hok (hr ())
    · simp only [hc, if_false, Option.some.injEq] at h
      subst h
      simp [keyedCalls]

/-- C8: in a `WalkChunkWithKeys` run with prefix `k`, every call `(chunkKey, chunk)` of the visitor
belongs to a chunk `(chunk, isLast)` cut by `WalkChunks`; the key has length `len(k)+4`, its first
`len(k)` bytes are `k`, and its last 4 bytes are `0xFFFFFFFF` when the chunk is the last and the
big-endian encoding of the chunk's maximum element otherwise.  The same `k` heads every key: the
prefix is not modified between calls. -/
theorem WalkChunkWithKeys_key_layout {σ ε : Type} (myType : ℤ) (R : Roaring) (k : Bytes)
    (f : σ → Bytes → Option Bitmap → σ × Outcome ε) (fuel : ℕ) (m : Bitmap) (L : ℕ) (st : σ)
    (w : Walked (σ × List (Bytes × Option Bitmap)) ε)
    (hw : WalkChunkWithKeys myType R k f fuel m L st = some w) :
    ∀ kc ∈ w.st.2, ∃ isLast, (kc.2, isLast) ∈ w.calls ∧
      kc.1.length = k.length + 4 ∧ kc.1.take k.length = k ∧
      (isLast = true → kc.1.drop k.length = [255, 255, 255, 255]) ∧
      (isLast = false → ∃ P mx, kc.2 = some P ∧ Maximum P = some mx ∧
        kc.1.drop k.length = [mx / 2 ^ 24 % 256, mx / 2 ^ 16 % 256, mx / 2 ^ 8 % 256, mx % 256]) := by
  intro kc hkc
  obtain ⟨h1, -, -⟩ := keyedVisit_log myType R k f L fuel m (st, []) w hw
  rw [h1] at hkc
  simp only [List.nil_append, keyedCalls, List.mem_filterMap, Option.map_eq_some'] at hkc
  obtain ⟨c, hc, key, hkey, rfl⟩ := hkc
  obtain ⟨chunk, isLast⟩ := c
  refine ⟨isLast, hc, ?_⟩
  cases isLast with
  | true =>
    rw [chunkKeyOf_last] at hkey
    simp only [Option.some.injEq] at hkey
    subst hkey
    simp [bigEndian32]
  | false =>
    rw [chunkKeyOf_notLast] at hkey
    simp only [Option.map_eq_some', Option.bind_eq_some] at hkey
    obtain ⟨mx, ⟨P, hP, hmx⟩, rfl⟩ := hkey
    simp only [List.length_append, bigEndian32, List.length_cons, List.length_nil,
      List.take_left', List.drop_left', true_and, Bool.false_eq_true, false_implies,
      forall_const]
    exact ⟨P, mx, hP, hmx, rfl⟩

theorem WalkChunkWithKeys_key_layout_witness :
    WalkChunkWithKeys 0 sampleRoaring [7] (putChunk sampleRoaring) 5 {1, 2, 3} 12 [] =
      some ⟨([([7, 0, 0, 0, 2], [0, 1, 1]), ([7, 255, 255, 255, 255], [0, 0, 0, 1])],
          [([7, 0, 0, 0, 2], some {1, 2}), ([7, 255, 255, 255, 255], some {3})]),
        ∅, Res.ok (), [(some {1, 2}, false), (some {3}, true)]⟩ ∧
    ∀ kc ∈ [(([7, 0, 0, 0, 2] : Bytes), (some {1, 2} : Option Bitmap)),
        ([7, 255, 255, 255, 255], some {3})],
      ∃ isLast, (kc.2, isLast) ∈ [((some {1, 2} : Option Bitmap), false), (some {3}, true)] ∧
        kc.1.length = [7].length + 4 ∧ kc.1.take [7].length = [7] ∧
        (isLast = true → kc.1.drop [7].length = [255, 255, 255, 255]) ∧
        (isLast = false → ∃ P mx, kc.2 = some P ∧ Maximum P = some mx ∧
          kc.1.drop [7].length =
            [mx / 2 ^ 24 % 256, mx / 2 ^ 16 % 256, mx / 2 ^ 8 % 256, mx % 256]) :=
  ⟨by decide,
    WalkChunkWithKeys_key_layout 0 sampleRoaring [7] (putChunk sampleRoaring) 5 {1, 2, 3} 12 []
      ⟨([([7, 0, 0, 0, 2], [0, 1, 1]), ([7, 255, 255, 255, 255], [0, 0, 0, 1])],
          [([7, 0, 0, 0, 2], some {1, 2}), ([7, 255, 255, 255, 255], some {3})]),
        ∅, Res.ok (), [(some {1, 2}, false), (some {3}, true)]⟩ (by decide)⟩

theorem Maximum_eq_some {c : Bitmap} {mx : ℕ} (h : Maximum c = some mx) :
    mx ∈ c ∧ ∀ x ∈ c, x ≤ mx := by
  unfold Maximum at h
  split at h
  · rename_i hne
    simp only [Option.some.injEq] at h
    subst h
    exact ⟨Finset.max'_mem c hne, fun x hx => Finset.le_max' c x hx⟩
  · simp at h

theorem Maximum_eq_none {c : Bitmap} (h : Maximum c = none) : c = ∅ := by
  unfold Maximum at h
  split at h
  · simp at h
  · rename_i hne
    exact Finset.not_nonempty_iff_eq_empty.mp hne

theorem bigEndian32_ne (u v : ℕ) (hu : u < 2 ^ 32) (hv : v < 2 ^ 32) (h : u < v) :
    bigEndian32 u ≠ bigEndian32 v := by
  intro he
  have h1 := bytesLt_bigEndian32 u v hu hv
  rw [he, bytesLt_irrefl] at h1
  simp [h] at h1

theorem keyedCalls_cons_some (k : Bytes) (c : Option Bitmap × Bool)
    (rest : List (Option Bitmap × Bool)) (key : Bytes) (h : chunkKeyOf k c.1 c.2 = some key) :
    keyedCalls k (c :: rest) = (key, c.1) :: keyedCalls k rest := by
  simp [keyedCalls, h]

theorem keyedCalls_cons_none (k : Bytes) (c : Option Bitmap × Bool)
    (rest : List (Option Bitmap × Bool)) (h : chunkKeyOf k c.1 c.2 = none) :
    keyedCalls k (c :: rest) = keyedCalls k rest := by
  simp [keyedCalls, h]

/-- The keys computed along a trace: each is the prefix followed by the encoding of a bound that
is at least some value of the source; they increase strictly; a chunk that is not the last holds
no value `0xFFFFFFFF`. -/
theorem CutTrace_keys (R : Roaring) (L : ℕ) (k : Bytes) {bm bm1 : Bitmap}
    {calls : List (Option Bitmap × Bool)} (h : CutTrace R L bm calls bm1) :
    Is32 bm →
    (∀ kc ∈ keyedCalls k calls, ∃ u, kc.1 = k ++ bigEndian32 u ∧ u < 2 ^ 32 ∧ ∃ x ∈ bm, x ≤ u) ∧
    (keyedCalls k calls).Pairwise (fun a b => bytesLt a.1 b.1 = true) ∧
    (∀ c ∈ calls, c.2 = false → ∀ P, c.1 = some P → ∀ x ∈ P, x < 2 ^ 32 - 1) := by
  induction h with
  | nil bm => intro _; simp [keyedCalls]
  | cons bm c bm0 rest bm1 hne hcut hrest ih =>
    intro h32
    obtain ⟨b, hb⟩ := CutLeft_zero_split R bm L hne
    rw [hcut] at hb
    simp only [Prod.mk.injEq] at hb
    obtain ⟨rfl, rfl⟩ := hb
    have h32r : Is32 (bm.filter (fun x => ¬ x < b)) := fun x hx => h32 x (Finset.mem_filter.mp hx).1
    obtain ⟨ih1, ih2, ih3⟩ := ih h32r
    by_cases hflag : (bm.filter (fun x => ¬ x < b)).card = 0
    · -- the last chunk
      have hnil : rest = [] := by
        cases rest with
        | nil => rfl
        | cons a l =>
          have := CutTrace_cons_nonempty R L hrest
          rw [Finset.card_eq_zero] at hflag
          rw [hflag] at this
          exact absurd this Finset.not_nonempty_empty
      subst hnil
      have hkc : keyedCalls k [(some (bm.filter (fun x => x < b)),
          decide ((bm.filter (fun x => ¬ x < b)).card = 0))] =
          [(k ++ bigEndian32 (2 ^ 32 - 1), some (bm.filter (fun x => x < b)))] := by
        rw [keyedCalls_cons_some k _ _ (k ++ bigEndian32 (2 ^ 32 - 1))]
        · rfl
        · rw [decide_eq_true hflag]
          exact chunkKeyOf_last k _
      rw [hkc]
      refine ⟨?_, by simp, ?_⟩
      · intro kc hkcm
        rw [List.mem_singleton] at hkcm
        subst hkcm
        obtain ⟨x, hx⟩ := hne
        exact ⟨2 ^ 32 - 1, rfl, by norm_num, x, hx, by have := h32 x hx; omega⟩
      · intro c hc hf
        rw [List.mem_singleton] at hc
        subst hc
        rw [decide_eq_true hflag] at hf
        simp at hf
    · -- a chunk that is not the last
      have hrem : (bm.filter (fun x => ¬ x < b)).Nonempty :=
        Finset.card_pos.mp (Nat.pos_of_ne_zero hflag)
      obtain ⟨y, hy⟩ := hrem
      have hyb : b ≤ y := by have := (Finset.mem_filter.mp hy).2; omega
      have hy32 : y < 2 ^ 32 := h32 y (Finset.mem_filter.mp hy).1
      have h3 : ∀ c ∈ ((some (bm.filter (fun x => x < b)),
          decide ((bm.filter (fun x => ¬ x < b)).card = 0)) :: rest), c.2 = false →
          ∀ P, c.1 = some P → ∀ x ∈ P, x < 2 ^ 32 - 1 := by
        intro c hc hf P hP x hx
        rcases List.mem_cons.mp hc with rfl | hc
        · simp only [Option.some.injEq] at hP
          subst hP
          have := (Finset.mem_filter.mp hx).2
          omega
        · exact ih3 c hc hf P hP x hx
      have h1r : ∀ kc ∈ keyedCalls k rest,
          ∃ u, kc.1 = k ++ bigEndian32 u ∧ u < 2 ^ 32 ∧ ∃ x ∈ bm, x ≤ u := by
        intro kc hkcm
        obtain ⟨u, hu1, hu2, x, hx, hxu⟩ := ih1 kc hkcm
        exact ⟨u, hu1, hu2, x, (Finset.mem_filter.mp hx).1, hxu⟩
      cases hmx : Maximum (bm.filter (fun x => x < b)) with
      | none =>
        have hkc : keyedCalls k ((some (bm.filter (fun x => x < b)),
            decide ((bm.filter (fun x => ¬ x < b)).card = 0)) :: rest) = keyedCalls k rest := by
          apply keyedCalls_cons_none
          rw [decide_eq_false hflag, chunkKeyOf_notLast]
          simp [hmx]
        rw [hkc]
        exact ⟨h1r, ih2, h3⟩
      | some mx =>
        have hkc : keyedCalls k ((some (bm.filter (fun x => x < b)),
            decide ((bm.filter (fun x => ¬ x < b)).card = 0)) :: rest) =
            (k ++ bigEndian32 mx, some (bm.filter (fun x => x < b))) :: keyedCalls k rest := by
          apply keyedCalls_cons_some
          rw [decide_eq_false hflag, chunkKeyOf_notLast]
          simp [hmx]
        rw [hkc]
        obtain ⟨hmem, -⟩ := Maximum_eq_some hmx
        have hmb : mx < b := (Finset.mem_filter.mp hmem).2
        have hm32 : mx < 2 ^ 32 := h32 mx (Finset.mem_filter.mp hmem).1
        refine ⟨?_, ?_, h3⟩
        · intro kc hkcm
          rcases List.mem_cons.mp hkcm with rfl | hkcm
          · exact ⟨mx, rfl, hm32, mx, (Finset.mem_filter.mp hmem).1, le_refl mx⟩
          · exact h1r kc hkcm
        · rw [List.pairwise_cons]
          refine ⟨?_, ih2⟩
          intro kc hkcm
          obtain ⟨u, hu1, hu2, x, hx, hxu⟩ := ih1 kc hkcm
          have hxb := (Finset.mem_filter.mp hx).2
          rw [hu1, bytesLt_key k mx u hm32 hu2]
          simp only [decide_eq_true_eq]
          omega

/-- C9: for every non-empty 32-bit set `S`, prefix and limit, the keys that `WalkChunkWithKeys`
hands to the visitor increase strictly in byte-wise lexicographic order, the suffix `0xFFFFFFFF`
appears on no key but the final one, and no chunk that is not the last holds `0xFFFFFFFF`. -/
theorem WalkChunkWithKeys_keys_increasing (R : Roaring) (S : Bitmap) (k : Bytes) (L : ℕ)
    (h32 : Is32 S) (hne : S.Nonempty) {σ ε : Type}
    (f : σ → Bytes → Option Bitmap → σ × Outcome ε) (fuel : ℕ) (st : σ)
    (w : Walked (σ × List (Bytes × Option Bitmap)) ε)
    (hw : WalkChunkWithKeys 0 R k f fuel S L st = some w) :
    (w.st.2.map Prod.fst).Pairwise (fun a b => bytesLt a b = true) ∧
    (∀ init last, w.st.2 = init ++ [last] →
      ∀ kc ∈ init, kc.1.drop k.length ≠ [255, 255, 255, 255]) ∧
    (∀ c ∈ w.calls, c.2 = false → ∀ P, c.1 = some P → Maximum P ≠ some (2 ^ 32 - 1)) := by
  obtain ⟨hlog, -, -⟩ := keyedVisit_log 0 R k f L fuel S (st, []) w hw
  simp only [List.nil_append] at hlog
  obtain ⟨htr, -⟩ := WalkChunks_trace R (keyedVisit k f) L fuel S (st, []) w hw
  obtain ⟨h1, h2, h3⟩ := CutTrace_keys R L k htr h32
  rw [hlog]
  refine ⟨?_, ?_, ?_⟩
  · rw [List.pairwise_map]
    exact h2
  · intro init last heq kc hkc
    rw [heq] at h1 h2
    obtain ⟨u, hu1, hu2, -⟩ := h1 kc (List.mem_append_left _ hkc)
    obtain ⟨ul, hl1, hl2, -⟩ := h1 last (List.mem_append_right _ (List.mem_singleton_self _))
    have hlt := (List.pairwise_append.mp h2).2.2 kc hkc last (List.mem_singleton_self _)
    rw [hu1, hl1, bytesLt_key k u ul hu2 hl2] at hlt
    simp only [decide_eq_true_eq] at hlt
    rw [hu1, List.drop_left']
    · have := bigEndian32_ne u (2 ^ 32 - 1) hu2 (by norm_num) (by omega)
      simpa [bigEndian32] using this
    · rfl
  · intro c hc hf P hP hmx
    have := h3 c hc hf P hP (2 ^ 32 - 1) (Maximum_eq_some hmx).1
    omega

theorem WalkChunkWithKeys_keys_increasing_witness :
    Is32 {1, 2, 3} ∧ ({1, 2, 3} : Bitmap).Nonempty ∧
    WalkChunkWithKeys 0 sampleRoaring [7] (putChunk sampleRoaring) 5 {1, 2, 3} 12 [] =
      some ⟨([([7, 0, 0, 0, 2], [0, 1, 1]), ([7, 255, 255, 255, 255], [0, 0, 0, 1])],
          [([7, 0, 0, 0, 2], some {1, 2}), ([7, 255, 255, 255, 255], some {3})]),
        ∅, Res.ok (), [(some {1, 2}, false), (some {3}, true)]⟩ ∧
    (([(([7, 0, 0, 0, 2] : Bytes), (some {1, 2} : Option Bitmap)),
        ([7, 255, 255, 255, 255], some {3})].map Prod.fst).Pairwise
          (fun a b => bytesLt a b = true) ∧
      (∀ init last, [(([7, 0, 0, 0, 2] : Bytes), (some {1, 2} : Option Bitmap)),
          ([7, 255, 255, 255, 255], some {3})] = init ++ [last] →
        ∀ kc ∈ init, kc.1.drop [7].length ≠ [255, 255, 255, 255]) ∧
      (∀ c ∈ [((some {1, 2} : Option Bitmap), false), (some {3}, true)], c.2 = false →
        ∀ P, c.1 = some P → Maximum P ≠ some (2 ^ 32 - 1))) :=
  ⟨by decide, by decide, by decide,
    WalkChunkWithKeys_keys_increasing sampleRoaring {1, 2, 3} [7] 12 (by decide) (by decide)
      (putChunk sampleRoaring) 5 []
      ⟨([([7, 0, 0, 0, 2], [0, 1, 1]), ([7, 255, 255, 255, 255], [0, 0, 0, 1])],
          [([7, 0, 0, 0, 2], some {1, 2}), ([7, 255, 255, 255, 255], some {3})]),
        ∅, Res.ok (), [(some {1, 2}, false), (some {3}, true)]⟩ (by decide)⟩

/-! ## Tables -/

theorem bytesLt_of_lt_pre : ∀ (p a x : Bytes), bytesLt a p = true → bytesLt a (p ++ x) = true := by
  intro p
  induction p with
  | nil => intro a x h; cases a <;> simp [bytesLt] at h
  | cons y ys ih =>
    intro a x h
    cases a with
    | nil => simp [bytesLt]
    | cons z zs =>
      simp only [bytesLt, Bool.or_eq_true, decide_eq_true_eq, Bool.and_eq_true,
        List.cons_append] at h ⊢
      rcases h with h | ⟨h1, h2⟩
      · exact Or.inl h
      · exact Or.inr ⟨h1, ih zs x h2⟩

theorem bytesLt_of_pre_lt : ∀ (p b x : Bytes), HasPrefix b p = false → bytesLt b p = false →
    bytesLt (p ++ x) b = true := by
  intro p
  induction p with
  | nil => intro b x h; simp [HasPrefix] at h
  | cons y ys ih =>
    intro b x h1 h2
    cases b with
    | nil => simp [bytesLt] at h2
    | cons z zs =>
      simp only [HasPrefix, List.isPrefixOf, Bool.and_eq_false_imp, beq_iff_eq] at h1
      simp only [bytesLt, Bool.or_eq_false_iff, decide_eq_false_iff_not, Bool.and_eq_false_imp,
        decide_eq_true_eq] at h2
      simp only [List.cons_append, bytesLt, Bool.or_eq_true, decide_eq_true_eq, Bool.and_eq_true]
      by_cases hyz : y = z
      · subst hyz
        exact Or.inr ⟨rfl, ih zs x (h1 rfl) (h2.2 rfl)⟩
      · exact Or.inl (by omega)

theorem HasPrefix_append (p x : Bytes) : HasPrefix (p ++ x) p = true := by
  induction p with
  | nil => simp [HasPrefix]
  | cons y ys ih =>
    simp only [HasPrefix, List.cons_append, List.isPrefixOf, beq_self_eq_true, Bool.true_and] at ih ⊢
    exact ih

theorem Put_between (A B : Table) (k v : Bytes) (hA : ∀ r ∈ A, bytesLt r.1 k = true)
    (hB : ∀ r ∈ B, bytesLt k r.1 = true) :
    Table.Put (A ++ B) k v = A ++ (k, v) :: B := by
  induction A with
  | nil =>
    cases B with
    | nil => rfl
    | cons b bs =>
      simp only [List.nil_append, Table.Put, hB b (List.mem_cons_self _ _), if_true]
  | cons a as ih =>
    have ha := hA a (List.mem_cons_self _ _)
    have h1 : bytesLt k a.1 = false := bytesLt_asymm _ _ ha
    have h2 : k ≠ a.1 := by
      intro he
      rw [he, bytesLt_irrefl] at ha
      exact absurd ha (by simp)
    have := ih (fun r hr => hA r (List.mem_cons_of_mem _ hr))
    simp only [List.cons_append, Table.Put, h1, Bool.false_eq_true, if_false, h2]
    exact congrArg (List.cons a) this

theorem find_skip {α : Type} (q : α → Bool) (A B : List α) (h : ∀ r ∈ A, q r = false) :
    (A ++ B).find? q = B.find? q := by
  induction A with
  | nil => rfl
  | cons a as ih =>
    simp only [List.cons_append, List.find?, h a (List.mem_cons_self _ _)]
    exact ih (fun r hr => h r (List.mem_cons_of_mem _ hr))

/-! ## Series -/

theorem sup_id_eq_max' (c : Bitmap) (h : c.Nonempty) : c.sup id = c.max' h := by
  rw [Finset.max'_eq_sup']
  exact (Finset.sup'_eq_sup h id).symm

theorem le_sup_id {c : Bitmap} {x : ℕ} (h : x ∈ c) : x ≤ c.sup id :=
  Finset.le_sup (f := id) h

theorem sup_id_mem {c : Bitmap} (h : c.Nonempty) : c.sup id ∈ c := by
  rw [sup_id_eq_max' c h]
  exact Finset.max'_mem c h

theorem IsSeries.le_bound {kcs : List (ℕ × Bitmap)} (h : IsSeries kcs) :
    ∀ a ∈ kcs, ∀ x ∈ a.2, x ≤ a.1 := by
  intro a ha x hx
  obtain ⟨-, h32, hb⟩ := h.chunk a ha
  rcases hb with hb | hb
  · rw [hb]; exact le_sup_id hx
  · have := h32 x hx
    omega

theorem IsSeries.bound_lt {kcs : List (ℕ × Bitmap)} (h : IsSeries kcs) :
    ∀ a ∈ kcs, a.1 < 2 ^ 32 := by
  intro a ha
  obtain ⟨hne, h32, hb⟩ := h.chunk a ha
  rcases hb with hb | hb
  · rw [hb]; exact h32 _ (sup_id_mem hne)
  · rw [hb]; norm_num

theorem IsSeries.increasing {kcs : List (ℕ × Bitmap)} (h : IsSeries kcs) :
    kcs.Pairwise (fun a b => a.1 < b.1) := by
  have hle := h.le_bound
  have hch := h.chunk
  have hord := h.order
  clear h
  induction kcs with
  | nil => exact List.Pairwise.nil
  | cons a l ih =>
    rw [List.pairwise_cons] at hord ⊢
    refine ⟨?_, ih (fun b hb => hle b (List.mem_cons_of_mem _ hb))
      (fun b hb => hch b (List.mem_cons_of_mem _ hb)) hord.2⟩
    intro b hb
    obtain ⟨hne, -, -⟩ := hch b (List.mem_cons_of_mem _ hb)
    obtain ⟨y, hy⟩ := hne
    obtain ⟨h1, h2⟩ := hord.1 b hb
    obtain ⟨hnea, -, -⟩ := hch a (List.mem_cons_self _ _)
    have := h2 _ (sup_id_mem hnea) y hy
    have := hle b (List.mem_cons_of_mem _ hb) y hy
    omega

theorem IsSeries.sublist {kcs l : List (ℕ × Bitmap)} (h : IsSeries kcs) (hs : l.Sublist kcs) :
    IsSeries l :=
  ⟨fun a ha => h.chunk a (hs.subset ha), h.order.sublist hs⟩

theorem IsSeries.nil : IsSeries [] :=
  ⟨fun a ha => by simp at ha, List.Pairwise.nil⟩

theorem mem_valuesOf (kcs : List (ℕ × Bitmap)) (x : ℕ) :
    x ∈ valuesOf kcs ↔ ∃ a ∈ kcs, x ∈ a.2 := by
  simp only [valuesOf, mem_FastOr, List.mem_map]
  constructor
  · rintro ⟨c, ⟨a, ha, rfl⟩, hx⟩
    exact ⟨a, ha, hx⟩
  · rintro ⟨a, ha, hx⟩
    exact ⟨a.2, ⟨a, ha, rfl⟩, hx⟩

theorem key_length (p : Bytes) (u : ℕ) : (p ++ bigEndian32 u).length = p.length + 4 := by
  simp [bigEndian32]

theorem key_suffix (p : Bytes) (u : ℕ) :
    (p ++ bigEndian32 u).drop ((p ++ bigEndian32 u).length - 4) = bigEndian32 u := by
  rw [key_length, Nat.add_sub_cancel, List.drop_left']
  rfl

theorem key_ub (p : Bytes) (u : ℕ) (hu : u < 2 ^ 32) :
    Uint32 ((p ++ bigEndian32 u).drop ((p ++ bigEndian32 u).length - 4)) = some u := by
  rw [key_suffix]
  simpa using Uint32_bigEndian32 u hu []

theorem key_not_short (p : Bytes) (u : ℕ) : ¬ ((p ++ bigEndian32 u).length < 4) := by
  rw [key_length]
  omega

/-- The seek key that `Get` and `TruncateRange` build from the prefix and a 32-bit value. -/
theorem make_key (key : Bytes) (v : ℕ) :
    PutUint32 ((copy (List.replicate (key.length + 4) 0) key).drop
        ((copy (List.replicate (key.length + 4) 0) key).length - 4)) v = some (bigEndian32 v) ∧
      (copy (List.replicate (key.length + 4) 0) key).take
        ((copy (List.replicate (key.length + 4) 0) key).length - 4) = key := by
  rw [copy_make]
  constructor
  · simp [PutUint32, bigEndian32]
  · simp

/-! ## Get -/

theorem rowsOf_append (R : Roaring) (p : Bytes) (l1 l2 : List (ℕ × Bitmap)) :
    rowsOf R p (l1 ++ l2) = rowsOf R p l1 ++ rowsOf R p l2 := by
  simp [rowsOf]

theorem rowsOf_cons (R : Roaring) (p : Bytes) (a : ℕ × Bitmap) (l : List (ℕ × Bitmap)) :
    rowsOf R p (a :: l) = (p ++ bigEndian32 a.1, R.WriteTo a.2) :: rowsOf R p l := by
  simp [rowsOf]

theorem getLoop_after (R : Roaring) (db : Table) (p : Bytes) (to_ fuel : ℕ) (B : Table)
    (q : Bytes × Bytes → Bool) (acc : List Bitmap)
    (hB : ∀ r ∈ B, HasPrefix r.1 p = false ∧ bytesLt r.1 p = false) :
    getLoop R db p to_ (fuel + 1) (B.find? q) acc = some (Res.ok acc) := by
  cases h : B.find? q with
  | none => simp [getLoop]
  | some b =>
    obtain ⟨bk, bv⟩ := b
    have := (hB _ (List.mem_of_find?_eq_some h)).1
    simp only [getLoop]
    simp [this]

/-- Stepping with `Next` from a row of the series skips the rows up to and including it. -/
theorem Next_in_series (R : Roaring) (p : Bytes) (A B : Table)
    (hA : ∀ r ∈ A, bytesLt r.1 p = true)
    (pre rest : List (ℕ × Bitmap)) (cur : ℕ × Bitmap)
    (hs : IsSeries (pre ++ cur :: rest)) :
    Table.Next (A ++ rowsOf R p (pre ++ cur :: rest) ++ B) (p ++ bigEndian32 cur.1) =
      (rowsOf R p rest ++ B).find? (fun r => bytesLt (p ++ bigEndian32 cur.1) r.1) := by
  have hinc := hs.increasing
  have hb32 := hs.bound_lt
  have hcur32 : cur.1 < 2 ^ 32 := hb32 cur (by simp)
  have e : A ++ rowsOf R p (pre ++ cur :: rest) ++ B =
      (A ++ rowsOf R p (pre ++ [cur])) ++ (rowsOf R p rest ++ B) := by
    simp [rowsOf]
  rw [e]
  unfold Table.Next
  apply find_skip
  intro r hr
  rcases List.mem_append.mp hr with hr | hr
  · exact bytesLt_asymm _ _ (bytesLt_of_lt_pre p r.1 _ (hA r hr))
  · simp only [rowsOf, List.map_append, List.map_cons, List.map_nil, List.mem_append,
      List.mem_map, List.mem_singleton] at hr
    rcases hr with ⟨a, ha, rfl⟩ | rfl
    · have hlt : a.1 < cur.1 :=
        (List.pairwise_append.mp hinc).2.2 a ha cur (List.mem_cons_self _ _)
      apply bytesLt_asymm
      rw [bytesLt_key p a.1 cur.1 (hb32 a (by simp [ha])) hcur32]
      simpa using hlt
    · exact bytesLt_irrefl _

theorem getLoop_series (R : Roaring) (p : Bytes) (to_ : ℕ) (A B : Table)
    (hcodec : ∀ c, R.ReadFrom (R.WriteTo c) = some c)
    (hA : ∀ r ∈ A, bytesLt r.1 p = true)
    (hB : ∀ r ∈ B, HasPrefix r.1 p = false ∧ bytesLt r.1 p = false) :
    ∀ (rest pre : List (ℕ × Bitmap)) (cur : ℕ × Bitmap) (acc : List Bitmap) (fuel : ℕ),
      IsSeries (pre ++ cur :: rest) → rest.length + 2 ≤ fuel →
      getLoop R (A ++ rowsOf R p (pre ++ cur :: rest) ++ B) p to_ fuel
        (some (p ++ bigEndian32 cur.1, R.WriteTo cur.2)) acc =
        some (Res.ok (acc ++ readThrough to_ (cur :: rest))) := by
  intro rest
  induction rest with
  | nil =>
    intro pre cur acc fuel hs hfuel
    obtain ⟨f, rfl⟩ : ∃ f, fuel = f + 2 := ⟨fuel - 2, by simp at hfuel; omega⟩
    have hcur32 : cur.1 < 2 ^ 32 := hs.bound_lt cur (by simp)
    have hu := key_ub p cur.1 hcur32
    have h4 := key_not_short p cur.1
    rw [getLoop]
    simp only [HasPrefix_append, Bool.not_true, Bool.false_eq_true, if_false, hcodec,
      hu, h4, readThrough]
    by_cases hto : cur.1 ≥ to_
    · simp only [hto, if_true]
    · simp only [hto, if_false]
      rw [Next_in_series R p A B hA pre [] cur hs]
      simp only [rowsOf, List.map_nil, List.nil_append]
      exact getLoop_after R _ p to_ f B _ _ hB
  | cons nx rest1 ih =>
    intro pre cur acc fuel hs hfuel
    obtain ⟨f, rfl⟩ : ∃ f, fuel = f + 1 := ⟨fuel - 1, by simp at hfuel; omega⟩
    have hcur32 : cur.1 < 2 ^ 32 := hs.bound_lt cur (by simp)
    have hnx32 : nx.1 < 2 ^ 32 := hs.bound_lt nx (by simp)
    have hlt : cur.1 < nx.1 := by
      have := (List.pairwise_append.mp hs.increasing).2.1
      rw [List.pairwise_cons] at this
      exact this.1 nx (List.mem_cons_self _ _)
    have hu := key_ub p cur.1 hcur32
    have h4 := key_not_short p cur.1
    rw [getLoop]
    simp only [HasPrefix_append, Bool.not_true, Bool.false_eq_true, if_false, hcodec,
      hu, h4]
    by_cases hto : cur.1 ≥ to_
    · simp only [hto, if_true, readThrough]
    · simp only [hto, if_false]
      rw [Next_in_series R p A B hA pre (nx :: rest1) cur hs]
      have hfind : (rowsOf R p (nx :: rest1) ++ B).find?
          (fun r => bytesLt (p ++ bigEndian32 cur.1) r.1) =
          some (p ++ bigEndian32 nx.1, R.WriteTo nx.2) := by
        rw [rowsOf_cons, List.cons_append, List.find?_cons]
        simp only [bytesLt_key p cur.1 nx.1 hcur32 hnx32, hlt, decide_True]
      rw [hfind]
      have e : pre ++ cur :: nx :: rest1 = (pre ++ [cur]) ++ nx :: rest1 := by simp
      have := ih (pre ++ [cur]) nx (acc ++ [cur.2]) f (e ▸ hs) (by simp at hfuel ⊢; omega)
      rw [← e] at this
      rw [this]
      simp only [List.append_assoc, List.singleton_append]
      rw [readThrough.eq_2 to_ cur (nx :: rest1)]
      simp only [hto, if_false]

theorem dropWhile_head_false {α : Type} (q : α → Bool) :
    ∀ (l : List α) (a : α) (rest : List α), l.dropWhile q = a :: rest → q a = false := by
  intro l
  induction l with
  | nil => intro a rest h; simp at h
  | cons x xs ih =>
    intro a rest h
    rw [List.dropWhile_cons] at h
    by_cases hq : q x = true
    · simp only [hq, if_true] at h
      exact ih a rest h
    · simp only [hq, Bool.false_eq_true, if_false, List.cons.injEq] at h
      rw [← h.1]
      simpa using hq

theorem FastOr_nil : FastOr [] = ∅ := rfl

/-- The result of `Get` on a table that holds, between rows below the prefix and rows above it, a chunk
series under the prefix: it returns the union of the chunks read from the first one whose
bound is at least `from_` through the first one whose bound is at least `to_`. -/
theorem Get_series (R : Roaring) (p : Bytes) (A B : Table) (kcs : List (ℕ × Bitmap))
    (from_ to_ : ℕ) (hcodec : ∀ c, R.ReadFrom (R.WriteTo c) = some c)
    (hA : ∀ r ∈ A, bytesLt r.1 p = true)
    (hB : ∀ r ∈ B, HasPrefix r.1 p = false ∧ bytesLt r.1 p = false)
    (hs : IsSeries kcs) (hfrom : from_ < 2 ^ 32) :
    Get R (A ++ rowsOf R p kcs ++ B) p from_ to_ =
      some (Res.ok (FastOr (readThrough to_ (kcs.dropWhile (fun a => decide (a.1 < from_)))))) := by
  unfold Get
  obtain ⟨hk1, hk2⟩ := make_key p from_
  simp only [hk1, hk2]
  have hsplit := List.takeWhile_append_dropWhile (fun a : ℕ × Bitmap => decide (a.1 < from_)) kcs
  have hseek : Table.Seek (A ++ rowsOf R p kcs ++ B) (p ++ bigEndian32 from_) =
      (rowsOf R p (kcs.dropWhile (fun a => decide (a.1 < from_))) ++ B).find?
        (fun r => !bytesLt r.1 (p ++ bigEndian32 from_)) := by
    have e : A ++ rowsOf R p kcs ++ B =
        (A ++ rowsOf R p (kcs.takeWhile (fun a => decide (a.1 < from_)))) ++
          (rowsOf R p (kcs.dropWhile (fun a => decide (a.1 < from_))) ++ B) := by
      have h := rowsOf_append R p (kcs.takeWhile (fun a => decide (a.1 < from_)))
        (kcs.dropWhile (fun a => decide (a.1 < from_)))
      rw [hsplit] at h
      rw [h]
      simp only [List.append_assoc]
    rw [e]
    unfold Table.Seek
    apply find_skip
    intro r hr
    rcases List.mem_append.mp hr with hr | hr
    · simp [bytesLt_of_lt_pre p r.1 _ (hA r hr)]
    · simp only [rowsOf, List.mem_map] at hr
      obtain ⟨a, ha, rfl⟩ := hr
      have h1 := List.mem_takeWhile_imp ha
      have h2 := hs.bound_lt a ((List.takeWhile_sublist _).subset ha)
      simp only [decide_eq_true_eq] at h1
      simp [bytesLt_key p a.1 from_ h2 hfrom, h1]
  rw [hseek]
  cases hd : kcs.dropWhile (fun a => decide (a.1 < from_)) with
  | nil =>
    simp only [rowsOf, List.map_nil, List.nil_append]
    rw [getLoop_after R _ p to_ _ B _ [] hB]
    simp [readThrough, FastOr_nil]
  | cons cur rest =>
    have hcur := dropWhile_head_false _ kcs cur rest hd
    simp only [decide_eq_false_iff_not, not_lt] at hcur
    have hs2 : IsSeries (kcs.takeWhile (fun a => decide (a.1 < from_)) ++ cur :: rest) := by
      rw [← hd, hsplit]; exact hs
    have hcur32 : cur.1 < 2 ^ 32 := hs2.bound_lt cur (by simp)
    have hfind : (rowsOf R p (cur :: rest) ++ B).find?
        (fun r => !bytesLt r.1 (p ++ bigEndian32 from_)) =
        some (p ++ bigEndian32 cur.1, R.WriteTo cur.2) := by
      rw [rowsOf_cons, List.cons_append, List.find?_cons]
      have : ¬ cur.1 < from_ := by omega
      simp [bytesLt_key p cur.1 from_ hcur32 hfrom, this]
    rw [hfind]
    have hlen : rest.length + 2 ≤ (A ++ rowsOf R p kcs ++ B).length + 1 := by
      have : kcs.length = (kcs.takeWhile (fun a => decide (a.1 < from_))).length + (rest.length + 1) := by
        conv_lhs => rw [← hsplit, hd]
        simp
      simp only [List.length_append, rowsOf, List.length_map]
      omega
    have hloop := getLoop_series R p to_ A B hcodec hA hB rest
      (kcs.takeWhile (fun a => decide (a.1 < from_))) cur [] _ hs2 hlen
    rw [← hd, hsplit] at hloop
    rw [hloop]
    simp only [List.nil_append]
    have hne : (readThrough to_ (kcs.dropWhile (fun a => decide (a.1 < from_)))).length ≠ 0 := by
      rw [hd, readThrough]
      split <;> simp
    simp only [hne, if_false]
    rw [hd]

/-! ## Writing a series -/

theorem chunkKeyOf_some (k : Bytes) (P : Bitmap) (flag : Bool) (key : Bytes)
    (h : chunkKeyOf k (some P) flag = some key) :
    key = k ++ bigEndian32 (if flag then 2 ^ 32 - 1 else P.sup id) ∧ (flag = false → P.Nonempty) := by
  cases flag with
  | true =>
    rw [chunkKeyOf_last] at h
    simp only [Option.some.injEq] at h
    simp [← h]
  | false =>
    rw [chunkKeyOf_notLast] at h
    cases hmx : Maximum P with
    | none => simp [hmx] at h
    | some mx =>
      rw [Option.some_bind, hmx] at h
      simp only [Option.map_some', Option.some.injEq] at h
      obtain ⟨hmem, hle⟩ := Maximum_eq_some hmx
      refine ⟨?_, fun _ => ⟨mx, hmem⟩⟩
      have hsup : P.sup id = mx :=
        le_antisymm (Finset.sup_le (fun x hx => hle x hx)) (le_sup_id hmem)
      rw [← h, hsup]
      rfl

theorem boundsOf_cons_some (P : Bitmap) (flag : Bool) (rest : List (Option Bitmap × Bool)) :
    boundsOf ((some P, flag) :: rest) =
      (if flag then 2 ^ 32 - 1 else P.sup id, P) :: boundsOf rest := by
  simp [boundsOf]

/-- A completed trace whose key computations all succeed lays out a chunk series. -/
theorem CutTrace_series (R : Roaring) (L : ℕ) (k : Bytes) {bm bm1 : Bitmap}
    {calls : List (Option Bitmap × Bool)} (h : CutTrace R L bm calls bm1) :
    Is32 bm → (∀ c ∈ calls, ∃ key, chunkKeyOf k c.1 c.2 = some key) →
    IsSeries (boundsOf calls) ∧
    (∀ a ∈ boundsOf calls, a.2 ⊆ bm) ∧
    keyedCalls k calls = (boundsOf calls).map (fun a => (k ++ bigEndian32 a.1, some a.2)) ∧
    (bm1 = ∅ → EndsWithSentinel (boundsOf calls)) ∧
    (∀ x, x ∈ bm ↔ x ∈ valuesOf (boundsOf calls) ∨ x ∈ bm1) ∧
    (calls = [] ↔ boundsOf calls = []) := by
  induction h with
  | nil bm =>
    intro _ _
    refine ⟨IsSeries.nil, by simp [boundsOf], by simp [boundsOf, keyedCalls], ?_, ?_, by simp [boundsOf]⟩
    · intro _ a ha
      simp [boundsOf] at ha
    · intro x
      simp [mem_valuesOf, boundsOf]
  | cons bm c bm0 rest bm1 hne hcut hrest ih =>
    intro h32 hkeys
    obtain ⟨b, hb⟩ := CutLeft_zero_split R bm L hne
    rw [hcut] at hb
    simp only [Prod.mk.injEq] at hb
    obtain ⟨rfl, rfl⟩ := hb
    have h32r : Is32 (bm.filter (fun x => ¬ x < b)) := fun x hx => h32 x (Finset.mem_filter.mp hx).1
    obtain ⟨ih1, ih2, ih3, ih4, ih5, ih6⟩ :=
      ih h32r (fun c hc => hkeys c (List.mem_cons_of_mem _ hc))
    obtain ⟨key, hkey⟩ := hkeys _ (List.mem_cons_self _ _)
    have hkey1 : chunkKeyOf k (some (bm.filter (fun x => x < b)))
        (decide ((bm.filter (fun x => ¬ x < b)).card = 0)) = some key := hkey
    obtain ⟨hkeyeq, hkne⟩ := chunkKeyOf_some k _ _ key hkey1
    rw [boundsOf_cons_some]
    -- the head chunk is not empty
    have hPne : (bm.filter (fun x => x < b)).Nonempty := by
      by_cases hflag : (bm.filter (fun x => ¬ x < b)).card = 0
      · obtain ⟨x, hx⟩ := hne
        refine ⟨x, Finset.mem_filter.mpr ⟨hx, ?_⟩⟩
        by_contra hxb
        have : x ∈ bm.filter (fun x => ¬ x < b) := Finset.mem_filter.mpr ⟨hx, hxb⟩
        rw [Finset.card_eq_zero.mp hflag] at this
        exact absurd this (Finset.not_mem_empty x)
      · exact hkne (decide_eq_false hflag)
    -- a head chunk followed by another is not the last
    have hflagrest : boundsOf rest ≠ [] → decide ((bm.filter (fun x => ¬ x < b)).card = 0) = false := by
      intro hr
      have hrne : rest ≠ [] := fun h => hr (ih6.mp h)
      cases rest with
      | nil => exact absurd rfl hrne
      | cons a l =>
        have := CutTrace_cons_nonempty R L hrest
        simpa using Finset.nonempty_iff_ne_empty.mp this
    refine ⟨⟨?_, ?_⟩, ?_, ?_, ?_, ?_, by simp⟩
    · intro a ha
      rcases List.mem_cons.mp ha with rfl | ha
      · refine ⟨hPne, fun x hx => h32 x (Finset.mem_filter.mp hx).1, ?_⟩
        by_cases hflag : (bm.filter (fun x => ¬ x < b)).card = 0
        · rw [decide_eq_true hflag]; simp
        · rw [decide_eq_false hflag]; simp
      · exact ih1.chunk a ha
    · rw [List.pairwise_cons]
      refine ⟨?_, ih1.order⟩
      intro a ha
      have hf := hflagrest (List.ne_nil_of_mem ha)
      refine ⟨by simp only [hf, Bool.false_eq_true, if_false], ?_⟩
      intro x hx y hy
      have hy2 := (Finset.mem_filter.mp (ih2 a ha hy)).2
      have hx2 := (Finset.mem_filter.mp hx).2
      omega
    · intro a ha
      rcases List.mem_cons.mp ha with rfl | ha
      · exact Finset.filter_subset _ _
      · exact (ih2 a ha).trans (Finset.filter_subset _ _)
    · rw [keyedCalls_cons_some k _ _ key hkey, ih3, List.map_cons, hkeyeq]
    · intro hb1 a ha
      cases hbr : boundsOf rest with
      | nil =>
        rw [hbr] at ha
        simp only [List.getLast?_singleton, Option.some.injEq] at ha
        subst ha
        have hrnil : rest = [] := ih6.mpr hbr
        subst hrnil
        have := CutTrace_nil_inv R L hrest
        rw [hb1] at this
        have hz : (bm.filter (fun x => ¬ x < b)).card = 0 := by rw [← this]; rfl
        rw [decide_eq_true hz]
        rfl
      | cons d l =>
        rw [hbr] at ha
        rw [List.getLast?_cons_cons] at ha
        rw [← hbr] at ha
        exact ih4 hb1 a ha
    · intro x
      have h5 := ih5 x
      simp only [mem_valuesOf, Finset.mem_filter] at h5
      simp only [mem_valuesOf, List.mem_cons, exists_eq_or_imp, Finset.mem_filter]
      constructor
      · intro hm
        by_cases hx : x < b
        · exact Or.inl (Or.inl ⟨hm, hx⟩)
        · rcases h5.mp ⟨hm, hx⟩ with h | h
          · exact Or.inl (Or.inr h)
          · exact Or.inr h
      · rintro ((h | h) | h)
        · exact h.1
        · exact (h5.mpr (Or.inl h)).1
        · exact (h5.mpr (Or.inr h)).1

theorem foldl_Put_rows (B : Table) : ∀ (rows A : Table),
    (∀ a ∈ A, ∀ r ∈ rows, bytesLt a.1 r.1 = true) →
    rows.Pairwise (fun r s => bytesLt r.1 s.1 = true) →
    (∀ r ∈ rows, ∀ b ∈ B, bytesLt r.1 b.1 = true) →
    rows.foldl (fun t r => Table.Put t r.1 r.2) (A ++ B) = A ++ rows ++ B := by
  intro rows
  induction rows with
  | nil => intro A _ _ _; simp
  | cons r rs ih =>
    intro A hA hP hB
    rw [List.pairwise_cons] at hP
    rw [List.foldl_cons, Put_between A B r.1 r.2 (fun a ha => hA a ha r (List.mem_cons_self _ _))
      (fun b hb => hB r (List.mem_cons_self _ _) b hb)]
    have e : A ++ (r.1, r.2) :: B = (A ++ [r]) ++ B := by simp
    rw [e, ih (A ++ [r]) ?_ hP.2 (fun s hs => hB s (List.mem_cons_of_mem _ hs))]
    · simp
    · intro a ha s hs
      rcases List.mem_append.mp ha with ha | ha
      · exact hA a ha s (List.mem_cons_of_mem _ hs)
      · rw [List.mem_singleton] at ha
        subst ha
        exact hP.1 s hs

theorem foldl_putChunk (R : Roaring) (p : Bytes) : ∀ (kcs : List (ℕ × Bitmap)) (T : Table),
    (kcs.map (fun a => (p ++ bigEndian32 a.1, some a.2))).foldl
        (fun t kc => (putChunk R t kc.1 kc.2).1) T =
      (rowsOf R p kcs).foldl (fun t r => Table.Put t r.1 r.2) T := by
  intro kcs
  induction kcs with
  | nil => intro T; rfl
  | cons a l ih =>
    intro T
    simp only [List.map_cons, List.foldl_cons, rowsOf_cons, putChunk]
    exact ih _

theorem rowsOf_sorted (R : Roaring) (p : Bytes) (kcs : List (ℕ × Bitmap)) (hs : IsSeries kcs) :
    (rowsOf R p kcs).Pairwise (fun r s => bytesLt r.1 s.1 = true) := by
  unfold rowsOf
  rw [List.pairwise_map]
  have h32 := hs.bound_lt
  have hinc := hs.increasing
  clear hs
  induction kcs with
  | nil => exact List.Pairwise.nil
  | cons a l ih =>
    rw [List.pairwise_cons] at hinc ⊢
    refine ⟨?_, ih (fun b hb => h32 b (List.mem_cons_of_mem _ hb)) hinc.2⟩
    intro b hb
    rw [bytesLt_key p a.1 b.1 (h32 a (List.mem_cons_self _ _)) (h32 b (List.mem_cons_of_mem _ hb))]
    simpa using hinc.1 b hb

/-- Writing the chunks of `S` with `WalkChunkWithKeys` into a table whose rows `A` sort below the
new keys and whose rows `B` sort above the prefix lays out a series of `S` between them. -/
theorem WalkChunkWithKeys_put (R : Roaring) (p : Bytes) (S : Bitmap) (L : ℕ) (A B : Table)
    (fuel : ℕ) (w : Walked (Table × List (Bytes × Option Bitmap)) StoreErr) (h32 : Is32 S)
    (hA : ∀ r ∈ A, ∀ u, u < 2 ^ 32 → (∃ x ∈ S, x ≤ u) → bytesLt r.1 (p ++ bigEndian32 u) = true)
    (hB : ∀ r ∈ B, HasPrefix r.1 p = false ∧ bytesLt r.1 p = false)
    (hw : WalkChunkWithKeys 0 R p (putChunk R) fuel S L (A ++ B) = some w)
    (hok : w.res = Res.ok ()) :
    w.st.1 = A ++ rowsOf R p (boundsOf w.calls) ++ B ∧ IsSeries (boundsOf w.calls) ∧
      EndsWithSentinel (boundsOf w.calls) ∧ valuesOf (boundsOf w.calls) = S ∧
      (S.Nonempty → boundsOf w.calls ≠ []) := by
  obtain ⟨-, hst, hkeys⟩ := keyedVisit_log 0 R p (putChunk R) L fuel S (A ++ B, []) w hw
  obtain ⟨htr, hemp⟩ := WalkChunks_trace R (keyedVisit p (putChunk R)) L fuel S (A ++ B, []) w hw
  obtain ⟨hs, hsub, hkc, hend, hval, hnil⟩ := CutTrace_series R L p htr h32 (hkeys hok)
  have hb := hemp hok
  have hvalues : valuesOf (boundsOf w.calls) = S := by
    ext x
    rw [hval x, hb]
    simp
  refine ⟨?_, hs, hend hb, hvalues, ?_⟩
  · rw [hst, hkc, foldl_putChunk]
    apply foldl_Put_rows
    · intro a ha r hr
      simp only [rowsOf, List.mem_map] at hr
      obtain ⟨c, hc, rfl⟩ := hr
      obtain ⟨⟨x, hx⟩, -, -⟩ := hs.chunk c hc
      exact hA a ha c.1 (hs.bound_lt c hc) ⟨x, hsub c hc hx, hs.le_bound c hc x hx⟩
    · exact rowsOf_sorted R p _ hs
    · intro r hr b hb
      simp only [rowsOf, List.mem_map] at hr
      obtain ⟨c, -, rfl⟩ := hr
      exact bytesLt_of_pre_lt p b.1 _ (hB b hb).1 (hB b hb).2
  · intro hne hbn
    rw [hbn] at hvalues
    rw [← hvalues] at hne
    simp [valuesOf, FastOr_nil] at hne

/-! ## Progress -/

/-- When the smallest value alone serializes within the limit, `CutLeftRaw` hands out a
non-empty chunk and the source shrinks. -/
theorem CutLeftRaw_progress (R : Roaring) (bm : Bitmap) (L : ℕ) (h : bm.Nonempty)
    (hfit : R.size {bm.min' h} ≤ L) :
    ∃ P rem, CutLeftRaw R bm L = (some P, rem) ∧ P.Nonempty ∧ rem.card < bm.card := by
  by_cases hs : R.size bm ≤ L
  · exact ⟨bm, ∅, CutLeftRaw_fits R bm L h hs, h, by simpa using Finset.card_pos.mpr h⟩
  · refine ⟨_, _, CutLeftRaw_cut R bm L h hs, ?_, ?_⟩
    all_goals
      have hone : rangeAnd bm (bm.min' h) (bm.min' h + 0 + 1) = {bm.min' h} := by
        ext x
        simp only [mem_rangeAnd, Finset.mem_singleton]
        constructor
        · intro hx; omega
        · rintro rfl; exact ⟨Finset.min'_mem bm h, le_refl _, by omega⟩
      have hpos : 0 < cutIndex R bm L (bm.min' h) (bm.max' h) := by
        by_contra hz
        have hz0 : cutIndex R bm L (bm.min' h) (bm.max' h) = 0 := by omega
        unfold cutIndex at hz0
        rcases Search_above (bm.max' h - bm.min' h)
          (fun i => decide (R.size (rangeAnd bm (bm.min' h) (bm.min' h + i + 1)) > L)) with h1 | h1
        · rw [hz0] at h1
          have hmm : bm.max' h = bm.min' h := by
            have := Finset.min'_le bm _ (Finset.max'_mem bm h)
            omega
          have hbm : bm = {bm.min' h} := by
            ext x
            simp only [Finset.mem_singleton]
            constructor
            · intro hx
              have h1 := Finset.min'_le bm x hx
              have h2 := Finset.le_max' bm x hx
              omega
            · intro hx; rw [hx]; exact Finset.min'_mem bm h
          rw [hbm] at hs
          exact hs (by simpa using hfit)
        · rw [hz0] at h1
          simp only [hone, gt_iff_lt, decide_eq_true_eq] at h1
          omega
    · exact ⟨bm.min' h, mem_rangeAnd.mpr ⟨Finset.min'_mem bm h, le_refl _, by omega⟩⟩
    · apply Finset.card_lt_card
      have hsub : RemoveRange bm (bm.min' h)
          (bm.min' h + cutIndex R bm L (bm.min' h) (bm.max' h)) ⊆ bm := Finset.filter_subset _ _
      rw [Finset.ssubset_iff_of_subset hsub]
      refine ⟨bm.min' h, Finset.min'_mem bm h, ?_⟩
      rw [mem_RemoveRange]
      intro hx
      exact hx.2 ⟨le_refl _, by omega⟩

/-- Enough fuel: when every single value of the source serializes within the limit, writing
its chunks with `WalkChunkWithKeys` completes without error. -/
theorem WalkChunkWithKeys_completes (R : Roaring) (p : Bytes) (L : ℕ) :
    ∀ (fuel : ℕ) (S : Bitmap) (s : Table × List (Bytes × Option Bitmap)),
      (∀ x ∈ S, R.size {x} ≤ L) → S.card < fuel →
      ∃ w, WalkChunks 0 R (keyedVisit p (putChunk R)) fuel S L s = some w ∧ w.res = Res.ok () := by
  intro fuel
  induction fuel with
  | zero => intro S s _ h; omega
  | succ n ih =>
    intro S s hfit hfuel
    unfold WalkChunks
    by_cases hc : 0 < S.card
    · have hne : S.Nonempty := Finset.card_pos.mp hc
      obtain ⟨P, rem, hcut, hP, hrem⟩ :=
        CutLeftRaw_progress R S L hne (hfit _ (Finset.min'_mem S hne))
      have hremsub : rem ⊆ S := by
        obtain ⟨b, hb⟩ := CutLeftRaw_split R S L hne
        rw [hcut] at hb
        simp only [Prod.mk.injEq] at hb
        rw [hb.2]
        exact Finset.filter_subset _ _
      simp only [hc, if_true, CutLeft_zero, hcut]
      obtain ⟨key, hkey⟩ : ∃ key, chunkKeyOf p (some P) (decide (rem.card = 0)) = some key := by
        cases hflag : decide (rem.card = 0) with
        | true => exact ⟨_, chunkKeyOf_last p _⟩
        | false =>
          rw [chunkKeyOf_notLast]
          simp only [Option.some_bind, Maximum, hP, dif_pos, Option.map_some']
          exact ⟨_, rfl⟩
      have hv : keyedVisit p (putChunk R) s (some P) (decide (rem.card = 0)) =
          ((s.1.Put key (R.WriteTo P), s.2 ++ [(key, some P)]), Res.ok ()) := by
        unfold keyedVisit
        rw [hkey]
        rfl
      rw [hv]
      obtain ⟨w, hw, hok⟩ := ih rem (s.1.Put key (R.WriteTo P), s.2 ++ [(key, some P)])
        (fun x hx => hfit x (hremsub hx)) (by omega)
      simp only [hw, Option.map_some']
      exact ⟨_, rfl, hok⟩
    · simp only [hc, if_false]
      exact ⟨_, rfl, rfl⟩

theorem readThrough_subset (to_ : ℕ) : ∀ (l : List (ℕ × Bitmap)) (c : Bitmap),
    c ∈ readThrough to_ l → ∃ a ∈ l, a.2 = c := by
  intro l
  induction l with
  | nil => intro c h; simp [readThrough] at h
  | cons a rest ih =>
    intro c h
    rw [readThrough] at h
    split at h
    · rw [List.mem_singleton] at h
      exact ⟨a, List.mem_cons_self _ _, h.symm⟩
    · rcases List.mem_cons.mp h with h | h
      · exact ⟨a, List.mem_cons_self _ _, h.symm⟩
      · obtain ⟨d, hd, hdc⟩ := ih c h
        exact ⟨d, List.mem_cons_of_mem _ hd, hdc⟩

theorem readThrough_mem (to_ x : ℕ) (hx : x ≤ to_) : ∀ (l : List (ℕ × Bitmap)) (a : ℕ × Bitmap),
    l.Pairwise (fun b d => b.1 = b.2.sup id ∧ SetLt b.2 d.2) → (∀ b ∈ l, b.2.Nonempty) →
    a ∈ l → x ∈ a.2 → a.2 ∈ readThrough to_ l := by
  intro l
  induction l with
  | nil => intro a _ _ h; simp at h
  | cons b rest ih =>
    intro a hp hne ha hxa
    rw [List.pairwise_cons] at hp
    rw [readThrough]
    rcases List.mem_cons.mp ha with rfl | ha
    · split <;> simp
    · obtain ⟨h1, h2⟩ := hp.1 a ha
      have hb : b.1 < x := by
        rw [h1]
        exact h2 _ (sup_id_mem (hne b (List.mem_cons_self _ _))) x hxa
      have hnot : ¬ b.1 ≥ to_ := by omega
      simp only [hnot, if_false]
      exact List.mem_cons_of_mem _ (ih a hp.2 (fun d hd => hne d (List.mem_cons_of_mem _ hd)) ha hxa)

theorem readThrough_max : ∀ (l : List (ℕ × Bitmap)), IsSeries l →
    readThrough (2 ^ 32 - 1) l = l.map Prod.snd := by
  intro l
  induction l with
  | nil => intro _; rfl
  | cons a rest ih =>
    intro hs
    rw [readThrough]
    have hinc := hs.increasing
    rw [List.pairwise_cons] at hinc
    by_cases h : a.1 ≥ 2 ^ 32 - 1
    · simp only [h, if_true]
      cases rest with
      | nil => rfl
      | cons b l =>
        have h1 := hinc.1 b (List.mem_cons_self _ _)
        have h2 := hs.bound_lt b (by simp)
        omega
    · simp only [h, if_false, List.map_cons]
      rw [ih (hs.sublist (List.sublist_cons_self a rest))]

theorem sampleRoaring_codec (c : Bitmap) :
    sampleRoaring.ReadFrom (sampleRoaring.WriteTo c) = some c := by
  simp only [sampleRoaring, List.length_map, List.length_range, Option.some.injEq]
  ext x
  simp only [Finset.mem_filter, Finset.mem_range]
  constructor
  · rintro ⟨hx, h1⟩
    rw [List.getD_eq_getElem _ _ (by simpa using hx)] at h1
    simp only [List.getElem_map, List.getElem_range] at h1
    by_contra hc
    simp [hc] at h1
  · intro hx
    have hlt : x < c.sup id + 1 := Nat.lt_succ_of_le (le_sup_id hx)
    refine ⟨hlt, ?_⟩
    rw [List.getD_eq_getElem _ _ (by simpa using hlt)]
    simp [hx]

/-- C3 as stated fails: with a limit below the size of a one-element bitmap, `WalkChunkWithKeys`
cuts an empty chunk that is not the last and faults on `chunk.Maximum()`; nothing is written
and `Get` returns the empty set. -/
theorem roundtrip_fails_small_limit :
    WalkChunkWithKeys 0 sampleRoaring [7] (putChunk sampleRoaring) 3 {1} 0 [] =
      some ⟨([], []), {1}, Res.fault, [(some ∅, false)]⟩ ∧
    Get sampleRoaring [] [7] 0 MaxUint32 = some (Res.ok ∅) ∧ (∅ : Bitmap) ≠ {1} := by
  decide

/-- C3 (amended): round trip.  For every non-empty 32-bit set `S`, prefix `p` and size limit `L`
within which every one-element subset of `S` serializes, writing each `(chunkKey, serialized
chunk)` pair produced by `WalkChunkWithKeys(p, S, L)` into an empty table completes without
error, and `Get(table, p, 0, MaxUint32)` then returns `S`. -/
theorem roundtrip (R : Roaring) (S : Bitmap) (p : Bytes) (L : ℕ) (h32 : Is32 S)
    (hne : S.Nonempty) (hcodec : ∀ c, R.ReadFrom (R.WriteTo c) = some c)
    (hfit : ∀ x ∈ S, R.size {x} ≤ L) (fuel : ℕ) (hfuel : S.card < fuel) :
    ∃ w, WalkChunkWithKeys 0 R p (putChunk R) fuel S L [] = some w ∧ w.res = Res.ok () ∧
      Get R w.st.1 p 0 MaxUint32 = some (Res.ok S) := by
  obtain ⟨w, hw, hok⟩ := WalkChunkWithKeys_completes R p L fuel S ([], []) hfit hfuel
  refine ⟨w, hw, hok, ?_⟩
  obtain ⟨ht, hs, -, hval, -⟩ := WalkChunkWithKeys_put R p S L [] [] fuel w h32
    (by simp) (by simp) hw hok
  rw [ht, Get_series R p [] [] _ 0 MaxUint32 hcodec (by simp) (by simp) hs (by norm_num)]
  have hd : (boundsOf w.calls).dropWhile (fun a => decide (a.1 < 0)) = boundsOf w.calls := by
    cases boundsOf w.calls with
    | nil => rfl
    | cons a l => simp [List.dropWhile_cons]
  rw [hd]
  have : MaxUint32 = 2 ^ 32 - 1 := rfl
  rw [this, readThrough_max _ hs]
  exact congrArg (fun x => some (Res.ok x)) hval

theorem roundtrip_witness :
    Is32 {1, 2, 3} ∧ ({1, 2, 3} : Bitmap).Nonempty ∧
    (∀ c, sampleRoaring.ReadFrom (sampleRoaring.WriteTo c) = some c) ∧
    (∀ x ∈ ({1, 2, 3} : Bitmap), sampleRoaring.size {x} ≤ 12) ∧ ({1, 2, 3} : Bitmap).card < 5 ∧
    ∃ w, WalkChunkWithKeys 0 sampleRoaring [7] (putChunk sampleRoaring) 5 {1, 2, 3} 12 [] = some w ∧
      w.res = Res.ok () ∧ Get sampleRoaring w.st.1 [7] 0 MaxUint32 = some (Res.ok {1, 2, 3}) :=
  ⟨by decide, by decide, sampleRoaring_codec, by decide, by decide,
    roundtrip sampleRoaring {1, 2, 3} [7] 12 (by decide) (by decide) sampleRoaring_codec
      (by decide) 5 (by decide)⟩

/-- C5: range read.  On a table that holds a chunk series under the prefix `p` (between rows
that sort below `p` and rows that sort above it, none of them under `p`), `Get(tx, table, p,
from, to)` with `from <= to` returns a subset of the stored set that contains every stored `x`
with `from <= x <= to`: the union of the chunks from the first key `>= p ++ bigEndian(from)` up
to and including the first chunk whose upper bound is `>= to`, and of no chunk after it. -/
theorem Get_range (R : Roaring) (p : Bytes) (A B : Table) (kcs : List (ℕ × Bitmap))
    (from_ to_ : ℕ) (hcodec : ∀ c, R.ReadFrom (R.WriteTo c) = some c)
    (hA : ∀ r ∈ A, bytesLt r.1 p = true)
    (hB : ∀ r ∈ B, HasPrefix r.1 p = false ∧ bytesLt r.1 p = false)
    (hs : IsSeries kcs) (hfrom : from_ < 2 ^ 32) (hle : from_ ≤ to_) :
    ∃ G, Get R (A ++ rowsOf R p kcs ++ B) p from_ to_ = some (Res.ok G) ∧
      G ⊆ valuesOf kcs ∧
      (∀ x ∈ valuesOf kcs, from_ ≤ x → x ≤ to_ → x ∈ G) ∧
      G = FastOr (readThrough to_ (kcs.dropWhile (fun a => decide (a.1 < from_)))) := by
  refine ⟨_, Get_series R p A B kcs from_ to_ hcodec hA hB hs hfrom, ?_, ?_, rfl⟩
  · intro x hx
    rw [mem_FastOr] at hx
    obtain ⟨c, hc, hxc⟩ := hx
    obtain ⟨a, ha, rfl⟩ := readThrough_subset to_ _ c hc
    rw [mem_valuesOf]
    exact ⟨a, (List.dropWhile_sublist _).subset ha, hxc⟩
  · intro x hx hfx hxt
    rw [mem_valuesOf] at hx
    obtain ⟨a, ha, hxa⟩ := hx
    rw [mem_FastOr]
    refine ⟨a.2, ?_, hxa⟩
    have hsd : IsSeries (kcs.dropWhile (fun a => decide (a.1 < from_))) :=
      hs.sublist (List.dropWhile_sublist _)
    apply readThrough_mem to_ x hxt _ a hsd.order (fun b hb => (hsd.chunk b hb).1) _ hxa
    have hmem : a ∈ kcs.takeWhile (fun a => decide (a.1 < from_)) ++
        kcs.dropWhile (fun a => decide (a.1 < from_)) := by
      rw [List.takeWhile_append_dropWhile]; exact ha
    rcases List.mem_append.mp hmem with h | h
    · have h1 := List.mem_takeWhile_imp h
      simp only [decide_eq_true_eq] at h1
      have := hs.le_bound a ha x hxa
      omega
    · exact h

/-! ## TruncateRange -/

theorem find_all_head {α : Type} (q : α → Bool) (l : List α) (h : ∀ r ∈ l, q r = true) :
    l.find? q = l.head? := by
  cases l with
  | nil => rfl
  | cons a rest => simp [List.find?_cons, h a (List.mem_cons_self _ _)]

theorem key_ne_of_bound_ne (p : Bytes) (u v : ℕ) (hu : u < 2 ^ 32) (hv : v < 2 ^ 32)
    (h : u ≠ v) : p ++ bigEndian32 u ≠ p ++ bigEndian32 v := by
  intro he
  have he2 := List.append_cancel_left he
  rcases Nat.lt_or_gt_of_ne h with hlt | hlt
  · exact bigEndian32_ne u v hu hv hlt he2
  · exact bigEndian32_ne v u hv hu hlt he2.symm

/-- Seeking with `Seek` to the key of the bound `v` lands on the first row of the series whose bound is at
least `v`, or on the first row after the series. -/
theorem Seek_series (R : Roaring) (p : Bytes) (A B : Table) (kcs : List (ℕ × Bitmap)) (v : ℕ)
    (hA : ∀ r ∈ A, bytesLt r.1 p = true)
    (hB : ∀ r ∈ B, HasPrefix r.1 p = false ∧ bytesLt r.1 p = false)
    (hs : IsSeries kcs) (hv : v < 2 ^ 32) :
    Table.Seek (A ++ rowsOf R p kcs ++ B) (p ++ bigEndian32 v) =
      (rowsOf R p (kcs.dropWhile (fun a => decide (a.1 < v))) ++ B).head? := by
  have hsplit := List.takeWhile_append_dropWhile (fun a : ℕ × Bitmap => decide (a.1 < v)) kcs
  have e : A ++ rowsOf R p kcs ++ B =
      (A ++ rowsOf R p (kcs.takeWhile (fun a => decide (a.1 < v)))) ++
        (rowsOf R p (kcs.dropWhile (fun a => decide (a.1 < v))) ++ B) := by
    have h := rowsOf_append R p (kcs.takeWhile (fun a => decide (a.1 < v)))
      (kcs.dropWhile (fun a => decide (a.1 < v)))
    rw [hsplit] at h
    rw [h]
    simp only [List.append_assoc]
  rw [e]
  unfold Table.Seek
  rw [find_skip]
  · apply find_all_head
    intro r hr
    rcases List.mem_append.mp hr with hr | hr
    · simp only [rowsOf, List.mem_map] at hr
      obtain ⟨a, ha, rfl⟩ := hr
      have hsd : IsSeries (kcs.dropWhile (fun a => decide (a.1 < v))) :=
        hs.sublist (List.dropWhile_sublist _)
      have ha32 := hsd.bound_lt a ha
      -- every bound from the first kept row on is at least `v`
      have hge : v ≤ a.1 := by
        cases hd : kcs.dropWhile (fun a => decide (a.1 < v)) with
        | nil => rw [hd] at ha; simp at ha
        | cons c rest =>
          have hc := dropWhile_head_false _ kcs c rest hd
          simp only [decide_eq_false_iff_not, not_lt] at hc
          rw [hd] at ha hsd
          rcases List.mem_cons.mp ha with rfl | ha
          · exact hc
          · have hinc := hsd.increasing
            rw [List.pairwise_cons] at hinc
            have := hinc.1 a ha
            omega
      have : ¬ a.1 < v := by omega
      simp [bytesLt_key p a.1 v ha32 hv, this]
    · simp [bytesLt_asymm _ _ (bytesLt_of_pre_lt p r.1 (bigEndian32 v) (hB r hr).1 (hB r hr).2)]
  · intro r hr
    rcases List.mem_append.mp hr with hr | hr
    · simp [bytesLt_of_lt_pre p r.1 _ (hA r hr)]
    · simp only [rowsOf, List.mem_map] at hr
      obtain ⟨a, ha, rfl⟩ := hr
      have h1 := List.mem_takeWhile_imp ha
      have h2 := hs.bound_lt a ((List.takeWhile_sublist _).subset ha)
      simp only [decide_eq_true_eq] at h1
      simp [bytesLt_key p a.1 v h2 hv, h1]

theorem walkCond_zero (startkey k : Bytes) : walkCond startkey 0 k = some true := by
  have h : Int.tdiv 7 8 = 0 := by decide
  simp [walkCond, Bytesmask, h]

theorem Delete_series_row (R : Roaring) (p : Bytes) (A B : Table)
    (hA : ∀ r ∈ A, bytesLt r.1 p = true)
    (hB : ∀ r ∈ B, HasPrefix r.1 p = false ∧ bytesLt r.1 p = false)
    (keep rest : List (ℕ × Bitmap)) (cur : ℕ × Bitmap) (hs : IsSeries (keep ++ cur :: rest)) :
    Table.Delete (A ++ rowsOf R p (keep ++ cur :: rest) ++ B) (p ++ bigEndian32 cur.1) =
      A ++ rowsOf R p (keep ++ rest) ++ B := by
  have hinc := hs.increasing
  have h32 := hs.bound_lt
  have hcur32 : cur.1 < 2 ^ 32 := h32 cur (by simp)
  have hAf : A.filter (fun r => decide (r.1 ≠ p ++ bigEndian32 cur.1)) = A := by
    rw [List.filter_eq_self]
    intro r hr
    simp only [ne_eq, decide_not, Bool.not_eq_true', decide_eq_false_iff_not]
    intro he
    have := bytesLt_of_lt_pre p r.1 (bigEndian32 cur.1) (hA r hr)
    rw [he, bytesLt_irrefl] at this
    exact absurd this (by simp)
  have hBf : B.filter (fun r => decide (r.1 ≠ p ++ bigEndian32 cur.1)) = B := by
    rw [List.filter_eq_self]
    intro r hr
    simp only [ne_eq, decide_not, Bool.not_eq_true', decide_eq_false_iff_not]
    intro he
    have := (hB r hr).1
    rw [he, HasPrefix_append] at this
    exact absurd this (by simp)
  have hrows : ∀ l : List (ℕ × Bitmap), (∀ a ∈ l, a.1 < 2 ^ 32 ∧ a.1 ≠ cur.1) →
      (rowsOf R p l).filter (fun r => decide (r.1 ≠ p ++ bigEndian32 cur.1)) = rowsOf R p l := by
    intro l hl
    rw [List.filter_eq_self]
    intro r hr
    simp only [rowsOf, List.mem_map] at hr
    obtain ⟨a, ha, rfl⟩ := hr
    simp only [ne_eq, decide_not, Bool.not_eq_true', decide_eq_false_iff_not]
    exact key_ne_of_bound_ne p a.1 cur.1 (hl a ha).1 hcur32 (hl a ha).2
  have hkeep : ∀ a ∈ keep, a.1 < 2 ^ 32 ∧ a.1 ≠ cur.1 := by
    intro a ha
    have := (List.pairwise_append.mp hinc).2.2 a ha cur (List.mem_cons_self _ _)
    exact ⟨h32 a (by simp [ha]), by omega⟩
  have hrest : ∀ a ∈ rest, a.1 < 2 ^ 32 ∧ a.1 ≠ cur.1 := by
    intro a ha
    have := (List.pairwise_append.mp hinc).2.1
    rw [List.pairwise_cons] at this
    have := this.1 a ha
    exact ⟨h32 a (by simp [ha]), by omega⟩
  unfold Table.Delete
  rw [rowsOf_append, rowsOf_cons, rowsOf_append]
  simp only [List.filter_append, hAf, hBf, hrows keep hkeep, List.filter_cons, ne_eq,
    not_true_eq_false, decide_False, Bool.false_eq_true, if_false, hrows rest hrest]

/-- The deleting walk of `TruncateRange`, the cursor standing on the first of the rows `rem` of
the series: it deletes these rows and stops at the first row after the series; it needs one
iteration per row and one more. -/
theorem walkLoop_delete (R : Roaring) (p startkey : Bytes) (A B : Table)
    (hA : ∀ r ∈ A, bytesLt r.1 p = true)
    (hB : ∀ r ∈ B, HasPrefix r.1 p = false ∧ bytesLt r.1 p = false) :
    ∀ (rem keep : List (ℕ × Bitmap)) (fuel : ℕ), IsSeries (keep ++ rem) →
      walkLoop startkey 0 (truncateWalker p) fuel (A ++ rowsOf R p (keep ++ rem) ++ B, ())
        ((rowsOf R p rem ++ B).head?) =
      if rem.length < fuel then some ((A ++ rowsOf R p keep ++ B, ()), Res.ok ()) else none := by
  intro rem
  induction rem with
  | nil =>
    intro keep fuel hs
    cases fuel with
    | zero => simp [walkLoop]
    | succ f =>
      simp only [List.append_nil, rowsOf, List.map_nil, List.nil_append, List.length_nil,
        Nat.zero_lt_succ, if_true]
      cases B with
      | nil => simp [walkLoop]
      | cons b bs =>
        obtain ⟨bk, bv⟩ := b
        have hb := (hB (bk, bv) (List.mem_cons_self _ _)).1
        simp only [List.head?_cons, walkLoop, walkCond_zero, truncateWalker]
        simp [hb]
  | cons cur rest ih =>
    intro keep fuel hs
    cases fuel with
    | zero => simp [walkLoop]
    | succ f =>
      have hinc := hs.increasing
      have h32 := hs.bound_lt
      have hcur32 : cur.1 < 2 ^ 32 := h32 cur (by simp)
      have hs2 : IsSeries (keep ++ rest) :=
        hs.sublist (List.Sublist.append (List.Sublist.refl keep) (List.sublist_cons_self cur rest))
      rw [rowsOf_cons, List.cons_append, List.head?_cons]
      simp only [walkLoop, walkCond_zero, truncateWalker, HasPrefix_append, Bool.not_true,
        Bool.false_eq_true, if_false]
      rw [Delete_series_row R p A B hA hB keep rest cur hs]
      have hnext : Table.Next (A ++ rowsOf R p (keep ++ rest) ++ B) (p ++ bigEndian32 cur.1) =
          (rowsOf R p rest ++ B).head? := by
        have e : A ++ rowsOf R p (keep ++ rest) ++ B =
            (A ++ rowsOf R p keep) ++ (rowsOf R p rest ++ B) := by
          rw [rowsOf_append]; simp only [List.append_assoc]
        rw [e]
        unfold Table.Next
        rw [find_skip]
        · apply find_all_head
          intro r hr
          rcases List.mem_append.mp hr with hr | hr
          · simp only [rowsOf, List.mem_map] at hr
            obtain ⟨a, ha, rfl⟩ := hr
            have := (List.pairwise_append.mp hinc).2.1
            rw [List.pairwise_cons] at this
            rw [bytesLt_key p cur.1 a.1 hcur32 (h32 a (by simp [ha]))]
            simpa using this.1 a ha
          · exact bytesLt_of_pre_lt p r.1 _ (hB r hr).1 (hB r hr).2
        · intro r hr
          rcases List.mem_append.mp hr with hr | hr
          · exact bytesLt_asymm _ _ (bytesLt_of_lt_pre p r.1 _ (hA r hr))
          · simp only [rowsOf, List.mem_map] at hr
            obtain ⟨a, ha, rfl⟩ := hr
            have hlt := (List.pairwise_append.mp hinc).2.2 a ha cur (List.mem_cons_self _ _)
            apply bytesLt_asymm
            rw [bytesLt_key p a.1 cur.1 (h32 a (by simp [ha])) hcur32]
            simpa using hlt
      rw [hnext, ih keep f hs2]
      simp only [List.length_cons, Nat.succ_lt_succ_iff]

theorem truncated_bitmap (bm : Bitmap) (to_ : ℕ) :
    (match Maximum bm with
      | some mx => if 0 < bm.card ∧ to_ ≤ mx then RemoveRange bm to_ (mx + 1) else bm
      | none => bm) = bm.filter (fun x => x < to_) := by
  cases h : Maximum bm with
  | none =>
    rw [Maximum_eq_none h]
    rfl
  | some mx =>
    obtain ⟨hmem, hle⟩ := Maximum_eq_some h
    simp only
    split
    · ext x
      simp only [mem_RemoveRange, Finset.mem_filter, and_congr_right_iff]
      intro hx
      have := hle x hx
      omega
    · rename_i hc
      have hpos : 0 < bm.card := Finset.card_pos.mpr ⟨mx, hmem⟩
      have hlt : mx < to_ := by
        by_contra hge
        exact hc ⟨hpos, by omega⟩
      ext x
      simp only [Finset.mem_filter, iff_self_and]
      intro hx
      have := hle x hx
      omega

/-- The effect of `TruncateRange` on a table that holds a chunk series under the prefix: the rows of the
series from the bound `to_` on are read and deleted, and the values below `to_` that they held
are written back with `WalkChunkWithKeys`. -/
theorem TruncateRange_series (R : Roaring) (p : Bytes) (A B : Table) (kcs : List (ℕ × Bitmap))
    (to_ fuel : ℕ) (hcodec : ∀ c, R.ReadFrom (R.WriteTo c) = some c)
    (hA : ∀ r ∈ A, bytesLt r.1 p = true)
    (hB : ∀ r ∈ B, HasPrefix r.1 p = false ∧ bytesLt r.1 p = false)
    (hs : IsSeries kcs) (hto : to_ < 2 ^ 32) :
    TruncateRange 0 R fuel (A ++ rowsOf R p kcs ++ B) p to_ =
      if (kcs.dropWhile (fun a => decide (a.1 < to_))).length < fuel then
        (WalkChunkWithKeys 0 R p (putChunk R) fuel
          ((valuesOf (kcs.dropWhile (fun a => decide (a.1 < to_)))).filter (fun x => x < to_))
          ChunkLimit (A ++ rowsOf R p (kcs.takeWhile (fun a => decide (a.1 < to_))) ++ B)).map
            (fun w => (w.st.1, w.res))
      else none := by
  unfold TruncateRange
  obtain ⟨hk1, hk2⟩ := make_key p to_
  simp only [hk1, hk2]
  rw [Get_series R p A B kcs to_ MaxUint32 hcodec hA hB hs hto]
  simp only
  rw [truncated_bitmap]
  have hsd : IsSeries (kcs.dropWhile (fun a => decide (a.1 < to_))) :=
    hs.sublist (List.dropWhile_sublist _)
  have hmax : MaxUint32 = 2 ^ 32 - 1 := rfl
  rw [hmax, readThrough_max _ hsd]
  unfold Walk
  simp only
  rw [Seek_series R p A B kcs to_ hA hB hs hto]
  have hsplit := List.takeWhile_append_dropWhile (fun a : ℕ × Bitmap => decide (a.1 < to_)) kcs
  have hw := walkLoop_delete R p (p ++ bigEndian32 to_) A B hA hB
    (kcs.dropWhile (fun a => decide (a.1 < to_))) (kcs.takeWhile (fun a => decide (a.1 < to_)))
    fuel (hsplit.symm ▸ hs)
  rw [hsplit] at hw
  rw [hw]
  by_cases hf : (kcs.dropWhile (fun a => decide (a.1 < to_))).length < fuel
  · simp only [hf, if_true]
    rfl
  · simp only [hf, if_false]

theorem Get_full (R : Roaring) (p : Bytes) (A B : Table) (kcs : List (ℕ × Bitmap))
    (hcodec : ∀ c, R.ReadFrom (R.WriteTo c) = some c)
    (hA : ∀ r ∈ A, bytesLt r.1 p = true)
    (hB : ∀ r ∈ B, HasPrefix r.1 p = false ∧ bytesLt r.1 p = false)
    (hs : IsSeries kcs) :
    Get R (A ++ rowsOf R p kcs ++ B) p 0 MaxUint32 = some (Res.ok (valuesOf kcs)) := by
  rw [Get_series R p A B kcs 0 MaxUint32 hcodec hA hB hs (by norm_num)]
  have hd : kcs.dropWhile (fun a => decide (a.1 < 0)) = kcs := by
    cases kcs with
    | nil => rfl
    | cons a l => simp [List.dropWhile_cons]
  rw [hd]
  have : MaxUint32 = 2 ^ 32 - 1 := rfl
  rw [this, readThrough_max _ hs]
  rfl

/-- The table after a successful `TruncateRange`: the rows of the series below the bound `to_`
stay, followed by a fresh sentinel-terminated series of the values below `to_` that the deleted
rows held. -/
theorem TruncateRange_result (R : Roaring) (p : Bytes) (A B : Table) (kcs : List (ℕ × Bitmap))
    (to_ fuel : ℕ) (hcodec : ∀ c, R.ReadFrom (R.WriteTo c) = some c)
    (hA : ∀ r ∈ A, bytesLt r.1 p = true)
    (hB : ∀ r ∈ B, HasPrefix r.1 p = false ∧ bytesLt r.1 p = false)
    (hs : IsSeries kcs) (hto : to_ < 2 ^ 32) (t1 : Table)
    (h : TruncateRange 0 R fuel (A ++ rowsOf R p kcs ++ B) p to_ = some (t1, Res.ok ())) :
    ∃ new, t1 = A ++ rowsOf R p (kcs.takeWhile (fun a => decide (a.1 < to_)) ++ new) ++ B ∧
      IsSeries (kcs.takeWhile (fun a => decide (a.1 < to_)) ++ new) ∧
      valuesOf (kcs.takeWhile (fun a => decide (a.1 < to_)) ++ new) =
        (valuesOf kcs).filter (fun x => x < to_) ∧
      IsSeries new ∧ EndsWithSentinel new ∧
      valuesOf new =
        (valuesOf (kcs.dropWhile (fun a => decide (a.1 < to_)))).filter (fun x => x < to_) := by
  rw [TruncateRange_series R p A B kcs to_ fuel hcodec hA hB hs hto] at h
  split at h
  swap
  · simp at h
  simp only [Option.map_eq_some', Prod.mk.injEq] at h
  obtain ⟨w, hw, hst, hok⟩ := h
  have hsplit := List.takeWhile_append_dropWhile (fun a : ℕ × Bitmap => decide (a.1 < to_)) kcs
  have hsk : IsSeries (kcs.takeWhile (fun a => decide (a.1 < to_))) :=
    hs.sublist (List.takeWhile_sublist _)
  have hord : (kcs.takeWhile (fun a => decide (a.1 < to_)) ++
      kcs.dropWhile (fun a => decide (a.1 < to_))).Pairwise
        (fun a b => a.1 = a.2.sup id ∧ SetLt a.2 b.2) := hsplit.symm ▸ hs.order
  -- a value written back lies in a deleted chunk, above every kept chunk
  have habove : ∀ a ∈ kcs.takeWhile (fun a => decide (a.1 < to_)),
      ∀ y ∈ (valuesOf (kcs.dropWhile (fun a => decide (a.1 < to_)))).filter (fun x => x < to_),
        a.1 = a.2.sup id ∧ ∀ x ∈ a.2, x < y := by
    intro a ha y hy
    rw [Finset.mem_filter, mem_valuesOf] at hy
    obtain ⟨⟨d, hd, hyd⟩, -⟩ := hy
    obtain ⟨h1, h2⟩ := (List.pairwise_append.mp hord).2.2 a ha d hd
    exact ⟨h1, fun x hx => h2 x hx y hyd⟩
  have h32 : Is32 ((valuesOf (kcs.dropWhile (fun a => decide (a.1 < to_)))).filter
      (fun x => x < to_)) := by
    intro x hx
    rw [Finset.mem_filter] at hx
    omega
  obtain ⟨ht, hsn, hend, hval, -⟩ := WalkChunkWithKeys_put R p _ ChunkLimit
    (A ++ rowsOf R p (kcs.takeWhile (fun a => decide (a.1 < to_)))) B fuel w h32
    (by
      intro r hr u hu hx
      rcases List.mem_append.mp hr with hr | hr
      · exact bytesLt_of_lt_pre p r.1 _ (hA r hr)
      · simp only [rowsOf, List.mem_map] at hr
        obtain ⟨a, ha, rfl⟩ := hr
        obtain ⟨x, hx, hxu⟩ := hx
        obtain ⟨h1, h2⟩ := habove a ha x hx
        have := h2 _ (sup_id_mem (hsk.chunk a ha).1)
        rw [bytesLt_key p a.1 u (hsk.bound_lt a ha) hu]
        simp only [decide_eq_true_eq]
        omega)
    hB hw hok
  refine ⟨boundsOf w.calls, ?_, ⟨?_, ?_⟩, ?_, hsn, hend, hval⟩
  · rw [← hst, ht, rowsOf_append]
    simp only [List.append_assoc]
  · intro a ha
    rcases List.mem_append.mp ha with ha | ha
    · exact hsk.chunk a ha
    · exact hsn.chunk a ha
  · rw [List.pairwise_append]
    refine ⟨hsk.order, hsn.order, ?_⟩
    intro a ha b hb
    have hbsub : ∀ y ∈ b.2, y ∈ (valuesOf (kcs.dropWhile (fun a => decide (a.1 < to_)))).filter
        (fun x => x < to_) := by
      intro y hy
      rw [← hval, mem_valuesOf]
      exact ⟨b, hb, hy⟩
    obtain ⟨y, hy⟩ := (hsn.chunk b hb).1
    refine ⟨(habove a ha y (hbsub y hy)).1, ?_⟩
    intro x hx z hz
    exact (habove a ha z (hbsub z hz)).2 x hx
  · ext x
    rw [Finset.mem_filter, mem_valuesOf, mem_valuesOf]
    constructor
    · rintro ⟨a, ha, hxa⟩
      rcases List.mem_append.mp ha with ha | ha
      · have h1 := List.mem_takeWhile_imp ha
        simp only [decide_eq_true_eq] at h1
        have h2 := hsk.le_bound a ha x hxa
        exact ⟨⟨a, (List.takeWhile_sublist _).subset ha, hxa⟩, by omega⟩
      · have : x ∈ valuesOf (boundsOf w.calls) := (mem_valuesOf _ x).mpr ⟨a, ha, hxa⟩
        rw [hval, Finset.mem_filter, mem_valuesOf] at this
        obtain ⟨⟨d, hd, hxd⟩, hlt⟩ := this
        exact ⟨⟨d, (List.dropWhile_sublist _).subset hd, hxd⟩, hlt⟩
    · rintro ⟨⟨a, ha, hxa⟩, hlt⟩
      rw [← hsplit] at ha
      rcases List.mem_append.mp ha with ha | ha
      · exact ⟨a, List.mem_append_left _ ha, hxa⟩
      · have : x ∈ valuesOf (boundsOf w.calls) := by
          rw [hval, Finset.mem_filter, mem_valuesOf]
          exact ⟨⟨a, ha, hxa⟩, hlt⟩
        rw [mem_valuesOf] at this
        obtain ⟨d, hd, hxd⟩ := this
        exact ⟨d, List.mem_append_right _ hd, hxd⟩

theorem sampleSeries_isSeries : IsSeries sampleSeries :=
  ⟨by decide, by decide⟩

/-- C4: truncate correctness.  Let the table hold a chunk series of the set `S = valuesOf kcs`
under the prefix `p`, between rows that sort below `p` and rows that sort above it.  For every
boundary `to`, after `TruncateRange(tx, table, p, to)` succeeds, `Get(tx, table, p, 0,
MaxUint32)` returns exactly the `x` in `S` with `x < to`; and `TruncateRange` does succeed,
given enough fuel, when every one-element bitmap of a stored value fits the chunk limit. -/
theorem TruncateRange_correct (R : Roaring) (p : Bytes) (A B : Table) (kcs : List (ℕ × Bitmap))
    (to_ fuel : ℕ) (hcodec : ∀ c, R.ReadFrom (R.WriteTo c) = some c)
    (hA : ∀ r ∈ A, bytesLt r.1 p = true)
    (hB : ∀ r ∈ B, HasPrefix r.1 p = false ∧ bytesLt r.1 p = false)
    (hs : IsSeries kcs) (hto : to_ < 2 ^ 32) :
    (∀ t1, TruncateRange 0 R fuel (A ++ rowsOf R p kcs ++ B) p to_ = some (t1, Res.ok ()) →
      Get R t1 p 0 MaxUint32 = some (Res.ok ((valuesOf kcs).filter (fun x => x < to_)))) ∧
    ((∀ x ∈ valuesOf kcs, R.size {x} ≤ ChunkLimit) → kcs.length + (valuesOf kcs).card < fuel →
      ∃ t1, TruncateRange 0 R fuel (A ++ rowsOf R p kcs ++ B) p to_ = some (t1, Res.ok ())) := by
  constructor
  · intro t1 h
    obtain ⟨new, ht, hsn, hval, -, -, -⟩ :=
      TruncateRange_result R p A B kcs to_ fuel hcodec hA hB hs hto t1 h
    rw [ht, Get_full R p A B _ hcodec hA hB hsn, hval]
  · intro hfit hfuel
    rw [TruncateRange_series R p A B kcs to_ fuel hcodec hA hB hs hto]
    have hlen : (kcs.dropWhile (fun a => decide (a.1 < to_))).length < fuel := by
      have := (List.dropWhile_sublist (fun a : ℕ × Bitmap => decide (a.1 < to_)) (l := kcs)).length_le
      omega
    have hsubset : (valuesOf (kcs.dropWhile (fun a => decide (a.1 < to_)))).filter
        (fun x => x < to_) ⊆ valuesOf kcs := by
      intro x hx
      rw [Finset.mem_filter, mem_valuesOf] at hx
      obtain ⟨⟨d, hd, hxd⟩, -⟩ := hx
      exact (mem_valuesOf _ x).mpr ⟨d, (List.dropWhile_sublist _).subset hd, hxd⟩
    obtain ⟨w, hw, hok⟩ := WalkChunkWithKeys_completes R p ChunkLimit fuel _
      (A ++ rowsOf R p (kcs.takeWhile (fun a => decide (a.1 < to_))) ++ B, [])
      (fun x hx => hfit x (hsubset hx))
      (by have := Finset.card_le_card hsubset; omega)
    simp only [hlen, if_true]
    refine ⟨w.st.1, ?_⟩
    unfold WalkChunkWithKeys
    rw [hw, Option.map_some', hok]

theorem TruncateRange_correct_witness :
    (∀ c, sampleRoaring.ReadFrom (sampleRoaring.WriteTo c) = some c) ∧
    (∀ r ∈ ([([6], [9])] : Table), bytesLt r.1 [7] = true) ∧
    (∀ r ∈ ([([8], [9])] : Table), HasPrefix r.1 [7] = false ∧ bytesLt r.1 [7] = false) ∧
    IsSeries sampleSeries ∧ 2 < 2 ^ 32 ∧
    ((∀ t1, TruncateRange 0 sampleRoaring 10
        ([([6], [9])] ++ rowsOf sampleRoaring [7] sampleSeries ++ [([8], [9])]) [7] 2 =
          some (t1, Res.ok ()) →
        Get sampleRoaring t1 [7] 0 MaxUint32 =
          some (Res.ok ((valuesOf sampleSeries).filter (fun x => x < 2)))) ∧
      ((∀ x ∈ valuesOf sampleSeries, sampleRoaring.size {x} ≤ ChunkLimit) →
        sampleSeries.length + (valuesOf sampleSeries).card < 10 →
        ∃ t1, TruncateRange 0 sampleRoaring 10
          ([([6], [9])] ++ rowsOf sampleRoaring [7] sampleSeries ++ [([8], [9])]) [7] 2 =
            some (t1, Res.ok ()))) ∧
    TruncateRange 0 sampleRoaring 10
        ([([6], [9])] ++ rowsOf sampleRoaring [7] sampleSeries ++ [([8], [9])]) [7] 2 =
      some ([([6], [9]), ([7, 255, 255, 255, 255], [0, 1]), ([8], [9])], Res.ok ()) :=
  ⟨sampleRoaring_codec, by decide, by decide, sampleSeries_isSeries, by decide,
    TruncateRange_correct sampleRoaring [7] [([6], [9])] [([8], [9])] sampleSeries 2 10
      sampleRoaring_codec (by decide) (by decide) sampleSeries_isSeries (by decide),
    by decide⟩

theorem Get_range_witness :
    (∀ c, sampleRoaring.ReadFrom (sampleRoaring.WriteTo c) = some c) ∧
    (∀ r ∈ ([([6], [9])] : Table), bytesLt r.1 [7] = true) ∧
    (∀ r ∈ ([([8], [9])] : Table), HasPrefix r.1 [7] = false ∧ bytesLt r.1 [7] = false) ∧
    IsSeries sampleSeries ∧ 1 < 2 ^ 32 ∧ 1 ≤ 2 ∧
    ∃ G, Get sampleRoaring ([([6], [9])] ++ rowsOf sampleRoaring [7] sampleSeries ++ [([8], [9])])
        [7] 1 2 = some (Res.ok G) ∧
      G ⊆ valuesOf sampleSeries ∧
      (∀ x ∈ valuesOf sampleSeries, 1 ≤ x → x ≤ 2 → x ∈ G) ∧
      G = FastOr (readThrough 2 (sampleSeries.dropWhile (fun a => decide (a.1 < 1)))) :=
  ⟨sampleRoaring_codec, by decide, by decide, sampleSeries_isSeries, by decide, by decide,
    Get_range sampleRoaring [7] [([6], [9])] [([8], [9])] sampleSeries 1 2
      sampleRoaring_codec (by decide) (by decide) sampleSeries_isSeries (by decide) (by decide)⟩

/-- C10 as stated fails: a well-formed series of two chunks, `{1}` keyed by its maximum and `{2}`
keyed by the sentinel (as `WalkChunkWithKeys` lays out `{1, 2}` under a limit of 10 bytes), is
truncated at 2.  The sentinel row is deleted and nothing is written back: the row of `{1}`
remains, and its key does not carry the sentinel. -/
theorem TruncateRange_drops_sentinel :
    (WalkChunkWithKeys 0 sampleRoaring [7] (putChunk sampleRoaring) 5 {1, 2} 10 []).map
        (fun w => (w.st.1, w.res)) =
      some ([([7, 0, 0, 0, 1], [0, 1]), ([7, 255, 255, 255, 255], [0, 0, 1])], Res.ok ()) ∧
    TruncateRange 0 sampleRoaring 10
        [([7, 0, 0, 0, 1], [0, 1]), ([7, 255, 255, 255, 255], [0, 0, 1])] [7] 2 =
      some ([([7, 0, 0, 0, 1], [0, 1])], Res.ok ()) ∧
    ([([7, 0, 0, 0, 1], [0, 1])] : Table).filter (fun r => HasPrefix r.1 [7]) ≠ [] ∧
    ∀ r ∈ ([([7, 0, 0, 0, 1], [0, 1])] : Table), r.1 ≠ [7] ++ bigEndian32 (2 ^ 32 - 1) := by
  decide

/-- C10 (amended): if before the call the rows under the prefix `p` form a series (keys
increasing, every chunk but the final one keyed by its maximum, the final one keyed by the
all-ones sentinel or by its maximum), then after a successful `TruncateRange(tx, table, p, to)`
the rows under `p` again form such a series, possibly an empty one: the rows with bounds below
`to` stay as they were and are followed by a freshly written series `new`, which is
sentinel-terminated and holds the values below `to` of the deleted rows.  The final key
therefore carries the sentinel when such a value exists, and is the maximum of the last kept
chunk when none does. -/
theorem TruncateRange_layout (R : Roaring) (p : Bytes) (A B : Table) (kcs : List (ℕ × Bitmap))
    (to_ fuel : ℕ) (hcodec : ∀ c, R.ReadFrom (R.WriteTo c) = some c)
    (hA : ∀ r ∈ A, bytesLt r.1 p = true)
    (hB : ∀ r ∈ B, HasPrefix r.1 p = false ∧ bytesLt r.1 p = false)
    (hs : IsSeries kcs) (hto : to_ < 2 ^ 32) (t1 : Table)
    (h : TruncateRange 0 R fuel (A ++ rowsOf R p kcs ++ B) p to_ = some (t1, Res.ok ())) :
    ∃ new, t1 = A ++ rowsOf R p (kcs.takeWhile (fun a => decide (a.1 < to_)) ++ new) ++ B ∧
      IsSeries (kcs.takeWhile (fun a => decide (a.1 < to_)) ++ new) ∧
      IsSeries new ∧ EndsWithSentinel new ∧
      (new = [] ↔ ∀ a ∈ kcs, to_ ≤ a.1 → ∀ x ∈ a.2, to_ ≤ x) ∧
      (new ≠ [] → EndsWithSentinel (kcs.takeWhile (fun a => decide (a.1 < to_)) ++ new)) := by
  obtain ⟨new, ht, hsn, -, hn, hend, hval⟩ :=
    TruncateRange_result R p A B kcs to_ fuel hcodec hA hB hs hto t1 h
  refine ⟨new, ht, hsn, hn, hend, ?_, ?_⟩
  · constructor
    · intro hnil a ha hge x hx
      by_contra hlt
      have hmem : x ∈ valuesOf new := by
        rw [hval, Finset.mem_filter, mem_valuesOf]
        refine ⟨⟨a, ?_, hx⟩, by omega⟩
        have hm : a ∈ kcs.takeWhile (fun a => decide (a.1 < to_)) ++
            kcs.dropWhile (fun a => decide (a.1 < to_)) := by
          rw [List.takeWhile_append_dropWhile]; exact ha
        rcases List.mem_append.mp hm with h1 | h1
        · have := List.mem_takeWhile_imp h1
          simp only [decide_eq_true_eq] at this
          omega
        · exact h1
      rw [hnil] at hmem
      simp [valuesOf, FastOr_nil] at hmem
    · intro hall
      cases hnew : new with
      | nil => rfl
      | cons b l =>
        obtain ⟨y, hy⟩ := (hn.chunk b (by rw [hnew]; exact List.mem_cons_self _ _)).1
        have hmem : y ∈ valuesOf new := (mem_valuesOf _ y).mpr ⟨b, by rw [hnew]; exact List.mem_cons_self _ _, hy⟩
        rw [hval, Finset.mem_filter, mem_valuesOf] at hmem
        obtain ⟨⟨d, hd, hyd⟩, hlt⟩ := hmem
        have hd2 : d ∈ kcs := (List.dropWhile_sublist _).subset hd
        have hge : to_ ≤ d.1 := by
          have hsd : IsSeries (kcs.dropWhile (fun a => decide (a.1 < to_))) :=
            hs.sublist (List.dropWhile_sublist _)
          cases hdw : kcs.dropWhile (fun a => decide (a.1 < to_)) with
          | nil => rw [hdw] at hd; simp at hd
          | cons c rest =>
            have hc := dropWhile_head_false _ kcs c rest hdw
            simp only [decide_eq_false_iff_not, not_lt] at hc
            rw [hdw] at hd hsd
            rcases List.mem_cons.mp hd with rfl | hd
            · exact hc
            · have hinc := hsd.increasing
              rw [List.pairwise_cons] at hinc
              have := hinc.1 d hd
              omega
        have := hall d hd2 hge y hyd
        omega
  · intro hne a ha
    rw [List.getLast?_append_of_ne_nil _ hne] at ha
    exact hend a ha

theorem TruncateRange_layout_witness :
    (∀ c, sampleRoaring.ReadFrom (sampleRoaring.WriteTo c) = some c) ∧
    (∀ r ∈ ([([6], [9])] : Table), bytesLt r.1 [7] = true) ∧
    (∀ r ∈ ([([8], [9])] : Table), HasPrefix r.1 [7] = false ∧ bytesLt r.1 [7] = false) ∧
    IsSeries sampleSeries ∧ 2 < 2 ^ 32 ∧
    TruncateRange 0 sampleRoaring 10
        ([([6], [9])] ++ rowsOf sampleRoaring [7] sampleSeries ++ [([8], [9])]) [7] 2 =
      some ([([6], [9]), ([7, 255, 255, 255, 255], [0, 1]), ([8], [9])], Res.ok ()) ∧
    ∃ new, [([6], [9]), ([7, 255, 255, 255, 255], [0, 1]), ([8], [9])] =
        [([6], [9])] ++ rowsOf sampleRoaring [7]
          (sampleSeries.takeWhile (fun a => decide (a.1 < 2)) ++ new) ++ [([8], [9])] ∧
      IsSeries (sampleSeries.takeWhile (fun a => decide (a.1 < 2)) ++ new) ∧
      IsSeries new ∧ EndsWithSentinel new ∧
      (new = [] ↔ ∀ a ∈ sampleSeries, 2 ≤ a.1 → ∀ x ∈ a.2, 2 ≤ x) ∧
      (new ≠ [] → EndsWithSentinel (sampleSeries.takeWhile (fun a => decide (a.1 < 2)) ++ new)) :=
  ⟨sampleRoaring_codec, by decide, by decide, sampleSeries_isSeries, by decide, by decide,
    TruncateRange_layout sampleRoaring [7] [([6], [9])] [([8], [9])] sampleSeries 2 10
      sampleRoaring_codec (by decide) (by decide) sampleSeries_isSeries (by decide) _ (by decide)⟩

/-! ## SeekInBitmap64 -/

theorem Rank_pred (m : Bitmap) (n : ℕ) (hn : n ≠ 0) :
    Rank m (n - 1) = (m.filter (fun y => y < n)).card := by
  unfold Rank
  congr 1
  ext y
  simp only [Finset.mem_filter]
  constructor
  · intro h; exact ⟨h.1, by omega⟩
  · intro h; exact ⟨h.1, by omega⟩

/-- The value selected at the rank of the values below `n` is the least value from `n` on. -/
theorem Select_at_rank (m : Bitmap) (n v : ℕ) (hv : v ∈ m) (hnv : n ≤ v)
    (hmin : ∀ x ∈ m, n ≤ x → v ≤ x) :
    Select m (m.filter (fun y => y < n)).card = some v := by
  have hset : m.filter (fun x => (m.filter (fun y => y < x)).card =
      (m.filter (fun y => y < n)).card) = {v} := by
    ext z
    simp only [Finset.mem_filter, Finset.mem_singleton]
    constructor
    · rintro ⟨hz, hc⟩
      by_contra hne
      rcases Nat.lt_or_gt_of_ne hne with hlt | hgt
      · -- `z < v`, so `z < n` and `z` itself is counted below `n` but not below `z`
        have hzn : z < n := by
          by_contra h
          have := hmin z hz (by omega)
          omega
        have hss : m.filter (fun y => y < z) ⊂ m.filter (fun y => y < n) := by
          rw [Finset.ssubset_iff_of_subset]
          · exact ⟨z, Finset.mem_filter.mpr ⟨hz, hzn⟩, by simp⟩
          · intro y hy
            rw [Finset.mem_filter] at hy ⊢
            exact ⟨hy.1, by omega⟩
        have := Finset.card_lt_card hss
        omega
      · -- `v < z`, so `v` is counted below `z` but not below `n`
        have hss : m.filter (fun y => y < n) ⊂ m.filter (fun y => y < z) := by
          rw [Finset.ssubset_iff_of_subset]
          · exact ⟨v, Finset.mem_filter.mpr ⟨hv, hgt⟩, by simp; omega⟩
          · intro y hy
            rw [Finset.mem_filter] at hy ⊢
            exact ⟨hy.1, by omega⟩
        have := Finset.card_lt_card hss
        omega
    · rintro rfl
      refine ⟨hv, ?_⟩
      congr 1
      ext y
      simp only [Finset.mem_filter]
      constructor
      · rintro ⟨hy, hyz⟩
        refine ⟨hy, ?_⟩
        by_contra h
        have := hmin y hy (by omega)
        omega
      · rintro ⟨hy, hyn⟩
        exact ⟨hy, by omega⟩
  unfold Select
  rw [dif_pos (by rw [hset]; exact Finset.singleton_nonempty v)]
  simp only [hset, Finset.min'_singleton]

/-- C15: `SeekInBitmap64(m, n)` returns `(v, true)` with `v` the smallest element of `m` that is
at least `n` whenever `m` has an element that is at least `n`, and it returns `(0, false)`
exactly when `m` has no such element (in particular when `m` is empty); this holds for every
`n`, 0 and the largest 64-bit value included. -/
theorem SeekInBitmap64_least (m : Bitmap) (n : ℕ) :
    ((∃ x ∈ m, n ≤ x) → ∃ v, SeekInBitmap64 m n = (v, true) ∧ v ∈ m ∧ n ≤ v ∧
      ∀ x ∈ m, n ≤ x → v ≤ x) ∧
    (SeekInBitmap64 m n = (0, false) ↔ ¬ ∃ x ∈ m, n ≤ x) := by
  have hpos : (∃ x ∈ m, n ≤ x) → ∃ v, SeekInBitmap64 m n = (v, true) ∧ v ∈ m ∧ n ≤ v ∧
      ∀ x ∈ m, n ≤ x → v ≤ x := by
    rintro ⟨x, hx, hnx⟩
    have hne : m.Nonempty := ⟨x, hx⟩
    unfold SeekInBitmap64
    rw [dif_pos hne]
    by_cases hn : n = 0
    · subst hn
      simp only [if_true]
      exact ⟨_, rfl, Finset.min'_mem m hne, Nat.zero_le _, fun y hy _ => Finset.min'_le m y hy⟩
    · simp only [hn, if_false]
      -- the least element from `n` on
      have hge : (m.filter (fun y => n ≤ y)).Nonempty := ⟨x, Finset.mem_filter.mpr ⟨hx, hnx⟩⟩
      have hvm := Finset.min'_mem _ hge
      rw [Finset.mem_filter] at hvm
      have hvmin : ∀ y ∈ m, n ≤ y → (m.filter (fun y => n ≤ y)).min' hge ≤ y :=
        fun y hy hny => Finset.min'_le _ y (Finset.mem_filter.mpr ⟨hy, hny⟩)
      have hrank : ¬ Rank m (n - 1) ≥ m.card := by
        rw [Rank_pred m n hn, not_le]
        apply Finset.card_lt_card
        rw [Finset.ssubset_iff_of_subset (Finset.filter_subset _ _)]
        exact ⟨x, hx, by simp; omega⟩
      simp only [hrank, if_false]
      rw [Rank_pred m n hn, Select_at_rank m n _ hvm.1 hvm.2 hvmin]
      exact ⟨_, rfl, hvm.1, hvm.2, hvmin⟩
  refine ⟨hpos, ?_⟩
  constructor
  · intro h hex
    obtain ⟨v, hv, -⟩ := hpos hex
    rw [hv] at h
    simp at h
  · intro hno
    unfold SeekInBitmap64
    by_cases hne : m.Nonempty
    · rw [dif_pos hne]
      have hn : n ≠ 0 := by
        rintro rfl
        obtain ⟨x, hx⟩ := hne
        exact hno ⟨x, hx, Nat.zero_le _⟩
      simp only [hn, if_false]
      have hrank : Rank m (n - 1) ≥ m.card := by
        rw [Rank_pred m n hn]
        apply Finset.card_le_card
        intro y hy
        rw [Finset.mem_filter]
        refine ⟨hy, ?_⟩
        by_contra h
        exact hno ⟨y, hy, by omega⟩
      simp only [hrank, if_true]
    · rw [dif_neg hne]

/-! ## The 64-bit cut -/

theorem CutLeft64_zero (R : Roaring) (bm : Bitmap) (sizeLimit : ℕ) :
    CutLeft64 0 R bm sizeLimit = CutLeft64Raw R bm sizeLimit := by
  simp [CutLeft64]

/-- Where the whole-set branch of `CutLeft64Raw` is right: a set that fits the limit and whose
maximum is below the largest 64-bit value is returned whole. -/
theorem CutLeft64Raw_fits (R : Roaring) (bm : Bitmap) (sizeLimit : ℕ) (h : bm.Nonempty)
    (hs : R.size bm ≤ sizeLimit) (hmax : bm.max' h < 2 ^ 64 - 1) :
    CutLeft64Raw R bm sizeLimit = (some bm, ∅) := by
  unfold CutLeft64Raw
  rw [dif_pos h]
  simp only [hs, if_true]
  have e : (bm.max' h + 1) % 2 ^ 64 = bm.max' h + 1 := Nat.mod_eq_of_lt (by omega)
  rw [e, rangeAnd_full h]

/-- C17 fails on the code: a 64-bit set that holds the largest 64-bit value and fits the limit.
`bm.Maximum()+1` wraps to 0, the range `[min, 0)` is empty, and `CutLeft64` returns the empty
set and clears the source, where the 32-bit `CutLeft` (which widens before adding 1) returns
the whole set. -/
theorem CutLeft64_loses_max :
    Is64 {2 ^ 64 - 1} ∧ sampleRoaring.size {2 ^ 64 - 1} ≤ 100 ∧
    CutLeft64 0 sampleRoaring {2 ^ 64 - 1} 100 = (some ∅, ∅) ∧
    CutLeft64 0 sampleRoaring {7, 2 ^ 64 - 1} 100 = (some ∅, ∅) ∧
    CutLeft 0 sampleRoaring {2 ^ 32 - 1} 100 = (some {2 ^ 32 - 1}, ∅) := by
  decide

/-- A cut that returns the empty chunk and leaves the source as it was stalls `WalkChunks64`:
with a visitor that accepts every chunk the walk never returns. -/
theorem WalkChunks64_stuck (R : Roaring) (bm : Bitmap) (L : ℕ) (hne : bm.Nonempty)
    (hcut : (CutLeft64 0 R bm L).2 = bm) :
    ∀ fuel, WalkChunks64 0 R acceptAll fuel bm L () = none := by
  intro fuel
  induction fuel with
  | zero => rfl
  | succ n ih =>
    unfold WalkChunks64
    have hc : 0 < bm.card := Finset.card_pos.mpr hne
    simp only [hc, if_true, hcut, acceptAll, ih, Option.map_none']

/-- C20 fails on the code: the two-element set `{0, 2^63}` with a limit that every one-element
set fits.  `int(minMax)` is negative, `sort.Search` returns 0, and `CutLeft64` returns the
empty chunk without removing anything from the source; `WalkChunks64` hands the visitor an
empty chunk and does not terminate (here: 50 iterations do not suffice). -/
theorem CutLeft64_no_progress :
    Is64 {0, 2 ^ 63} ∧ (∀ x ∈ ({0, 2 ^ 63} : Bitmap), sampleRoaring.size {x} ≤ 10) ∧
    toInt (2 ^ 63 - 0) < 0 ∧
    CutLeft64 0 sampleRoaring {0, 2 ^ 63} 10 = (some ∅, {0, 2 ^ 63}) ∧
    WalkChunks64 0 sampleRoaring acceptAll 50 {0, 2 ^ 63} 10 () = none ∧
    WalkChunks 0 sampleRoaring acceptAll 50 {0, 2 ^ 31} 10 () =
      some ⟨(), ∅, Res.ok (), [(some {0}, false), (some {2 ^ 31}, true)]⟩ := by
  decide

/-! ## The three bodies of CutLeft -/

theorem CutLeftGPT_eq_Raw (R : Roaring) (bm : Bitmap) (sizeLimit : ℕ) :
    CutLeftGPT R bm sizeLimit = CutLeftRaw R bm sizeLimit := rfl

/-- C19 fails on the code: `CutLeftDoubao` is not the algorithm of `CutLeftRaw` and
`CutLeftGPT`.  On `{10, 20, 30, 1000000}` with a limit of 13 bytes the first two return
`{10, 20}` and leave `{30, 1000000}`; `CutLeftDoubao` returns `{10, 20, 30}`, which does not
fit the limit, and leaves the source untouched, also when the whole set fits. -/
theorem CutLeftDoubao_differs :
    CutLeft 0 sampleRoaring {10, 20, 30, 1000000} 13 = (some {10, 20}, {30, 1000000}) ∧
    CutLeft 1 sampleRoaring {10, 20, 30, 1000000} 13 = (some {10, 20}, {30, 1000000}) ∧
    CutLeft 2 sampleRoaring {10, 20, 30, 1000000} 13 =
      (some {10, 20, 30}, {10, 20, 30, 1000000}) ∧
    sampleRoaring.size {10, 20, 30} > 13 ∧
    CutLeft 0 sampleRoaring {1, 2} 100 = (some {1, 2}, ∅) ∧
    CutLeft 2 sampleRoaring {1, 2} 100 = (some {1, 2}, {1, 2}) := by
  decide

/-! ## The greedy cut -/

theorem sampleRoaring_mono (S : Bitmap) (lo i j : ℕ) (hij : i ≤ j) :
    sampleRoaring.size (rangeAnd S lo (lo + i)) ≤ sampleRoaring.size (rangeAnd S lo (lo + j)) := by
  have hsub : rangeAnd S lo (lo + i) ⊆ rangeAnd S lo (lo + j) := by
    intro x hx
    rw [mem_rangeAnd] at hx ⊢
    exact ⟨hx.1, hx.2.1, by omega⟩
  have := Finset.card_le_card hsub
  simp only [sampleRoaring]
  omega

/-- C18: `CutLeft` cuts greedily.  For a non-empty 32-bit set `S` whose serialized size exceeds
`L`, the serialized size being non-decreasing as the range `[min, min+i)` grows, the source is
left non-empty, the chunk together with the smallest element left in the source serializes to
more than `L`, so does every value-ordered prefix of `S` that strictly contains the chunk, and
the chunk itself is within `L` (provided the empty set is). -/
theorem CutLeft_greedy (R : Roaring) (S : Bitmap) (L : ℕ) (h32 : Is32 S) (hne : S.Nonempty)
    (hbig : L < R.size S)
    (hmono : ∀ i j, i ≤ j → R.size (rangeAnd S (S.min' hne) (S.min' hne + i)) ≤
      R.size (rangeAnd S (S.min' hne) (S.min' hne + j))) :
    ∃ P Rm, CutLeft 0 R S L = (some P, Rm) ∧ ∃ hr : Rm.Nonempty,
      L < R.size (insert (Rm.min' hr) P) ∧
      (∀ b, P ⊂ S.filter (fun x => x < b) → L < R.size (S.filter (fun x => x < b))) ∧
      (R.size ∅ ≤ L → R.size P ≤ L) := by
  have hs : ¬ R.size S ≤ L := by omega
  have hcut := CutLeftRaw_cut R S L hne hs
  have hmnle : S.min' hne ≤ S.max' hne := Finset.min'_le S _ (Finset.max'_mem S hne)
  have hcle : cutIndex R S L (S.min' hne) (S.max' hne) ≤ S.max' hne - S.min' hne :=
    Search_le _ _
  have hr : (RemoveRange S (S.min' hne)
      (S.min' hne + cutIndex R S L (S.min' hne) (S.max' hne))).Nonempty :=
    ⟨S.max' hne, mem_RemoveRange.mpr ⟨Finset.max'_mem S hne, fun h => by omega⟩⟩
  refine ⟨_, _, (CutLeft_zero R S L).trans hcut, hr, ?_⟩
  generalize hc : cutIndex R S L (S.min' hne) (S.max' hne) = c at hcut hcle hr
  generalize hy : (RemoveRange S (S.min' hne) (S.min' hne + c)).min' hr = y
  have hyrem : y ∈ RemoveRange S (S.min' hne) (S.min' hne + c) := hy ▸ Finset.min'_mem _ hr
  have hymin : ∀ x ∈ RemoveRange S (S.min' hne) (S.min' hne + c), y ≤ x :=
    fun x hx => hy ▸ Finset.min'_le _ x hx
  rw [mem_RemoveRange] at hyrem
  have hymn : S.min' hne ≤ y := Finset.min'_le S y hyrem.1
  have hyc : S.min' hne + c ≤ y := by
    by_contra h
    exact hyrem.2 ⟨hymn, by omega⟩
  -- the chunk with the next element is the range up to that element
  have hins : insert y (rangeAnd S (S.min' hne) (S.min' hne + c)) =
      rangeAnd S (S.min' hne) (S.min' hne + (y + 1 - S.min' hne)) := by
    ext x
    simp only [Finset.mem_insert, mem_rangeAnd]
    constructor
    · rintro (rfl | h)
      · exact ⟨hyrem.1, hymn, by omega⟩
      · exact ⟨h.1, h.2.1, by omega⟩
    · rintro ⟨hx, hx1, hx2⟩
      by_cases hxc : x < S.min' hne + c
      · exact Or.inr ⟨hx, hx1, hxc⟩
      · left
        have := hymin x (mem_RemoveRange.mpr ⟨hx, fun h => hxc h.2⟩)
        omega
  have hover : L < R.size (insert y (rangeAnd S (S.min' hne) (S.min' hne + c))) := by
    rw [hins]
    rcases Search_above (S.max' hne - S.min' hne)
      (fun i => decide (R.size (rangeAnd S (S.min' hne) (S.min' hne + i + 1)) > L)) with h | h
    · -- nothing below the maximum exceeds the limit: the next element is the maximum
      have hcmax : c = S.max' hne - S.min' hne := hc ▸ h
      have hfull : rangeAnd S (S.min' hne) (S.min' hne + (y + 1 - S.min' hne)) = S := by
        ext x
        rw [mem_rangeAnd]
        constructor
        · exact fun hx => hx.1
        · intro hx
          have h1 := Finset.min'_le S x hx
          have h2 := Finset.le_max' S x hx
          exact ⟨hx, h1, by omega⟩
      rw [hfull]
      exact hbig
    · have hfc : L < R.size (rangeAnd S (S.min' hne) (S.min' hne + (c + 1))) := by
        have : cutIndex R S L (S.min' hne) (S.max' hne) = Search (S.max' hne - S.min' hne)
            (fun i => decide (R.size (rangeAnd S (S.min' hne) (S.min' hne + i + 1)) > L)) := rfl
        rw [← this, hc] at h
        simpa using h
      exact lt_of_lt_of_le hfc (hmono (c + 1) (y + 1 - S.min' hne) (by omega))
  refine ⟨hover, ?_, ?_⟩
  · intro b hb
    obtain ⟨x, hxb, hxP⟩ := Finset.exists_of_ssubset hb
    rw [Finset.mem_filter] at hxb
    have hxc : ¬ x < S.min' hne + c := fun h =>
      hxP (mem_rangeAnd.mpr ⟨hxb.1, Finset.min'_le S x hxb.1, h⟩)
    have hyx := hymin x (mem_RemoveRange.mpr ⟨hxb.1, fun h => hxc h.2⟩)
    have hpre : S.filter (fun x => x < b) =
        rangeAnd S (S.min' hne) (S.min' hne + (b - S.min' hne)) := by
      ext z
      rw [Finset.mem_filter, mem_rangeAnd]
      constructor
      · intro hz
        have := Finset.min'_le S z hz.1
        exact ⟨hz.1, this, by omega⟩
      · intro hz
        exact ⟨hz.1, by omega⟩
    rw [hpre]
    rw [hins] at hover
    exact lt_of_lt_of_le hover (hmono (y + 1 - S.min' hne) (b - S.min' hne) (by omega))
  · intro hempty
    have hP : (CutLeftRaw R S L).1 = some (rangeAnd S (S.min' hne) (S.min' hne + c)) := by
      rw [hcut]
    rcases CutLeftRaw_size R S L _ hs hP with h | h
    · rw [h]; exact hempty
    · exact h

theorem CutLeft_greedy_witness :
    Is32 {10, 20, 30, 1000000} ∧ sampleRoaring.size {10, 20, 30} = 14 ∧
    14 < sampleRoaring.size {10, 20, 30, 1000000} ∧
    CutLeft 0 sampleRoaring {10, 20, 30, 1000000} 14 = (some {10, 20, 30}, {1000000}) ∧
    ∃ P Rm, CutLeft 0 sampleRoaring {10, 20, 30, 1000000} 14 = (some P, Rm) ∧
      ∃ hr : Rm.Nonempty, 14 < sampleRoaring.size (insert (Rm.min' hr) P) ∧
        (∀ b, P ⊂ ({10, 20, 30, 1000000} : Bitmap).filter (fun x => x < b) →
          14 < sampleRoaring.size (({10, 20, 30, 1000000} : Bitmap).filter (fun x => x < b))) ∧
        (sampleRoaring.size ∅ ≤ 14 → sampleRoaring.size P ≤ 14) :=
  ⟨by decide, by decide, by decide, by decide,
    CutLeft_greedy sampleRoaring {10, 20, 30, 1000000} 14 (by decide) (by decide) (by decide)
      (fun i j hij => sampleRoaring_mono _ _ i j hij)⟩

/-! ## Walk -/

theorem Bytesmask_nat (n : ℕ) :
    Bytesmask (n : ℤ) = ((((n + 7) / 8 : ℕ) : ℤ),
      if n % 8 = 0 then 255 else 256 - 2 ^ (8 - n % 8)) := by
  unfold Bytesmask
  have h1 : Int.tdiv ((n : ℤ) + 7) 8 = (((n + 7) / 8 : ℕ) : ℤ) := by
    have : ((n : ℤ) + 7) = ((n + 7 : ℕ) : ℤ) := by push_cast; rfl
    rw [this]
    exact (Int.ofNat_tdiv (n + 7) 8).symm
  have h2 : ((n : ℤ) % 8) = ((n % 8 : ℕ) : ℤ) := by norm_cast
  simp only [h1, h2]
  have h3 : n % 8 < 8 := Nat.mod_lt _ (by norm_num)
  congr 1
  by_cases h0 : n % 8 = 0
  · simp [h0]
  · have h4 : (((n % 8 : ℕ) : ℤ) ≠ 0) := by exact_mod_cast h0
    rw [if_pos h4, if_neg h0]
    have h5 : ((8 : ℤ) - ((n % 8 : ℕ) : ℤ)).toNat = 8 - n % 8 := by omega
    rw [h5]
    generalize n % 8 = s at h0 h3
    interval_cases s <;> omega

theorem testBit_mask (t : ℕ) (ht : t < 8) (j : ℕ) :
    (256 - 2 ^ t).testBit j = decide (t ≤ j ∧ j < 8) := by
  by_cases hj : j < 8
  · interval_cases t <;> interval_cases j <;> decide
  · have h1 : 256 - 2 ^ t < 2 ^ j := by
      have : 2 ^ 8 ≤ 2 ^ j := Nat.pow_le_pow_right (by norm_num) (by omega)
      have h2 : 0 < 2 ^ t := Nat.two_pow_pos t
      omega
    rw [Nat.testBit_lt_two_pow h1]
    simp [hj]

theorem testBit_255 (j : ℕ) : (255 : ℕ).testBit j = decide (j < 8) := by
  have := testBit_mask 0 (by norm_num) j
  simpa using this

theorem land_mask_eq (a b t : ℕ) (ht : t < 8) :
    Nat.land a (256 - 2 ^ t) = Nat.land b (256 - 2 ^ t) ↔
      ∀ j, t ≤ j → j < 8 → a.testBit j = b.testBit j := by
  show a &&& (256 - 2 ^ t) = b &&& (256 - 2 ^ t) ↔ _
  constructor
  · intro h j h1 h2
    have := congrArg (fun x => x.testBit j) h
    simp only [Nat.testBit_land, testBit_mask t ht] at this
    simpa [h1, h2] using this
  · intro h
    apply Nat.eq_of_testBit_eq
    intro j
    simp only [Nat.testBit_land, testBit_mask t ht]
    by_cases hj : t ≤ j ∧ j < 8
    · simp [hj, h j hj.1 hj.2]
    · simp [hj]

theorem byte_eq_iff (a b : ℕ) (ha : a < 256) (hb : b < 256) :
    a = b ↔ ∀ j < 8, a.testBit j = b.testBit j := by
  constructor
  · intro h j _; rw [h]
  · intro h
    apply Nat.eq_of_testBit_eq
    intro j
    by_cases hj : j < 8
    · exact h j hj
    · have h1 : (256 : ℕ) ≤ 2 ^ j := by
        have : 2 ^ 8 ≤ 2 ^ j := Nat.pow_le_pow_right (by norm_num) (by omega)
        simpa using this
      rw [Nat.testBit_lt_two_pow (by omega), Nat.testBit_lt_two_pow (by omega)]
theorem getD_of_take_eq (k sk : Bytes) (m q : ℕ) (h : k.take m = sk.take m) (hq : q < m) :
    k.getD q 0 = sk.getD q 0 := by
  have h1 : (k.take m)[q]? = (sk.take m)[q]? := by rw [h]
  rw [List.getElem?_take_of_lt hq, List.getElem?_take_of_lt hq] at h1
  rw [List.getD_eq_getElem?_getD, List.getD_eq_getElem?_getD, h1]

theorem keyBit_at (k : Bytes) (q j : ℕ) (hj : j < 8) :
    keyBit k (8 * q + (7 - j)) = (k.getD q 0).testBit j := by
  unfold keyBit
  have h1 : (8 * q + (7 - j)) / 8 = q := by omega
  have h2 : 7 - (8 * q + (7 - j)) % 8 = j := by omega
  rw [h1, h2]

theorem getD_lt_256 (k : Bytes) (hk : IsBytes k) (q : ℕ) : k.getD q 0 < 256 := by
  rw [List.getD_eq_getElem?_getD]
  by_cases h : q < k.length
  · rw [List.getElem?_eq_getElem h]
    exact hk _ (List.getElem_mem h)
  · rw [List.getElem?_eq_none (by omega)]
    simp

theorem bits_iff (sk k : Bytes) (n m t : ℕ) (hn : n = 8 * m + (8 - t)) (ht : t < 8)
    (hkm : m < k.length) (hsm : m < sk.length) (hs : IsBytes sk) (hk : IsBytes k) :
    (k.take m = sk.take m ∧
        ∀ j, t ≤ j → j < 8 → (k.getD m 0).testBit j = (sk.getD m 0).testBit j) ↔
      ∀ i < n, keyBit k i = keyBit sk i := by
  constructor
  · rintro ⟨htake, hlast⟩ i hi
    unfold keyBit
    by_cases hq : i / 8 < m
    · rw [getD_of_take_eq k sk m (i / 8) htake hq]
    · have hq2 : i / 8 = m := by omega
      rw [hq2]
      exact hlast (7 - i % 8) (by omega) (by omega)
  · intro h
    constructor
    · apply List.ext_getElem?
      intro q
      by_cases hq : q < m
      · rw [List.getElem?_take_of_lt hq, List.getElem?_take_of_lt hq]
        have h1 : k.getD q 0 = sk.getD q 0 := by
          rw [byte_eq_iff _ _ (getD_lt_256 k hk q) (getD_lt_256 sk hs q)]
          intro j hj
          rw [← keyBit_at k q j hj, ← keyBit_at sk q j hj]
          exact h _ (by omega)
        have hqk : q < k.length := by omega
        have hqs : q < sk.length := by omega
        rw [List.getD_eq_getElem?_getD, List.getD_eq_getElem?_getD,
          List.getElem?_eq_getElem hqk, List.getElem?_eq_getElem hqs] at h1
        rw [List.getElem?_eq_getElem hqk, List.getElem?_eq_getElem hqs]
        simpa using h1
      · rw [List.getElem?_eq_none (by rw [List.length_take]; omega),
          List.getElem?_eq_none (by rw [List.length_take]; omega)]
    · intro j h1 h2
      rw [← keyBit_at k m j h2, ← keyBit_at sk m j h2]
      exact h _ (by omega)

theorem walkCond_matches (startkey : Bytes) (n : ℕ) (k : Bytes)
    (hlen : (n + 7) / 8 ≤ startkey.length) (hs : IsBytes startkey) (hk : IsBytes k) :
    walkCond startkey (n : ℤ) k = some (decide (MatchesBits startkey n k)) := by
  unfold walkCond
  rw [Bytesmask_nat]
  simp only
  by_cases h1 : (n + 7) / 8 ≤ k.length
  swap
  · have h2 : ¬ ((k.length : ℤ) ≥ (((n + 7) / 8 : ℕ) : ℤ)) := by
      intro h; exact h1 (by exact_mod_cast h)
    rw [if_pos h2]
    simp [MatchesBits, h1]
  · have h2 : ¬ ¬ ((k.length : ℤ) ≥ (((n + 7) / 8 : ℕ) : ℤ)) := by
      intro h; exact h (by exact_mod_cast h1)
    rw [if_neg h2]
    by_cases h0 : n = 0
    · subst h0; simp [MatchesBits]
    · have h3 : ¬ ((n : ℤ) = 0) := by exact_mod_cast h0
      rw [if_neg h3]
      have hfb : 1 ≤ (n + 7) / 8 := by omega
      have h4 : ¬ ((((n + 7) / 8 : ℕ) : ℤ) - 1 < 0) := by omega
      rw [if_neg h4]
      have hm : ((((n + 7) / 8 : ℕ) : ℤ) - 1).toNat = (n + 7) / 8 - 1 := by omega
      rw [hm]
      have hkm : (n + 7) / 8 - 1 < k.length := by omega
      have hsm : (n + 7) / 8 - 1 < startkey.length := by omega
      rw [if_neg (by omega)]
      have hmask : (if n % 8 = 0 then 255 else 256 - 2 ^ (8 - n % 8)) =
          256 - 2 ^ ((8 - n % 8) % 8) := by
        by_cases h5 : n % 8 = 0
        · rw [if_pos h5, h5]
          rfl
        · have h6 : (8 - n % 8) % 8 = 8 - n % 8 := Nat.mod_eq_of_lt (by omega)
          rw [if_neg h5, h6]
      rw [hmask]
      have ht : (8 - n % 8) % 8 < 8 := Nat.mod_lt _ (by norm_num)
      have hn : n = 8 * ((n + 7) / 8 - 1) + (8 - (8 - n % 8) % 8) := by omega
      have hb := bits_iff startkey k n ((n + 7) / 8 - 1) ((8 - n % 8) % 8) hn ht hkm hsm hs hk
      have hgk : k.get? ((n + 7) / 8 - 1) = some (k.getD ((n + 7) / 8 - 1) 0) := by
        rw [List.get?_eq_getElem?, List.getD_eq_getElem?_getD, List.getElem?_eq_getElem hkm]
        rfl
      have hgs : startkey.get? ((n + 7) / 8 - 1) =
          some (startkey.getD ((n + 7) / 8 - 1) 0) := by
        rw [List.get?_eq_getElem?, List.getD_eq_getElem?_getD, List.getElem?_eq_getElem hsm]
        rfl
      rw [hgk, hgs]
      by_cases htk : k.take ((n + 7) / 8 - 1) = startkey.take ((n + 7) / 8 - 1)
      · rw [if_neg (not_not.mpr htk)]
        simp only
        congr 1
        rw [decide_eq_decide, land_mask_eq _ _ _ ht]
        unfold MatchesBits
        rw [← hb]
        constructor
        · intro h; exact ⟨h1, htk, h⟩
        · intro h; exact h.2.2
      · rw [if_pos htk]
        congr 1
        symm
        rw [decide_eq_false_iff_not]
        unfold MatchesBits
        rw [← hb]
        intro h; exact htk h.2.1
theorem Next_sorted (pre rest : Table) (r : Bytes × Bytes)
    (h : Table.Sorted (pre ++ r :: rest)) :
    Table.Next (pre ++ r :: rest) r.1 = rest.head? := by
  unfold Table.Sorted at h
  rw [List.pairwise_append] at h
  obtain ⟨-, h2, h3⟩ := h
  rw [List.pairwise_cons] at h2
  unfold Table.Next
  rw [find_skip _ pre _ (fun x hx => bytesLt_asymm _ _ (h3 x hx r (List.mem_cons_self _ _)))]
  rw [List.find?_cons, bytesLt_irrefl]
  exact find_all_head _ rest (fun x hx => h2.1 x hx)

theorem Seek_dropWhile (t : Table) (k : Bytes) :
    Table.Seek t k = (t.dropWhile (fun r => bytesLt r.1 k)).head? := by
  unfold Table.Seek
  induction t with
  | nil => rfl
  | cons a rest ih =>
    rw [List.find?_cons, List.dropWhile_cons]
    cases h : bytesLt a.1 k with
    | true => simpa using ih
    | false => simp

theorem walkLoop_rows {σ ε : Type} (startkey : Bytes) (n : ℕ)
    (hlen : (n + 7) / 8 ≤ startkey.length) (hs : IsBytes startkey)
    (walker : σ → Bytes → Bytes → σ × Res ε Bool) :
    ∀ (rows pre : Table) (s : σ) (fuel : ℕ), Table.Sorted (pre ++ rows) →
      (∀ r ∈ rows, IsBytes r.1) → rows.length < fuel →
      walkLoop startkey (n : ℤ) (readOnly walker) fuel (pre ++ rows, s) rows.head? =
        some ((pre ++ rows,
          (visitRows walker s
            (rows.takeWhile (fun r => decide (MatchesBits startkey n r.1)))).1),
          (visitRows walker s
            (rows.takeWhile (fun r => decide (MatchesBits startkey n r.1)))).2) := by
  intro rows
  induction rows with
  | nil =>
    intro pre s fuel _ _ hf
    obtain ⟨f, rfl⟩ : ∃ f, fuel = f + 1 := ⟨fuel - 1, by simp at hf; omega⟩
    rfl
  | cons r rest ih =>
    intro pre s fuel hsort hb hf
    obtain ⟨f, rfl⟩ : ∃ f, fuel = f + 1 := ⟨fuel - 1, by omega⟩
    obtain ⟨k, v⟩ := r
    show walkLoop startkey (n : ℤ) (readOnly walker) (f + 1) (pre ++ (k, v) :: rest, s)
      (some (k, v)) = _
    rw [walkLoop, walkCond_matches startkey n k hlen hs (hb (k, v) (List.mem_cons_self _ _))]
    by_cases hm : MatchesBits startkey n k
    · rw [List.takeWhile_cons_of_pos (by simpa using hm)]
      simp only [decide_eq_true hm, visitRows, readOnly]
      have hnext := Next_sorted pre rest (k, v) hsort
      have e : pre ++ (k, v) :: rest = (pre ++ [(k, v)]) ++ rest := by simp
      have hrec := ih (pre ++ [(k, v)]) (walker s k v).1 f (by rw [← e]; exact hsort)
        (fun x hx => hb x (List.mem_cons_of_mem _ hx)) (by simp at hf; omega)
      rw [← e, ← hnext] at hrec
      rcases hw : walker s k v with ⟨s1, res⟩
      rw [hw] at hrec
      rcases res with b | e1 | _
      · cases b
        · rfl
        · exact hrec
      · rfl
      · rfl
    · rw [List.takeWhile_cons_of_neg (by simpa using hm)]
      simp only [decide_eq_false hm, visitRows]

theorem Walk_rows {σ ε : Type} (startkey : Bytes) (n : ℕ)
    (hlen : (n + 7) / 8 ≤ startkey.length) (hs : IsBytes startkey)
    (walker : σ → Bytes → Bytes → σ × Res ε Bool) (t : Table) (s : σ) (fuel : ℕ)
    (hsort : Table.Sorted t) (hb : ∀ r ∈ t, IsBytes r.1) (hf : t.length < fuel) :
    Walk startkey (n : ℤ) (readOnly walker) fuel (t, s) =
      some ((t, (walkSpec startkey n walker t s).1), (walkSpec startkey n walker t s).2) := by
  unfold Walk walkSpec
  have hsplit := List.takeWhile_append_dropWhile (fun r : Bytes × Bytes => bytesLt r.1 startkey) t
  rw [Seek_dropWhile]
  have h := walkLoop_rows startkey n hlen hs walker
    (t.dropWhile (fun r => bytesLt r.1 startkey))
    (t.takeWhile (fun r => bytesLt r.1 startkey)) s fuel (by rw [hsplit]; exact hsort)
    (fun r hr => hb r ((List.dropWhile_sublist _).subset hr))
    (lt_of_le_of_lt (List.dropWhile_sublist _).length_le hf)
  rw [hsplit] at h
  exact h

theorem MatchesBits_zero (startkey k : Bytes) : MatchesBits startkey 0 k := by
  unfold MatchesBits
  exact ⟨by simp, fun i hi => absurd hi (Nat.not_lt_zero i)⟩

theorem dropWhile_sorted (t : Table) (k : Bytes) (h : Table.Sorted t) :
    t.dropWhile (fun r => bytesLt r.1 k) = t.filter (fun r => !bytesLt r.1 k) := by
  induction t with
  | nil => rfl
  | cons a rest ih =>
    unfold Table.Sorted at h
    rw [List.pairwise_cons] at h
    rw [List.dropWhile_cons, List.filter_cons]
    cases hk : bytesLt a.1 k with
    | true => simpa using ih h.2
    | false =>
      simp only [Bool.false_eq_true, if_false, Bool.not_false, if_true]
      congr 1
      symm
      rw [List.filter_eq_self]
      intro x hx
      have h1 := h.1 x hx
      cases hxk : bytesLt x.1 k with
      | false => rfl
      | true => rw [bytesLt_trans _ _ _ h1 hxk] at hk; cases hk
/-- C16: for a start key of at least `ceil(fixedbits/8)` bytes, `Bytesmask` gives the byte
count `ceil(fixedbits/8)` and the mask with the top `fixedbits mod 8` bits set (`0xff` when
that is 0); the loop condition of `Walk` holds of a key exactly when the key has at least
`ceil(fixedbits/8)` bytes and its leading `fixedbits` bits equal those of the start key; on a
table in key order the rows from the first key at or above the start key are the rows whose key
is not below it; and `Walk`, given fuel beyond the length of the table, returns after invoking
the walker in key order on exactly the consecutive matching rows from there, up to the first
row for which the walker returns false or an error, that error being returned.  With
`fixedbits = 0` the loop condition holds of every key. -/
theorem Walk_visits_matching_run {σ ε : Type} (startkey : Bytes) (fixedbits : ℕ)
    (hlen : (fixedbits + 7) / 8 ≤ startkey.length) (hs : IsBytes startkey)
    (walker : σ → Bytes → Bytes → σ × Res ε Bool) (t : Table) (s : σ) (fuel : ℕ)
    (hsort : Table.Sorted t) (hb : ∀ r ∈ t, IsBytes r.1) (hf : t.length < fuel) :
    Bytesmask (fixedbits : ℤ) = ((((fixedbits + 7) / 8 : ℕ) : ℤ),
      if fixedbits % 8 = 0 then 255 else 256 - 2 ^ (8 - fixedbits % 8)) ∧
    (∀ k, IsBytes k →
      walkCond startkey (fixedbits : ℤ) k = some (decide (MatchesBits startkey fixedbits k))) ∧
    t.dropWhile (fun r => bytesLt r.1 startkey) = t.filter (fun r => !bytesLt r.1 startkey) ∧
    Walk startkey (fixedbits : ℤ) (readOnly walker) fuel (t, s) =
      some ((t, (walkSpec startkey fixedbits walker t s).1),
        (walkSpec startkey fixedbits walker t s).2) ∧
    (∀ k, walkCond startkey 0 k = some true ∧ MatchesBits startkey 0 k) :=
  ⟨Bytesmask_nat fixedbits,
    fun k hk => walkCond_matches startkey fixedbits k hlen hs hk,
    dropWhile_sorted t startkey hsort,
    Walk_rows startkey fixedbits hlen hs walker t s fuel hsort hb hf,
    fun k => ⟨walkCond_zero startkey k, MatchesBits_zero startkey k⟩⟩

theorem Walk_visits_matching_run_witness :
    (12 + 7) / 8 ≤ ([1, 0x12] : Bytes).length ∧ IsBytes [1, 0x12] ∧
    Table.Sorted [([0, 5], []), ([1, 0x10], []), ([1, 0x1f, 7], [9]), ([1, 0x20], []),
      ([1, 0x21], [])] ∧
    Walk [1, 0x12] 12 (readOnly (recordUntil [9])) 10
      ([([0, 5], []), ([1, 0x10], []), ([1, 0x1f, 7], [9]), ([1, 0x20], []), ([1, 0x21], [])],
        []) =
      some (([([0, 5], []), ([1, 0x10], []), ([1, 0x1f, 7], [9]), ([1, 0x20], []),
        ([1, 0x21], [])], [[1, 0x1f, 7]]), Res.ok ()) :=
  ⟨by decide, by decide, by decide,
    (Walk_visits_matching_run [1, 0x12] 12 (by decide) (by decide) (recordUntil [9])
      [([0, 5], []), ([1, 0x10], []), ([1, 0x1f, 7], [9]), ([1, 0x20], []), ([1, 0x21], [])]
      [] 10 (by decide) (by decide) (by decide)).2.2.2.1⟩

/-! ## The frame of TruncateRange -/

theorem filter_Put (q : Bytes × Bytes → Bool) (k v : Bytes)
    (hq : ∀ r : Bytes × Bytes, r.1 = k → q r = false) :
    ∀ t : Table, (Table.Put t k v).filter q = t.filter q := by
  intro t
  induction t with
  | nil => simp [Table.Put, hq (k, v) rfl]
  | cons r rest ih =>
    unfold Table.Put
    by_cases h1 : bytesLt k r.1 = true
    · rw [if_pos h1, List.filter_cons_of_neg (by simp [hq (k, v) rfl])]
    · rw [if_neg h1]
      by_cases h2 : k = r.1
      · rw [if_pos h2, List.filter_cons_of_neg (by simp [hq (k, v) rfl]),
          List.filter_cons_of_neg (by simp [hq r h2.symm])]
      · rw [if_neg h2, List.filter_cons, List.filter_cons, ih]

theorem filter_Delete (q : Bytes × Bytes → Bool) (k : Bytes)
    (hq : ∀ r : Bytes × Bytes, r.1 = k → q r = false) (t : Table) :
    (Table.Delete t k).filter q = t.filter q := by
  unfold Table.Delete
  rw [List.filter_filter]
  apply List.filter_congr
  intro r _
  by_cases h : r.1 = k
  · simp [hq r h]
  · simp [h]

theorem walkLoop_truncate_frame (p startkey : Bytes) :
    ∀ (fuel : ℕ) (t : Table) (cur : Option (Bytes × Bytes))
      (out : (Table × Unit) × Outcome StoreErr),
      walkLoop startkey 0 (truncateWalker p) fuel (t, ()) cur = some out →
      out.1.1.filter (fun r => !HasPrefix r.1 p) = t.filter (fun r => !HasPrefix r.1 p) := by
  intro fuel
  induction fuel with
  | zero => intro t cur out h; simp [walkLoop] at h
  | succ n ih =>
    intro t cur out h
    cases cur with
    | none =>
      simp only [walkLoop, Option.some.injEq] at h
      rw [← h]
    | some kv =>
      obtain ⟨k, v⟩ := kv
      rw [walkLoop, walkCond_zero] at h
      simp only [truncateWalker] at h
      by_cases hp : HasPrefix k p = true
      · simp only [hp, Bool.not_true, Bool.false_eq_true, if_false] at h
        rw [ih _ _ _ h]
        exact filter_Delete _ k (fun r hr => by simp [hr, hp]) t
      · simp only [hp, Bool.not_eq_true] at h
        simp only [Bool.not_eq_true] at hp
        simp only [hp, Bool.not_false, if_true, Option.some.injEq] at h
        rw [← h]

theorem keyedCalls_under_key (k : Bytes) (calls : List (Option Bitmap × Bool)) :
    ∀ kc ∈ keyedCalls k calls, HasPrefix kc.1 k = true := by
  intro kc hkc
  unfold keyedCalls at hkc
  rw [List.mem_filterMap] at hkc
  obtain ⟨c, -, hc⟩ := hkc
  cases hck : chunkKeyOf k c.1 c.2 with
  | none => rw [hck] at hc; cases hc
  | some key =>
    rw [hck] at hc
    simp only [Option.map_some', Option.some.injEq] at hc
    rw [← hc]
    simp only
    cases hflag : c.2 with
    | true =>
      rw [hflag, chunkKeyOf_last] at hck
      injection hck with hck
      rw [← hck]
      exact HasPrefix_append _ _
    | false =>
      rw [hflag, chunkKeyOf_notLast] at hck
      cases hm : c.1.bind Maximum with
      | none => rw [hm] at hck; cases hck
      | some m =>
        rw [hm] at hck
        simp only [Option.map_some', Option.some.injEq] at hck
        rw [← hck]
        exact HasPrefix_append _ _

theorem foldl_putChunk_frame (R : Roaring) (p : Bytes) :
    ∀ (kcs : List (Bytes × Option Bitmap)) (t : Table),
      (∀ kc ∈ kcs, HasPrefix kc.1 p = true) →
      (kcs.foldl (fun t kc => (putChunk R t kc.1 kc.2).1) t).filter
          (fun r => !HasPrefix r.1 p) = t.filter (fun r => !HasPrefix r.1 p) := by
  intro kcs
  induction kcs with
  | nil => intro t _; rfl
  | cons kc rest ih =>
    intro t h
    rw [List.foldl_cons, ih _ (fun x hx => h x (List.mem_cons_of_mem _ hx))]
    have hkc := h kc (List.mem_cons_self _ _)
    cases hc : kc.2 with
    | none => simp [putChunk]
    | some c =>
      simp only [putChunk]
      exact filter_Put _ kc.1 _ (fun r hr => by simp [hr, hkc]) t

theorem TruncateRange_frame_general (myType : ℤ) (R : Roaring) (fuel : ℕ) (db : Table)
    (p : Bytes) (to_ : ℕ) (t1 : Table) (res : Outcome StoreErr)
    (h : TruncateRange myType R fuel db p to_ = some (t1, res)) :
    t1.filter (fun r => !HasPrefix r.1 p) = db.filter (fun r => !HasPrefix r.1 p) := by
  unfold TruncateRange at h
  simp only at h
  cases hput : PutUint32 ((copy (List.replicate (p.length + 4) 0) p).drop
      ((copy (List.replicate (p.length + 4) 0) p).length - 4)) to_ with
  | none =>
    rw [hput] at h
    simp only [Option.some.injEq, Prod.mk.injEq] at h
    rw [← h.1]
  | some b =>
    rw [hput] at h
    simp only at h
    cases hget : Get R db p to_ MaxUint32 with
    | none => rw [hget] at h; cases h
    | some g =>
      rw [hget] at h
      cases g with
      | error e =>
        simp only [Option.some.injEq, Prod.mk.injEq] at h
        rw [← h.1]
      | fault =>
        simp only [Option.some.injEq, Prod.mk.injEq] at h
        rw [← h.1]
      | ok bm =>
        simp only at h
        unfold Walk at h
        cases hw : walkLoop ((copy (List.replicate (p.length + 4) 0) p).take
            ((copy (List.replicate (p.length + 4) 0) p).length - 4) ++ b) 0 (truncateWalker p)
            fuel (db, ()) (Table.Seek db ((copy (List.replicate (p.length + 4) 0) p).take
              ((copy (List.replicate (p.length + 4) 0) p).length - 4) ++ b)) with
        | none => simp only [hw] at h; cases h
        | some out =>
          simp only [hw] at h
          have hf := walkLoop_truncate_frame p _ fuel db _ out hw
          obtain ⟨s, r⟩ := out
          cases r with
          | error e =>
            simp only [Option.some.injEq, Prod.mk.injEq] at h
            rw [← h.1]; exact hf
          | fault =>
            simp only [Option.some.injEq, Prod.mk.injEq] at h
            rw [← h.1]; exact hf
          | ok u =>
            simp only at h
            rw [Option.map_eq_some'] at h
            obtain ⟨w, hw2, hw3⟩ := h
            unfold WalkChunkWithKeys at hw2
            obtain ⟨-, hst, -⟩ := keyedVisit_log myType R p (putChunk R) ChunkLimit fuel _ _ w hw2
            simp only [Prod.mk.injEq] at hw3
            rw [← hw3.1, hst, foldl_putChunk_frame R p _ _ (keyedCalls_under_key p w.calls)]
            exact hf

theorem HasPrefix_not_lt (k p : Bytes) (h : HasPrefix k p = true) : bytesLt k p = false := by
  unfold HasPrefix at h
  rw [List.isPrefixOf_iff_prefix] at h
  obtain ⟨x, rfl⟩ := h
  have := bytesLt_append_left p x []
  rw [List.append_nil] at this
  rw [this]
  cases x <;> rfl

theorem mem_takeWhile_of_increasing (to_ : ℕ) : ∀ (kcs : List (ℕ × Bitmap)) (a : ℕ × Bitmap),
    kcs.Pairwise (fun a b => a.1 < b.1) → a ∈ kcs → a.1 < to_ →
    a ∈ kcs.takeWhile (fun a => decide (a.1 < to_)) := by
  intro kcs
  induction kcs with
  | nil => intro a _ h; cases h
  | cons c rest ih =>
    intro a hp ha hlt
    rw [List.pairwise_cons] at hp
    rcases List.mem_cons.mp ha with h | h
    · subst h
      rw [List.takeWhile_cons_of_pos (by simpa using hlt)]
      exact List.mem_cons_self _ _
    · have hc : c.1 < to_ := lt_trans (hp.1 a h) hlt
      rw [List.takeWhile_cons_of_pos (by simpa using hc)]
      exact List.mem_cons_of_mem _ (ih a hp.2 h hlt)

theorem eq_of_bound_eq : ∀ (kcs : List (ℕ × Bitmap)) (a b : ℕ × Bitmap),
    kcs.Pairwise (fun a b => a.1 < b.1) → a ∈ kcs → b ∈ kcs → a.1 = b.1 → a = b := by
  intro kcs
  induction kcs with
  | nil => intro a b _ h; cases h
  | cons c rest ih =>
    intro a b hp ha hb he
    rw [List.pairwise_cons] at hp
    rcases List.mem_cons.mp ha with h1 | h1 <;> rcases List.mem_cons.mp hb with h2 | h2
    · rw [h1, h2]
    · subst h1
      have := hp.1 b h2
      omega
    · subst h2
      have := hp.1 a h1
      omega
    · exact ih a b hp.2 h1 h2 he

theorem series_row_kept (R : Roaring) (p : Bytes) (A B : Table) (kcs new : List (ℕ × Bitmap))
    (to_ : ℕ) (hA : ∀ r ∈ A, bytesLt r.1 p = true)
    (hB : ∀ r ∈ B, HasPrefix r.1 p = false ∧ bytesLt r.1 p = false)
    (hs : IsSeries kcs) (hto : to_ < 2 ^ 32)
    (hsn : IsSeries (kcs.takeWhile (fun a => decide (a.1 < to_)) ++ new))
    (r : Bytes × Bytes) (hr : r ∈ A ++ rowsOf R p kcs ++ B) (hp : HasPrefix r.1 p = true)
    (hlt : bytesLt r.1 (p ++ bigEndian32 to_) = true) :
    r ∈ A ++ rowsOf R p (kcs.takeWhile (fun a => decide (a.1 < to_)) ++ new) ++ B ∧
    ∀ r2 ∈ A ++ rowsOf R p (kcs.takeWhile (fun a => decide (a.1 < to_)) ++ new) ++ B,
      r2.1 = r.1 → r2 = r := by
  have hnl := HasPrefix_not_lt r.1 p hp
  rw [List.mem_append, List.mem_append] at hr
  rcases hr with (hr | hr) | hr
  · rw [hA r hr] at hnl; cases hnl
  · unfold rowsOf at hr
    rw [List.mem_map] at hr
    obtain ⟨a, ha, rfl⟩ := hr
    have ha32 := hs.bound_lt a ha
    simp only at hlt
    rw [bytesLt_key p a.1 to_ ha32 hto, decide_eq_true_eq] at hlt
    have hkeep := mem_takeWhile_of_increasing to_ kcs a hs.increasing ha hlt
    constructor
    · rw [List.mem_append, List.mem_append]
      refine Or.inl (Or.inr ?_)
      unfold rowsOf
      exact List.mem_map_of_mem _ (List.mem_append_left _ hkeep)
    · intro r2 hr2 hk
      simp only at hk
      rw [List.mem_append, List.mem_append] at hr2
      rcases hr2 with (hr2 | hr2) | hr2
      · have h1 := hA r2 hr2
        rw [hk, HasPrefix_not_lt _ p (HasPrefix_append p _)] at h1
        cases h1
      · unfold rowsOf at hr2
        rw [List.mem_map] at hr2
        obtain ⟨b, hb, rfl⟩ := hr2
        simp only at hk
        have hb32 := hsn.bound_lt b hb
        have hbe : b.1 = a.1 := by
          by_contra hne
          exact key_ne_of_bound_ne p b.1 a.1 hb32 ha32 hne hk
        have := eq_of_bound_eq _ b a hsn.increasing hb (List.mem_append_left _ hkeep) hbe
        rw [this]
      · have h1 := (hB r2 hr2).1
        rw [hk, HasPrefix_append] at h1
        cases h1
  · rw [(hB r hr).1] at hp; cases hp

/-- C21: `TruncateRange(tx, table, p, to)` changes only rows of the series `p`.  Whatever the
table, the fuel and the outcome, the rows whose key does not have `p` as a byte prefix are
after the call the rows they were before, in the same order.  When the table holds a chunk
series under `p` and the call succeeds, every row of the table whose key has the prefix `p`
and is smaller than `p ++ bigEndian(to)` is still in the table, and it is the only row under
its key: it was neither deleted nor overwritten.  Given enough fuel, and when every one-element
bitmap of a stored value fits the chunk limit, the call does succeed. -/
theorem TruncateRange_frame (R : Roaring) (p : Bytes) (A B : Table) (kcs : List (ℕ × Bitmap))
    (to_ fuel : ℕ) (hcodec : ∀ c, R.ReadFrom (R.WriteTo c) = some c)
    (hA : ∀ r ∈ A, bytesLt r.1 p = true)
    (hB : ∀ r ∈ B, HasPrefix r.1 p = false ∧ bytesLt r.1 p = false)
    (hs : IsSeries kcs) (hto : to_ < 2 ^ 32) :
    (∀ (myType : ℤ) (db : Table) (n : ℕ) (t1 : Table) (res : Outcome StoreErr),
      TruncateRange myType R n db p to_ = some (t1, res) →
      t1.filter (fun r => !HasPrefix r.1 p) = db.filter (fun r => !HasPrefix r.1 p)) ∧
    (∀ t1, TruncateRange 0 R fuel (A ++ rowsOf R p kcs ++ B) p to_ = some (t1, Res.ok ()) →
      ∀ r ∈ A ++ rowsOf R p kcs ++ B, HasPrefix r.1 p = true →
        bytesLt r.1 (p ++ bigEndian32 to_) = true →
        r ∈ t1 ∧ ∀ r2 ∈ t1, r2.1 = r.1 → r2 = r) ∧
    ((∀ x ∈ valuesOf kcs, R.size {x} ≤ ChunkLimit) → kcs.length + (valuesOf kcs).card < fuel →
      ∃ t1, TruncateRange 0 R fuel (A ++ rowsOf R p kcs ++ B) p to_ = some (t1, Res.ok ())) := by
  refine ⟨?_, ?_, ?_⟩
  · intro myType db n t1 res h
    exact TruncateRange_frame_general myType R n db p to_ t1 res h
  · intro t1 h r hr hp hlt
    obtain ⟨new, ht, hsn, -⟩ :=
      TruncateRange_result R p A B kcs to_ fuel hcodec hA hB hs hto t1 h
    rw [ht]
    exact series_row_kept R p A B kcs new to_ hA hB hs hto hsn r hr hp hlt
  · intro hfit hfuel
    rw [TruncateRange_series R p A B kcs to_ fuel hcodec hA hB hs hto]
    have hlen : (kcs.dropWhile (fun a => decide (a.1 < to_))).length < fuel := by
      have := (List.dropWhile_sublist (fun a : ℕ × Bitmap => decide (a.1 < to_))
        (l := kcs)).length_le
      omega
    have hsubset : (valuesOf (kcs.dropWhile (fun a => decide (a.1 < to_)))).filter
        (fun x => x < to_) ⊆ valuesOf kcs := by
      intro x hx
      rw [Finset.mem_filter, mem_valuesOf] at hx
      obtain ⟨⟨d, hd, hxd⟩, -⟩ := hx
      exact (mem_valuesOf _ x).mpr ⟨d, (List.dropWhile_sublist _).subset hd, hxd⟩
    obtain ⟨w, hw, hok⟩ := WalkChunkWithKeys_completes R p ChunkLimit fuel _
      (A ++ rowsOf R p (kcs.takeWhile (fun a => decide (a.1 < to_))) ++ B, [])
      (fun x hx => hfit x (hsubset hx))
      (by have := Finset.card_le_card hsubset; omega)
    simp only [hlen, if_true]
    refine ⟨w.st.1, ?_⟩
    unfold WalkChunkWithKeys
    rw [hw, Option.map_some', hok]

theorem TruncateRange_frame_witness :
    (∀ c, sampleRoaring.ReadFrom (sampleRoaring.WriteTo c) = some c) ∧
    (∀ r ∈ ([([6], [9])] : Table), bytesLt r.1 [7] = true) ∧
    (∀ r ∈ ([([8], [9])] : Table), HasPrefix r.1 [7] = false ∧ bytesLt r.1 [7] = false) ∧
    IsSeries sampleSeries2 ∧ 4 < 2 ^ 32 ∧
    TruncateRange 0 sampleRoaring 10
        ([([6], [9])] ++ rowsOf sampleRoaring [7] sampleSeries2 ++ [([8], [9])]) [7] 4 =
      some ([([6], [9]), ([7, 0, 0, 0, 2], [0, 1, 1]), ([7, 255, 255, 255, 255], [0, 0, 0, 1]),
        ([8], [9])], Res.ok ()) ∧
    (([7, 0, 0, 0, 2], [0, 1, 1]) ∈ ([([6], [9]), ([7, 0, 0, 0, 2], [0, 1, 1]),
        ([7, 255, 255, 255, 255], [0, 0, 0, 1]), ([8], [9])] : Table) ∧
      ∀ r2 ∈ ([([6], [9]), ([7, 0, 0, 0, 2], [0, 1, 1]),
        ([7, 255, 255, 255, 255], [0, 0, 0, 1]), ([8], [9])] : Table),
        r2.1 = [7, 0, 0, 0, 2] → r2 = ([7, 0, 0, 0, 2], [0, 1, 1])) :=
  ⟨sampleRoaring_codec, by decide, by decide, ⟨by decide, by decide⟩, by norm_num, by decide,
    (TruncateRange_frame sampleRoaring [7] [([6], [9])] [([8], [9])] sampleSeries2 4 10
      sampleRoaring_codec (by decide) (by decide) ⟨by decide, by decide⟩ (by norm_num)).2.1
      [([6], [9]), ([7, 0, 0, 0, 2], [0, 1, 1]), ([7, 255, 255, 255, 255], [0, 0, 0, 1]),
        ([8], [9])] (by decide) ([7, 0, 0, 0, 2], [0, 1, 1]) (by decide) (by decide)
      (by decide)⟩

end Bitmapdb

namespace Memdb

open Bitmapdb

set_option linter.unusedVariables false

/-! ## Maps as association lists -/

theorem mapGet_mapSet {κ α : Type} [DecidableEq κ] (l : List (κ × α)) (k : κ) (v : α) (k2 : κ) :
    mapGet (mapSet l k v) k2 = if k2 = k then some v else mapGet l k2 := by
  induction l with
  | nil =>
    by_cases h : k2 = k
    · simp [mapSet, mapGet, h]
    · simp [mapSet, mapGet, h, Ne.symm h]
  | cons p rest ih =>
    by_cases hp : p.1 = k
    · by_cases h : k2 = k
      · simp [mapSet, mapGet, hp, h]
      · simp [mapSet, mapGet, hp, h, Ne.symm h]
    · by_cases h : k2 = k
      · subst h
        simp [mapSet, mapGet, hp, ih]
      · by_cases hp2 : p.1 = k2
        · simp [mapSet, mapGet, hp, hp2, h]
        · simp [mapSet, mapGet, hp, hp2, h, ih]

theorem mapGet_eq_none {κ α : Type} [DecidableEq κ] (l : List (κ × α)) (k : κ) :
    mapGet l k = none ↔ k ∉ l.map Prod.fst := by
  induction l with
  | nil => simp [mapGet]
  | cons p rest ih =>
    by_cases hp : p.1 = k
    · simp [mapGet, hp]
    · simp only [mapGet, hp, if_false, ih, List.map_cons, List.mem_cons, not_or]
      constructor
      · intro h; exact ⟨fun e => hp e.symm, h⟩
      · intro h; exact h.2

theorem mapSet_fresh {κ α : Type} [DecidableEq κ] (l : List (κ × α)) (k : κ) (v : α)
    (h : mapGet l k = none) : mapSet l k v = l ++ [(k, v)] := by
  induction l with
  | nil => rfl
  | cons p rest ih =>
    by_cases hp : p.1 = k
    · simp [mapGet, hp] at h
    · simp only [mapGet, hp, if_false] at h
      simp [mapSet, hp, ih h]

theorem mapSet_last {κ α : Type} [DecidableEq κ] (l : List (κ × α)) (k : κ) (v0 v : α)
    (h : mapGet l k = none) : mapSet (l ++ [(k, v0)]) k v = l ++ [(k, v)] := by
  induction l with
  | nil => simp [mapSet]
  | cons p rest ih =>
    by_cases hp : p.1 = k
    · simp [mapGet, hp] at h
    · simp only [mapGet, hp, if_false] at h
      simp [mapSet, hp, ih h]

theorem mapGet_last {κ α : Type} [DecidableEq κ] (l : List (κ × α)) (k : κ) (v : α)
    (h : mapGet l k = none) : mapGet (l ++ [(k, v)]) k = some v := by
  rw [← mapSet_fresh l k v h, mapGet_mapSet, if_pos rfl]

theorem mapDelete_cons {κ α : Type} [DecidableEq κ] (p : κ × α) (rest : List (κ × α)) (k : κ) :
    mapDelete (p :: rest) k = if p.1 = k then mapDelete rest k else p :: mapDelete rest k := by
  unfold mapDelete
  by_cases hp : p.1 = k
  · simp [List.filter_cons, hp]
  · simp [List.filter_cons, hp]

theorem mapGet_mapDelete {κ α : Type} [DecidableEq κ] (l : List (κ × α)) (k k2 : κ) :
    mapGet (mapDelete l k) k2 = if k2 = k then none else mapGet l k2 := by
  induction l with
  | nil => simp [mapDelete, mapGet]
  | cons p rest ih =>
    rw [mapDelete_cons]
    by_cases hp : p.1 = k
    · rw [if_pos hp, ih]
      by_cases h : k2 = k
      · simp [h]
      · have hp2 : ¬ p.1 = k2 := fun e => h (e ▸ hp)
        simp [h, mapGet, hp2]
    · rw [if_neg hp]
      by_cases hp2 : p.1 = k2
      · have h : ¬ k2 = k := fun e => hp (hp2.trans e)
        simp [mapGet, hp2, h]
      · simp [mapGet, hp2, ih]

theorem mem_mapSet {κ α : Type} [DecidableEq κ] (l : List (κ × α)) (k : κ) (v : α)
    (p : κ × α) (h : p ∈ mapSet l k v) : p ∈ l ∨ p = (k, v) := by
  induction l with
  | nil => simp [mapSet] at h; exact Or.inr h
  | cons q rest ih =>
    by_cases hq : q.1 = k
    · simp only [mapSet, hq, if_true, List.mem_cons] at h
      rcases h with h | h
      · exact Or.inr h
      · exact Or.inl (List.mem_cons_of_mem _ h)
    · simp only [mapSet, hq, if_false, List.mem_cons] at h
      rcases h with h | h
      · exact Or.inl (h ▸ List.mem_cons_self _ _)
      · rcases ih h with h2 | h2
        · exact Or.inl (List.mem_cons_of_mem _ h2)
        · exact Or.inr h2

theorem mapGet_of_mem {κ α : Type} [DecidableEq κ] (l : List (κ × α)) (p : κ × α)
    (hn : (l.map Prod.fst).Nodup) (hp : p ∈ l) : mapGet l p.1 = some p.2 := by
  induction l with
  | nil => cases hp
  | cons q rest ih =>
    rw [List.map_cons, List.nodup_cons] at hn
    rcases List.mem_cons.mp hp with h | h
    · subst h; simp [mapGet]
    · have hq : q.1 ≠ p.1 := by
        intro e
        exact hn.1 (e ▸ List.mem_map_of_mem Prod.fst h)
      simp [mapGet, hq, ih hn.2 h]

theorem foldl_setAdd {κ : Type} [DecidableEq κ] : ∀ (l pre : List κ), (pre ++ l).Nodup →
    l.foldl setAdd pre = pre ++ l := by
  intro l
  induction l with
  | nil => intro pre _; simp
  | cons x rest ih =>
    intro pre hn
    have hx : x ∉ pre := by
      intro hm
      rw [List.nodup_append] at hn
      exact hn.2.2 hm (List.mem_cons_self _ _)
    rw [List.foldl_cons]
    have e : setAdd pre x = pre ++ [x] := by simp [setAdd, hx]
    rw [e, ih (pre ++ [x]) (by simpa using hn)]
    simp

/-! ## The loops of Clone -/

theorem cloneKeys_spec (dst : MemoryMutation) (table : String) (b : ℕ) :
    ∀ (ks : List Bytes) (g : Heap), mapGet (g.deleted dst.deletedEntries) table = some b →
      cloneKeys dst table ks g =
        ({ g with keySets := Function.update g.keySets b (ks.foldl setAdd (g.keySets b)) },
          Res.ok ()) := by
  intro ks
  induction ks with
  | nil =>
    intro g _
    simp [cloneKeys]
  | cons key rest ih =>
    intro g hb
    rw [cloneKeys]
    simp only [hb]
    rw [ih { g with keySets := Function.update g.keySets b (setAdd (g.keySets b) key) } hb]
    simp

theorem cloneDeleted_spec (dst : MemoryMutation) (N0 : ℕ) :
    ∀ (L : List (String × ℕ)) (g : Heap),
      (∀ te ∈ L, te.2 < N0 ∧ (g.keySets te.2).Nodup) →
      (L.map Prod.fst).Nodup →
      (∀ te ∈ L, mapGet (g.deleted dst.deletedEntries) te.1 = none) →
      N0 ≤ g.next →
      ∃ (g2 : Heap) (D : List (String × ℕ)),
        cloneDeleted dst L g = (g2, Res.ok ()) ∧
        g2.deleted dst.deletedEntries = g.deleted dst.deletedEntries ++ D ∧
        D.map (fun te => (te.1, g2.keySets te.2)) = L.map (fun te => (te.1, g.keySets te.2)) ∧
        (∀ te ∈ D, g.next ≤ te.2 ∧ te.2 < g2.next) ∧
        g.next ≤ g2.next ∧
        g2.memTxs = g.memTxs ∧ g2.cleared = g.cleared ∧ g2.snapshots = g.snapshots ∧
        (∀ a, a ≠ dst.deletedEntries → g2.deleted a = g.deleted a) ∧
        (∀ a < g.next, g2.keySets a = g.keySets a) := by
  intro L
  induction L with
  | nil =>
    intro g _ _ _ _
    exact ⟨g, [], rfl, by simp, rfl, by simp, le_refl _, rfl, rfl, rfl, fun _ _ => rfl,
      fun _ _ => rfl⟩
  | cons te rest ih =>
    intro g hL hnd hfresh hN
    have hte := hL te (List.mem_cons_self _ _)
    have hnone := hfresh te (List.mem_cons_self _ _)
    rw [List.map_cons, List.nodup_cons] at hnd
    have hne : te.2 ≠ g.next := by omega
    rw [cloneDeleted]
    simp only [hnone, Option.isSome_none, Bool.false_eq_true, if_false]
    have hget : mapGet (Function.update g.deleted dst.deletedEntries
        (mapSet (g.deleted dst.deletedEntries) te.1 g.next) dst.deletedEntries) te.1 =
        some g.next := by
      rw [Function.update_same, mapGet_mapSet, if_pos rfl]
    rw [cloneKeys_spec dst te.1 g.next _ _ hget]
    simp only [Function.update_same, Function.update_idem, Function.update_noteq hne]
    rw [foldl_setAdd _ [] (by simpa using hte.2), List.nil_append]
    obtain ⟨g2, D, h1, h2, h3, h4, h5, h6, h7, h8, h9, h10⟩ := ih
      { g with
        deleted := Function.update g.deleted dst.deletedEntries
          (mapSet (g.deleted dst.deletedEntries) te.1 g.next),
        keySets := Function.update g.keySets g.next (g.keySets te.2),
        next := g.next + 1 }
      (by
        intro x hx
        have hx2 := hL x (List.mem_cons_of_mem _ hx)
        have hxne : x.2 ≠ g.next := by omega
        exact ⟨hx2.1, by simpa [Function.update_noteq hxne] using hx2.2⟩)
      hnd.2
      (by
        intro x hx
        have hx2 := hfresh x (List.mem_cons_of_mem _ hx)
        have hxne : x.1 ≠ te.1 := by
          intro e
          exact hnd.1 (e ▸ List.mem_map_of_mem Prod.fst hx)
        simp only [Function.update_same]
        rw [mapGet_mapSet, if_neg hxne]
        exact hx2)
      (by simp only; omega)
    simp only [Function.update_same] at h2
    rw [mapSet_fresh _ _ _ hnone] at h2
    refine ⟨g2, (te.1, g.next) :: D, h1, ?_, ?_, ?_, ?_, h6, h7, h8, ?_, ?_⟩
    · rw [h2]; simp
    · rw [List.map_cons, List.map_cons, h3]
      have e1 : g2.keySets g.next = g.keySets te.2 := by
        rw [h10 g.next (by simp only; omega)]
        simp
      have e2 : rest.map (fun x => (x.1, Function.update g.keySets g.next (g.keySets te.2) x.2)) =
          rest.map (fun x => (x.1, g.keySets x.2)) := by
        apply List.map_congr_left
        intro x hx
        have hx2 := hL x (List.mem_cons_of_mem _ hx)
        have hxne : x.2 ≠ g.next := by omega
        rw [Function.update_noteq hxne]
      simp only [e1]
      rw [e2]
    · intro x hx
      rcases List.mem_cons.mp hx with hx | hx
      · subst hx
        simp only at h5 ⊢
        omega
      · have := h4 x hx
        simp only at this
        omega
    · simp only at h5; omega
    · intro a ha
      rw [h9 a ha]
      simp [Function.update_noteq ha]
    · intro a ha
      rw [h10 a (by simp only; omega)]
      have : a ≠ g.next := by omega
      simp [Function.update_noteq this]

theorem cloneCleared_spec (dst : MemoryMutation) : ∀ (L : List String) (g : Heap),
    cloneCleared dst L g =
      { g with
        cleared := Function.update g.cleared dst.clearedTables
          (L.foldl setAdd (g.cleared dst.clearedTables)) } := by
  intro L
  induction L with
  | nil => intro g; simp [cloneCleared]
  | cons x rest ih =>
    intro g
    rw [cloneCleared, ih]
    simp

theorem cloneRows_spec (F : Faults) (dst : MemoryMutation) (bucket : String) :
    ∀ (rows : List (Bytes × Bytes)) (i : ℕ) (g : Heap),
      (cloneRows F dst bucket i rows g).1.keySets = g.keySets ∧
      (cloneRows F dst bucket i rows g).1.deleted = g.deleted ∧
      (cloneRows F dst bucket i rows g).1.cleared = g.cleared ∧
      (cloneRows F dst bucket i rows g).1.snapshots = g.snapshots ∧
      (cloneRows F dst bucket i rows g).1.next = g.next ∧
      (∀ a, a ≠ dst.memTx → (cloneRows F dst bucket i rows g).1.memTxs a = g.memTxs a) ∧
      (cloneRows F dst bucket i rows g).2 ≠ Res.fault ∧
      ((cloneRows F dst bucket i rows g).2 = Res.ok () →
        (cloneRows F dst bucket i rows g).1.memTxs dst.memTx =
          rows.foldl (fun tx r => txPut tx bucket r.1 r.2) (g.memTxs dst.memTx)) := by
  intro rows
  induction rows with
  | nil =>
    intro i g
    rw [cloneRows]
    cases F.read bucket i <;> simp
  | cons r rest ih =>
    intro i g
    rw [cloneRows]
    cases F.read bucket i with
    | some e => simp
    | none =>
      cases F.put bucket r.1 with
      | some e => simp
      | none =>
        simp only
        obtain ⟨h1, h2, h3, h4, h5, h6, h7, h8⟩ := ih (i + 1)
          { g with
            memTxs := Function.update g.memTxs dst.memTx
              (txPut (g.memTxs dst.memTx) bucket r.1 r.2) }
        refine ⟨h1, h2, h3, h4, h5, ?_, h7, ?_⟩
        · intro a ha
          rw [h6 a ha]
          simp [Function.update_noteq ha]
        · intro hok
          rw [h8 hok]
          simp

theorem cloneRows_noFaults (dst : MemoryMutation) (bucket : String) :
    ∀ (rows : List (Bytes × Bytes)) (i : ℕ) (g : Heap),
      (cloneRows noFaults dst bucket i rows g).2 = Res.ok () := by
  intro rows
  induction rows with
  | nil => intro i g; simp [cloneRows, noFaults]
  | cons r rest ih =>
    intro i g
    rw [cloneRows]
    simp only [noFaults]
    exact ih _ _

theorem cloneBuckets_spec (F : Faults) (src dst : MemoryMutation) (hne : src.memTx ≠ dst.memTx) :
    ∀ (names : List String) (g : Heap),
      (cloneBuckets F src dst names g).1.keySets = g.keySets ∧
      (cloneBuckets F src dst names g).1.deleted = g.deleted ∧
      (cloneBuckets F src dst names g).1.cleared = g.cleared ∧
      (cloneBuckets F src dst names g).1.snapshots = g.snapshots ∧
      (cloneBuckets F src dst names g).1.next = g.next ∧
      (∀ a, a ≠ dst.memTx → (cloneBuckets F src dst names g).1.memTxs a = g.memTxs a) ∧
      (cloneBuckets F src dst names g).2 ≠ Res.fault ∧
      ((cloneBuckets F src dst names g).2 = Res.ok () →
        (cloneBuckets F src dst names g).1.memTxs dst.memTx =
          names.foldl (fun tx b =>
            ((mapGet (g.memTxs src.memTx) b).getD []).foldl
              (fun tx r => txPut tx b r.1 r.2) tx) (g.memTxs dst.memTx)) := by
  intro names
  induction names with
  | nil =>
    intro g
    simp [cloneBuckets]
  | cons b rest ih =>
    intro g
    rw [cloneBuckets]
    cases F.cursor b with
    | some e => simp
    | none =>
      simp only
      obtain ⟨r1, r2, r3, r4, r5, r6, r7, r8⟩ :=
        cloneRows_spec F dst b ((mapGet (g.memTxs src.memTx) b).getD []) 0 g
      rcases hrow : cloneRows F dst b 0 ((mapGet (g.memTxs src.memTx) b).getD []) g with
        ⟨g1, res⟩
      rw [hrow] at r1 r2 r3 r4 r5 r6 r7 r8
      simp only at r1 r2 r3 r4 r5 r6 r7 r8
      rcases res with u | e | _
      · obtain ⟨h1, h2, h3, h4, h5, h6, h7, h8⟩ := ih g1
        simp only
        refine ⟨h1.trans r1, h2.trans r2, h3.trans r3, h4.trans r4, h5.trans r5, ?_, h7, ?_⟩
        · intro a ha
          rw [h6 a ha, r6 a ha]
        · intro hok
          rw [h8 hok, r6 _ hne, r8 rfl]
          rfl
      · simp only
        refine ⟨r1, r2, r3, r4, r5, r6, by simp, by simp⟩
      · exact absurd rfl r7

theorem cloneBuckets_noFaults (src dst : MemoryMutation) :
    ∀ (names : List String) (g : Heap),
      (cloneBuckets noFaults src dst names g).2 = Res.ok () := by
  intro names
  induction names with
  | nil => intro g; simp [cloneBuckets]
  | cons b rest ih =>
    intro g
    rw [cloneBuckets]
    have h := cloneRows_noFaults dst b ((mapGet (g.memTxs src.memTx) b).getD []) 0 g
    rcases hrow : cloneRows noFaults dst b 0 ((mapGet (g.memTxs src.memTx) b).getD []) g with
      ⟨g1, res⟩
    rw [hrow] at h
    simp only at h
    subst h
    simp only [noFaults]
    exact ih g1

/-! ## Copying a staging transaction row by row -/

theorem foldl_txPut_last (b : String) (T : TxData) (hT : mapGet T b = none) :
    ∀ (rows : List (Bytes × Bytes)) (cur : Table),
      rows.foldl (fun tx r => txPut tx b r.1 r.2) (T ++ [(b, cur)]) =
        T ++ [(b, rows.foldl (fun t r => Table.Put t r.1 r.2) cur)] := by
  intro rows
  induction rows with
  | nil => intro cur; rfl
  | cons r rest ih =>
    intro cur
    rw [List.foldl_cons, List.foldl_cons]
    have e : txPut (T ++ [(b, cur)]) b r.1 r.2 = T ++ [(b, Table.Put cur r.1 r.2)] := by
      unfold txPut
      rw [mapGet_last T b cur hT, mapSet_last T b cur _ hT]
      rfl
    rw [e, ih]

theorem foldl_txPut_bucket (b : String) (T : TxData) (hT : mapGet T b = none) (t : Table)
    (hs : Table.Sorted t) :
    t.foldl (fun tx r => txPut tx b r.1 r.2) T = if t = [] then T else T ++ [(b, t)] := by
  cases t with
  | nil => simp
  | cons r rest =>
    rw [if_neg (List.cons_ne_nil _ _), List.foldl_cons]
    have e : txPut T b r.1 r.2 = T ++ [(b, Table.Put [] r.1 r.2)] := by
      unfold txPut
      rw [hT, mapSet_fresh T b _ hT]
      rfl
    rw [e, foldl_txPut_last b T hT]
    have h := foldl_Put_rows [] (r :: rest) [] (by simp) hs (by simp)
    simp only [List.append_nil, List.nil_append, List.foldl_cons] at h
    rw [h]

theorem foldl_copy_buckets (S : TxData) : ∀ (rest T : TxData),
    (∀ bt ∈ rest, mapGet S bt.1 = some bt.2) →
    (T.map Prod.fst ++ rest.map Prod.fst).Nodup →
    (∀ bt ∈ rest, Table.Sorted bt.2) →
    (rest.map Prod.fst).foldl (fun tx b =>
      ((mapGet S b).getD []).foldl (fun tx r => txPut tx b r.1 r.2) tx) T =
      T ++ rest.filter (fun bt => decide (bt.2 ≠ [])) := by
  intro rest
  induction rest with
  | nil => intro T _ _ _; simp
  | cons bt rest ih =>
    intro T hS hnd hsort
    rw [List.map_cons, List.foldl_cons, hS bt (List.mem_cons_self _ _)]
    simp only [Option.getD_some]
    have hT : mapGet T bt.1 = none := by
      rw [mapGet_eq_none]
      intro hm
      rw [List.nodup_append] at hnd
      exact hnd.2.2 hm (by simp)
    rw [foldl_txPut_bucket bt.1 T hT bt.2 (hsort bt (List.mem_cons_self _ _))]
    by_cases he : bt.2 = []
    · rw [if_pos he, List.filter_cons_of_neg (by simpa using he)]
      apply ih T (fun x hx => hS x (List.mem_cons_of_mem _ hx)) _
        (fun x hx => hsort x (List.mem_cons_of_mem _ hx))
      rw [List.map_cons] at hnd
      exact (List.nodup_append.mp hnd).1.append (List.nodup_cons.mp (List.nodup_append.mp hnd).2.1).2
        (fun x hx hy => (List.nodup_append.mp hnd).2.2 hx (List.mem_cons_of_mem _ hy))
    · rw [if_neg he, List.filter_cons_of_pos (by simpa using he)]
      rw [ih (T ++ [(bt.1, bt.2)]) (fun x hx => hS x (List.mem_cons_of_mem _ hx)) _
        (fun x hx => hsort x (List.mem_cons_of_mem _ hx))]
      · simp
      · rw [List.map_cons] at hnd
        simpa [List.append_assoc] using hnd

theorem staged_filter (S : TxData) :
    (S.filter (fun bt => decide (bt.2 ≠ []))).flatMap
        (fun bt => bt.2.map (fun r => (bt.1, r.1, r.2))) =
      S.flatMap (fun bt => bt.2.map (fun r => (bt.1, r.1, r.2))) := by
  induction S with
  | nil => rfl
  | cons bt rest ih =>
    by_cases he : bt.2 = []
    · rw [List.filter_cons_of_neg (by simpa using he), List.flatMap_cons, ih, he]
      rfl
    · rw [List.filter_cons_of_pos (by simpa using he), List.flatMap_cons, List.flatMap_cons, ih]

/-! ## Clone -/

theorem Clone_spec (F : Faults) (tx : ℕ) (src : MemoryMutation) (h : Heap)
    (hwf : WellFormed h src) :
    h.next + 4 ≤ (Clone F tx src h).1.next ∧
    AgreeBelow h.next h (Clone F tx src h).1 ∧
    (Clone F tx src h).2 ≠ Res.fault ∧
    (∀ dst, (Clone F tx src h).2 = Res.ok dst →
      dst = (NewMemoryBatch tx h).1 ∧
      pendingOf (Clone F tx src h).1 dst = pendingOf h src ∧
      (Clone F tx src h).1.snapshots dst.snapshots = [] ∧
      ∀ te ∈ (Clone F tx src h).1.deleted dst.deletedEntries,
        h.next ≤ te.2 ∧ te.2 < (Clone F tx src h).1.next) := by
  obtain ⟨w1, w2, w3, w4, w5, w6, w7, w8, w9⟩ := hwf
  have hd1 : src.deletedEntries ≠ h.next + 1 := by omega
  have hc1 : src.clearedTables ≠ h.next + 2 := by omega
  have hm1 : src.memTx ≠ h.next := by omega
  obtain ⟨g1, D, c1, c2, c3, c4, c5, c6, c7, c8, c9, c10⟩ :=
    cloneDeleted_spec (NewMemoryBatch tx h).1 h.next
      ((NewMemoryBatch tx h).2.deleted src.deletedEntries) (NewMemoryBatch tx h).2
      (by
        intro te hte
        simp only [NewMemoryBatch, Function.update_noteq hd1] at hte ⊢
        exact w5 te hte)
      (by simpa only [NewMemoryBatch, Function.update_noteq hd1] using w6)
      (by
        intro te _
        simp [NewMemoryBatch, mapGet])
      (by simp [NewMemoryBatch])
  unfold Clone
  simp only [c1]
  rw [cloneCleared_spec]
  simp only [NewMemoryBatch, Function.update_same, List.nil_append] at c2 c3 c4 c5 c6 c7 c8 c9 c10
  simp only [NewMemoryBatch, Function.update_noteq hd1] at c3
  have hcl : g1.cleared src.clearedTables = h.cleared src.clearedTables := by
    rw [c7]; simp [Function.update_noteq hc1]
  have hcl2 : g1.cleared (h.next + 2) = [] := by rw [c7]; simp
  have hmt : g1.memTxs src.memTx = h.memTxs src.memTx := by
    rw [c6]; simp [Function.update_noteq hm1]
  have hmt2 : g1.memTxs h.next = [] := by rw [c6]; simp
  have hagree1 : AgreeBelow h.next h
      { g1 with
        cleared := Function.update g1.cleared (h.next + 2)
          (List.foldl setAdd (g1.cleared (h.next + 2)) (g1.cleared src.clearedTables)) } := by
    intro a ha
    have ha0 : a ≠ h.next := by omega
    have ha1 : a ≠ h.next + 1 := by omega
    have ha2 : a ≠ h.next + 2 := by omega
    have ha3 : a ≠ h.next + 3 := by omega
    refine ⟨?_, ?_, ?_, ?_, ?_⟩
    · simp only [c6]; simp [Function.update_noteq ha0]
    · simp only; rw [c10 a (by omega)]
    · simp only; rw [c9 a ha1]; simp [Function.update_noteq ha1]
    · simp only [Function.update_noteq ha2]; rw [c7]; simp [Function.update_noteq ha2]
    · simp only [c8]; simp [Function.update_noteq ha3]
  cases hlb : F.listBuckets with
  | some e =>
    simp only
    exact ⟨by omega, hagree1, by simp, by simp⟩
  | none =>
    simp only
    obtain ⟨b1, b2, b3, b4, b5, b6, b7, b8⟩ :=
      cloneBuckets_spec F src (NewMemoryBatch tx h).1 hm1
        (List.map Prod.fst (g1.memTxs src.memTx))
        { g1 with
          cleared := Function.update g1.cleared (h.next + 2)
            (List.foldl setAdd (g1.cleared (h.next + 2)) (g1.cleared src.clearedTables)) }
    simp only [NewMemoryBatch] at b1 b2 b3 b4 b5 b6 b7 b8 ⊢
    rcases hcb : cloneBuckets F src
        { db := tx, memTx := h.next, deletedEntries := h.next + 1,
          clearedTables := h.next + 2, snapshots := h.next + 3 }
        (List.map Prod.fst (g1.memTxs src.memTx))
        { g1 with
          cleared := Function.update g1.cleared (h.next + 2)
            (List.foldl setAdd (g1.cleared (h.next + 2)) (g1.cleared src.clearedTables)) } with
      ⟨g3, res⟩
    rw [hcb] at b1 b2 b3 b4 b5 b6 b7 b8
    simp only at b1 b2 b3 b4 b5 b6 b7 b8
    have hagree3 : AgreeBelow h.next h g3 := by
      intro a ha
      have ha0 : a ≠ h.next := by omega
      obtain ⟨q1, q2, q3, q4, q5⟩ := hagree1 a ha
      simp only at q1 q2 q3 q4 q5
      refine ⟨?_, ?_, ?_, ?_, ?_⟩
      · rw [b6 a ha0]; exact q1
      · rw [b1]; exact q2
      · rw [b2]; exact q3
      · rw [b3]; exact q4
      · rw [b4]; exact q5
    rcases res with u | e | _
    · simp only
      refine ⟨by omega, hagree3, by simp, ?_⟩
      intro dst hdst
      have hdst2 : dst = (NewMemoryBatch tx h).1 := by
        injection hdst with hdst
        exact hdst.symm
      subst hdst2
      refine ⟨rfl, ?_, ?_, ?_⟩
      · unfold pendingOf
        simp only [NewMemoryBatch]
        have e1 : List.map (fun te => (te.1, g3.keySets te.2)) (g3.deleted (h.next + 1)) =
            List.map (fun te => (te.1, h.keySets te.2)) (h.deleted src.deletedEntries) := by
          rw [b1, b2, c2, c3]
        have e2 : g3.cleared (h.next + 2) = h.cleared src.clearedTables := by
          rw [b3]
          simp only [Function.update_same]
          rw [hcl2, hcl, foldl_setAdd _ [] (by simpa using w7), List.nil_append]
        have e3 : g3.memTxs h.next =
            (h.memTxs src.memTx).filter (fun bt => decide (bt.2 ≠ [])) := by
          rw [b8 rfl, hmt2, hmt]
          have := foldl_copy_buckets (h.memTxs src.memTx) (h.memTxs src.memTx) []
            (fun bt hbt => mapGet_of_mem _ bt w8 hbt) (by simpa using w8) w9
          simpa using this
        rw [e1, e2, e3, staged_filter]
      · simp only [NewMemoryBatch, b4, c8]
        simp
      · intro te hte
        simp only [NewMemoryBatch, b2, c2] at hte
        have := c4 te hte
        omega
    · simp only
      exact ⟨by omega, hagree3, by simp, by simp⟩
    · exact absurd rfl b7

theorem Clone_noFaults (tx : ℕ) (src : MemoryMutation) (h : Heap) (hwf : WellFormed h src) :
    (Clone noFaults tx src h).2 = Res.ok (NewMemoryBatch tx h).1 := by
  obtain ⟨w1, w2, w3, w4, w5, w6, w7, w8, w9⟩ := hwf
  have hd1 : src.deletedEntries ≠ h.next + 1 := by omega
  obtain ⟨g1, D, c1, -⟩ :=
    cloneDeleted_spec (NewMemoryBatch tx h).1 h.next
      ((NewMemoryBatch tx h).2.deleted src.deletedEntries) (NewMemoryBatch tx h).2
      (by
        intro te hte
        simp only [NewMemoryBatch, Function.update_noteq hd1] at hte ⊢
        exact w5 te hte)
      (by simpa only [NewMemoryBatch, Function.update_noteq hd1] using w6)
      (by
        intro te _
        simp [NewMemoryBatch, mapGet])
      (by simp [NewMemoryBatch])
  unfold Clone
  simp only [c1]
  have hb := cloneBuckets_noFaults src (NewMemoryBatch tx h).1
    (List.map Prod.fst ((cloneCleared (NewMemoryBatch tx h).1
      (g1.cleared src.clearedTables) g1).memTxs src.memTx))
    (cloneCleared (NewMemoryBatch tx h).1 (g1.cleared src.clearedTables) g1)
  rcases hcb : cloneBuckets noFaults src (NewMemoryBatch tx h).1
    (List.map Prod.fst ((cloneCleared (NewMemoryBatch tx h).1
      (g1.cleared src.clearedTables) g1).memTxs src.memTx))
    (cloneCleared (NewMemoryBatch tx h).1 (g1.cleared src.clearedTables) g1) with ⟨g3, res⟩
  rw [hcb] at hb
  simp only at hb
  subst hb
  simp only [noFaults]

/-! ## Writes to the live batch -/

theorem mem_of_mapGet {κ α : Type} [DecidableEq κ] (l : List (κ × α)) (k : κ) (v : α)
    (h : mapGet l k = some v) : (k, v) ∈ l := by
  induction l with
  | nil => simp [mapGet] at h
  | cons p rest ih =>
    by_cases hp : p.1 = k
    · simp only [mapGet, hp, if_true, Option.some.injEq] at h
      have : p = (k, v) := by rw [← hp, ← h]
      rw [this]
      exact List.mem_cons_self _ _
    · simp only [mapGet, hp, if_false] at h
      exact List.mem_cons_of_mem _ (ih h)

theorem BatchOp_frame (m : MemoryMutation) (N0 N1 : ℕ) (hN : N0 ≤ N1)
    (h1 : m.memTx < N0) (h2 : m.deletedEntries < N0) (op : BatchOp) (g : Heap)
    (hn : N1 ≤ g.next) (hd : ∀ te ∈ g.deleted m.deletedEntries, te.2 < N0 ∨ N1 ≤ te.2) :
    N1 ≤ (op.apply m g).next ∧
    (∀ te ∈ (op.apply m g).deleted m.deletedEntries, te.2 < N0 ∨ N1 ≤ te.2) ∧
    (op.apply m g).snapshots = g.snapshots ∧
    (op.apply m g).cleared = g.cleared ∧
    ∀ a, N0 ≤ a → a < N1 →
      (op.apply m g).memTxs a = g.memTxs a ∧ (op.apply m g).keySets a = g.keySets a ∧
      (op.apply m g).deleted a = g.deleted a := by
  cases op with
  | put table k v =>
    unfold BatchOp.apply Put
    cases hg : mapGet (g.deleted m.deletedEntries) table with
    | none =>
      simp only [hg]
      refine ⟨hn, hd, trivial, trivial, ?_⟩
      intro a ha1 ha2
      have : a ≠ m.memTx := by omega
      simp [Function.update_noteq this]
    | some b =>
      simp only [hg]
      refine ⟨hn, hd, trivial, trivial, ?_⟩
      intro a ha1 ha2
      have hb := hd _ (mem_of_mapGet _ _ _ hg)
      simp only at hb
      have e1 : a ≠ m.memTx := by omega
      have e2 : a ≠ b := by omega
      simp [Function.update_noteq e1, Function.update_noteq e2]
  | delete table k =>
    unfold BatchOp.apply Delete
    cases hg : mapGet (g.deleted m.deletedEntries) table with
    | none =>
      simp only [hg, Function.update_same]
      refine ⟨by omega, ?_, trivial, trivial, ?_⟩
      · intro te hte
        rcases mem_mapSet _ _ _ _ hte with h3 | h3
        · exact hd te h3
        · rw [h3]; exact Or.inr hn
      · intro a ha1 ha2
        have e1 : a ≠ m.memTx := by omega
        have e2 : a ≠ g.next := by omega
        have e3 : a ≠ m.deletedEntries := by omega
        simp [Function.update_noteq e1, Function.update_noteq e2, Function.update_noteq e3]
    | some b =>
      simp only [hg]
      refine ⟨hn, hd, trivial, trivial, ?_⟩
      intro a ha1 ha2
      have hb := hd _ (mem_of_mapGet _ _ _ hg)
      simp only at hb
      have e1 : a ≠ m.memTx := by omega
      have e2 : a ≠ b := by omega
      simp [Function.update_noteq e1, Function.update_noteq e2]

theorem applyBatch_frame (m : MemoryMutation) (N0 N1 : ℕ) (hN : N0 ≤ N1)
    (h1 : m.memTx < N0) (h2 : m.deletedEntries < N0) :
    ∀ (ops : List BatchOp) (g : Heap), N1 ≤ g.next →
      (∀ te ∈ g.deleted m.deletedEntries, te.2 < N0 ∨ N1 ≤ te.2) →
      (applyBatch m ops g).snapshots = g.snapshots ∧
      (applyBatch m ops g).cleared = g.cleared ∧
      ∀ a, N0 ≤ a → a < N1 →
        (applyBatch m ops g).memTxs a = g.memTxs a ∧
        (applyBatch m ops g).keySets a = g.keySets a ∧
        (applyBatch m ops g).deleted a = g.deleted a := by
  intro ops
  induction ops with
  | nil => intro g _ _; exact ⟨rfl, rfl, fun _ _ _ => ⟨rfl, rfl, rfl⟩⟩
  | cons op rest ih =>
    intro g hn hd
    obtain ⟨f1, f2, f3, f4, f5⟩ := BatchOp_frame m N0 N1 hN h1 h2 op g hn hd
    obtain ⟨i1, i2, i3⟩ := ih (op.apply m g) f1 f2
    unfold applyBatch at i1 i2 i3 ⊢
    rw [List.foldl_cons]
    refine ⟨i1.trans f3, i2.trans f4, ?_⟩
    intro a ha1 ha2
    obtain ⟨j1, j2, j3⟩ := i3 a ha1 ha2
    obtain ⟨k1, k2, k3⟩ := f5 a ha1 ha2
    exact ⟨j1.trans k1, j2.trans k2, j3.trans k3⟩

theorem pendingOf_congr (h g : Heap) (m : MemoryMutation)
    (e1 : g.memTxs m.memTx = h.memTxs m.memTx)
    (e2 : g.deleted m.deletedEntries = h.deleted m.deletedEntries)
    (e3 : g.cleared m.clearedTables = h.cleared m.clearedTables)
    (e4 : ∀ te ∈ h.deleted m.deletedEntries, g.keySets te.2 = h.keySets te.2) :
    pendingOf g m = pendingOf h m := by
  unfold pendingOf
  rw [e1, e2, e3]
  congr 1
  apply List.map_congr_left
  intro te hte
  rw [e4 te hte]

theorem pendingOf_agreeBelow (N : ℕ) (h g : Heap) (m : MemoryMutation) (ha : AgreeBelow N h g)
    (h1 : m.memTx < N) (h2 : m.deletedEntries < N) (h3 : m.clearedTables < N)
    (h4 : ∀ te ∈ h.deleted m.deletedEntries, te.2 < N) :
    pendingOf g m = pendingOf h m :=
  pendingOf_congr h g m (ha _ h1).1 (ha _ h2).2.2.1 (ha _ h3).2.2.2.1
    (fun te hte => (ha _ (h4 te hte)).2.1)

theorem applyOps_none : ∀ (ops : List TxOp) (i : ℕ) (tx : TxData),
    applyOps none i ops tx = (ops.foldl TxOp.apply tx, Res.ok ()) := by
  intro ops
  induction ops with
  | nil => intro i tx; rfl
  | cons op rest ih =>
    intro i tx
    show applyOps none (i + 1) rest (op.apply tx) = _
    rw [ih]
    rfl

theorem applyOps_ne_fault (failAt : Option (ℕ × ℕ)) : ∀ (ops : List TxOp) (i : ℕ) (tx : TxData),
    (applyOps failAt i ops tx).2 ≠ Res.fault := by
  intro ops
  induction ops with
  | nil => intro i tx; simp [applyOps]
  | cons op rest ih =>
    intro i tx
    cases failAt with
    | none => exact ih _ _
    | some ne =>
      obtain ⟨n, e⟩ := ne
      show (if n = i then (tx, Res.error (MemErr.store e))
        else applyOps (some (n, e)) (i + 1) rest (op.apply tx)).2 ≠ Res.fault
      by_cases hne : n = i
      · simp [hne]
      · simp only [hne, if_false]
        exact ih _ _

/-! ## Snapshot -/

theorem Snapshot_spec (F : Faults) (m : MemoryMutation) (id : ℕ) (h : Heap)
    (hwf : WellFormed h m) :
    (Snapshot F m id h).2 ≠ Res.fault ∧
    ((Snapshot F m id h).2 ≠ Res.ok () →
      AgreeBelow h.next h (Snapshot F m id h).1) ∧
    ((Snapshot F m id h).2 = Res.ok () →
      mapGet (h.snapshots m.snapshots) id = none ∧
      (Clone F m.db m h).2 = Res.ok (NewMemoryBatch m.db h).1 ∧
      (Snapshot F m id h).1 =
        { (Clone F m.db m h).1 with
          snapshots := Function.update (Clone F m.db m h).1.snapshots m.snapshots
            (h.snapshots m.snapshots ++ [(id, (NewMemoryBatch m.db h).1)]) }) := by
  obtain ⟨s1, s2, s3, s4⟩ := Clone_spec F m.db m h hwf
  unfold Snapshot
  cases hg : mapGet (h.snapshots m.snapshots) id with
  | some x =>
    simp only [Option.isSome_some, if_true]
    refine ⟨by simp, ?_, by simp⟩
    intro _ a _
    exact ⟨rfl, rfl, rfl, rfl, rfl⟩
  | none =>
    simp only [Option.isSome_none, Bool.false_eq_true, if_false]
    rcases hc : Clone F m.db m h with ⟨g, res⟩
    rw [hc] at s1 s2 s3 s4
    simp only at s1 s2 s3 s4
    rcases res with dst | e | _
    · simp only
      obtain ⟨d1, -⟩ := s4 dst rfl
      have hsn : g.snapshots m.snapshots = h.snapshots m.snapshots :=
        (s2 _ hwf.2.2.2.1).2.2.2.2
      refine ⟨by simp, by simp, ?_⟩
      intro _
      refine ⟨trivial, by rw [d1], ?_⟩
      rw [hsn, mapSet_fresh _ _ _ hg, d1]
    · simp only
      exact ⟨by simp, fun _ => s2, by simp⟩
    · exact absurd rfl s3

/-- C11: a successful `Snapshot(id)` on a well-formed batch stores under `id` a fresh batch
whose cells are not those of the live batch and whose pending state (deleted-key sets,
cleared tables, staged pairs) equals that of the live batch at the call; after any sequence of
`Put` and `Delete` on the live batch the snapshot map still holds that batch under `id` with
the same pending state, and `SnapshotFlush(id, tx)` succeeds and leaves in the target exactly
the flush operations of the state captured by `Snapshot(id)` applied to `tx`. -/
theorem Snapshot_isolation (F : Faults) (m : MemoryMutation) (id : ℕ) (h : Heap)
    (hwf : WellFormed h m) (hok : (Snapshot F m id h).2 = Res.ok ()) :
    (NewMemoryBatch m.db h).1.memTx ≠ m.memTx ∧
    (NewMemoryBatch m.db h).1.deletedEntries ≠ m.deletedEntries ∧
    (NewMemoryBatch m.db h).1.clearedTables ≠ m.clearedTables ∧
    (∀ te ∈ (Snapshot F m id h).1.deleted (NewMemoryBatch m.db h).1.deletedEntries,
      ∀ se ∈ (Snapshot F m id h).1.deleted m.deletedEntries, te.2 ≠ se.2) ∧
    ∀ ops : List BatchOp,
      mapGet ((applyBatch m ops (Snapshot F m id h).1).snapshots m.snapshots) id =
        some (NewMemoryBatch m.db h).1 ∧
      pendingOf (applyBatch m ops (Snapshot F m id h).1) (NewMemoryBatch m.db h).1 =
        pendingOf h m ∧
      ∀ tx : TxData,
        (SnapshotFlush none m id tx (applyBatch m ops (Snapshot F m id h).1)).2 = Res.ok () ∧
        (SnapshotFlush none m id tx (applyBatch m ops (Snapshot F m id h).1)).1.2 =
          (flushOps (pendingOf h m)).foldl TxOp.apply tx := by
  obtain ⟨-, -, hs⟩ := Snapshot_spec F m id h hwf
  obtain ⟨hfresh, hclone, hheap⟩ := hs hok
  obtain ⟨c1, c2, -, c4⟩ := Clone_spec F m.db m h hwf
  obtain ⟨-, c5, c6, c7⟩ := c4 _ hclone
  obtain ⟨w1, w2, w3, w4, w5, -⟩ := hwf
  have hdel : (Clone F m.db m h).1.deleted m.deletedEntries = h.deleted m.deletedEntries :=
    (c2 _ w2).2.2.1
  have hmain : ∀ ops : List BatchOp,
      mapGet ((applyBatch m ops (Snapshot F m id h).1).snapshots m.snapshots) id =
        some (NewMemoryBatch m.db h).1 ∧
      pendingOf (applyBatch m ops (Snapshot F m id h).1) (NewMemoryBatch m.db h).1 =
        pendingOf h m := by
    intro ops
    obtain ⟨f1, f2, f3⟩ := applyBatch_frame m h.next (Clone F m.db m h).1.next (by omega) w1 w2
      ops (Snapshot F m id h).1 (by rw [hheap])
      (by
        intro te hte
        rw [hheap] at hte
        simp only at hte
        rw [hdel] at hte
        exact Or.inl (w5 te hte).1)
    constructor
    · rw [f1, hheap]
      simp only [Function.update_same]
      exact mapGet_last _ _ _ hfresh
    · rw [← c5]
      have hN : h.next + 4 ≤ (Clone F m.db m h).1.next := c1
      have q1 : (Snapshot F m id h).1.memTxs = (Clone F m.db m h).1.memTxs := by rw [hheap]
      have q2 : (Snapshot F m id h).1.deleted = (Clone F m.db m h).1.deleted := by rw [hheap]
      have q3 : (Snapshot F m id h).1.cleared = (Clone F m.db m h).1.cleared := by rw [hheap]
      have q4 : (Snapshot F m id h).1.keySets = (Clone F m.db m h).1.keySets := by rw [hheap]
      apply pendingOf_congr
      · have := (f3 h.next (le_refl _) (by omega)).1
        rw [q1] at this
        exact this
      · have := (f3 (h.next + 1) (by omega) (by omega)).2.2
        rw [q2] at this
        exact this
      · rw [f2, q3]
      · intro te hte
        have hb := c7 te hte
        have := (f3 te.2 hb.1 hb.2).2.1
        rw [q4] at this
        exact this
  refine ⟨?_, ?_, ?_, ?_, ?_⟩
  · simp only [NewMemoryBatch]; omega
  · simp only [NewMemoryBatch]; omega
  · simp only [NewMemoryBatch]; omega
  · intro te hte se hse
    rw [hheap] at hte hse
    simp only at hte hse
    rw [hdel] at hse
    have := c7 te hte
    have := (w5 se hse).1
    omega
  · intro ops
    obtain ⟨m1, m2⟩ := hmain ops
    refine ⟨m1, m2, ?_⟩
    intro tx
    unfold SnapshotFlush
    simp only [m1]
    unfold Flush
    rw [applyOps_none, m2]
    exact ⟨rfl, rfl⟩

theorem Snapshot_isolation_witness :
    WellFormed sampleHeap sampleBatch ∧
    (Snapshot noFaults sampleBatch 1 sampleHeap).2 = Res.ok () ∧
    (SnapshotFlush none sampleBatch 1 []
      (applyBatch sampleBatch [BatchOp.put "T" [1] [20]]
        (Snapshot noFaults sampleBatch 1 sampleHeap).1)).1.2 = [("T", [([1], [10])])] :=
  ⟨by decide, by decide, by
    rw [(((Snapshot_isolation noFaults sampleBatch 1 sampleHeap (by decide) (by decide)).2.2.2.2
      [BatchOp.put "T" [1] [20]]).2.2 []).2]
    decide⟩

/-- C12: on a well-formed batch, `Snapshot(id)` fails with the duplicate error when `id` has
an entry, and never faults; a failed `Snapshot` (duplicate id or an error inside `Clone`)
leaves every cell allocated before the call as it was, so the snapshot map, the entry of `id`
in it and the pending state of the batch are unchanged; a successful `Snapshot` had no entry
for `id` before, appends exactly the entry of `id` to the snapshot map and leaves the pending
state of the batch unchanged; and with a fresh `id` and no failing call it succeeds. -/
theorem Snapshot_failure_atomic (F : Faults) (m : MemoryMutation) (id : ℕ) (h : Heap)
    (hwf : WellFormed h m) :
    ((mapGet (h.snapshots m.snapshots) id).isSome →
      (Snapshot F m id h).2 = Res.error (MemErr.duplicateSnapshot id)) ∧
    (Snapshot F m id h).2 ≠ Res.fault ∧
    ((Snapshot F m id h).2 ≠ Res.ok () →
      AgreeBelow h.next h (Snapshot F m id h).1 ∧
      (Snapshot F m id h).1.snapshots m.snapshots = h.snapshots m.snapshots ∧
      pendingOf (Snapshot F m id h).1 m = pendingOf h m) ∧
    ((Snapshot F m id h).2 = Res.ok () →
      mapGet (h.snapshots m.snapshots) id = none ∧
      (Snapshot F m id h).1.snapshots m.snapshots =
        h.snapshots m.snapshots ++ [(id, (NewMemoryBatch m.db h).1)] ∧
      pendingOf (Snapshot F m id h).1 m = pendingOf h m) ∧
    (mapGet (h.snapshots m.snapshots) id = none →
      (Snapshot noFaults m id h).2 = Res.ok ()) := by
  obtain ⟨s1, s2, s3⟩ := Snapshot_spec F m id h hwf
  have hw := hwf
  obtain ⟨w1, w2, w3, w4, w5, -⟩ := hw
  refine ⟨?_, s1, ?_, ?_, ?_⟩
  · intro hdup
    unfold Snapshot
    rw [if_pos hdup]
  · intro hfail
    have ha := s2 hfail
    exact ⟨ha, (ha _ w4).2.2.2.2,
      pendingOf_agreeBelow h.next h _ m ha w1 w2 w3 (fun te hte => (w5 te hte).1)⟩
  · intro hok
    obtain ⟨hfresh, hclone, hheap⟩ := s3 hok
    obtain ⟨c1, c2, -, -⟩ := Clone_spec F m.db m h hwf
    refine ⟨hfresh, ?_, ?_⟩
    · rw [hheap]
      simp
    · rw [hheap]
      have e : pendingOf
          { (Clone F m.db m h).1 with
            snapshots := Function.update (Clone F m.db m h).1.snapshots m.snapshots
              (h.snapshots m.snapshots ++ [(id, (NewMemoryBatch m.db h).1)]) } m =
          pendingOf (Clone F m.db m h).1 m := rfl
      rw [e]
      exact pendingOf_agreeBelow h.next h _ m c2 w1 w2 w3 (fun te hte => (w5 te hte).1)
  · intro hfresh
    unfold Snapshot
    simp only [hfresh, Option.isSome_none, Bool.false_eq_true, if_false]
    have hc := Clone_noFaults m.db m h hwf
    rcases hcl : Clone noFaults m.db m h with ⟨g, res⟩
    rw [hcl] at hc
    simp only at hc
    subst hc
    rfl

theorem Snapshot_failure_atomic_witness :
    WellFormed sampleHeap sampleBatch ∧
    (Snapshot putFails sampleBatch 1 sampleHeap).2 = Res.error (MemErr.store 7) ∧
    (Snapshot putFails sampleBatch 1 sampleHeap).1.snapshots sampleBatch.snapshots = [] ∧
    pendingOf (Snapshot putFails sampleBatch 1 sampleHeap).1 sampleBatch =
      pendingOf sampleHeap sampleBatch :=
  ⟨by decide, by decide,
    ((Snapshot_failure_atomic putFails sampleBatch 1 sampleHeap (by decide)).2.2.1
      (by decide)).2.1,
    ((Snapshot_failure_atomic putFails sampleBatch 1 sampleHeap (by decide)).2.2.1
      (by decide)).2.2⟩

/-- C13: `SnapshotFlush(id, tx)` on an `id` without entry returns the unknown-snapshot error
and leaves the heap and `tx` as they were; a successful `SnapshotFlush(id, tx)` found an entry
for `id`, leaves the snapshot map without the entry of `id` and with every other entry in
place and in order, changes no other cell, and a second `SnapshotFlush(id, ...)` right after
it fails with the unknown-snapshot error without touching its target. -/
theorem SnapshotFlush_lifecycle (failAt : Option (ℕ × ℕ)) (m : MemoryMutation) (id : ℕ)
    (tx : TxData) (h : Heap) :
    (mapGet (h.snapshots m.snapshots) id = none →
      SnapshotFlush failAt m id tx h = ((h, tx), Res.error (MemErr.unknownSnapshot id))) ∧
    ((SnapshotFlush failAt m id tx h).2 = Res.ok () →
      (mapGet (h.snapshots m.snapshots) id).isSome ∧
      (SnapshotFlush failAt m id tx h).1.1 =
        { h with
          snapshots := Function.update h.snapshots m.snapshots
            ((h.snapshots m.snapshots).filter (fun p => decide (p.1 ≠ id))) } ∧
      mapGet ((SnapshotFlush failAt m id tx h).1.1.snapshots m.snapshots) id = none ∧
      (∀ j, j ≠ id → mapGet ((SnapshotFlush failAt m id tx h).1.1.snapshots m.snapshots) j =
        mapGet (h.snapshots m.snapshots) j) ∧
      ∀ (failAt2 : Option (ℕ × ℕ)) (tx2 : TxData),
        SnapshotFlush failAt2 m id tx2 (SnapshotFlush failAt m id tx h).1.1 =
          (((SnapshotFlush failAt m id tx h).1.1, tx2),
            Res.error (MemErr.unknownSnapshot id))) := by
  constructor
  · intro hnone
    unfold SnapshotFlush
    simp only [hnone]
  · intro hok
    cases hg : mapGet (h.snapshots m.snapshots) id with
    | none =>
      unfold SnapshotFlush at hok
      simp only [hg] at hok
      cases hok
    | some snap =>
      have hheap : (SnapshotFlush failAt m id tx h).1.1 =
          { h with
            snapshots := Function.update h.snapshots m.snapshots
              ((h.snapshots m.snapshots).filter (fun p => decide (p.1 ≠ id))) } := by
        unfold SnapshotFlush at hok ⊢
        simp only [hg] at hok ⊢
        rcases hf : Flush failAt snap h tx with ⟨tx1, res⟩
        rw [hf] at hok
        rcases res with u | e | _
        · rfl
        · simp only at hok; cases hok
        · simp only at hok; cases hok
      have hgone : mapGet ((SnapshotFlush failAt m id tx h).1.1.snapshots m.snapshots) id =
          none := by
        rw [hheap]
        simp only [Function.update_same]
        have := mapGet_mapDelete (h.snapshots m.snapshots) id id
        unfold mapDelete at this
        rw [this, if_pos rfl]
      refine ⟨by simp, hheap, hgone, ?_, ?_⟩
      · intro j hj
        rw [hheap]
        simp only [Function.update_same]
        have := mapGet_mapDelete (h.snapshots m.snapshots) id j
        unfold mapDelete at this
        rw [this, if_neg hj]
      · intro failAt2 tx2
        generalize (SnapshotFlush failAt m id tx h).1.1 = g at hgone
        unfold SnapshotFlush
        simp only [hgone]

theorem SnapshotFlush_lifecycle_witness :
    (SnapshotFlush none sampleBatch 1 [] (Snapshot noFaults sampleBatch 1 sampleHeap).1).2 =
      Res.ok () ∧
    (SnapshotFlush none sampleBatch 1 []
      (SnapshotFlush none sampleBatch 1 []
        (Snapshot noFaults sampleBatch 1 sampleHeap).1).1.1).2 =
      Res.error (MemErr.unknownSnapshot 1) :=
  ⟨by decide,
    congrArg Prod.snd
      (((SnapshotFlush_lifecycle none sampleBatch 1 []
        (Snapshot noFaults sampleBatch 1 sampleHeap).1).2 (by decide)).2.2.2.2 none [])⟩

/-- C14: when `id` has an entry and applying that snapshot to the target fails,
`SnapshotFlush(id, tx)` returns the wrapped error, the heap is as it was, so the snapshot map
still holds the same entry for `id`, and a retry on which no operation fails succeeds and
applies the flush operations of that same snapshot. -/
theorem SnapshotFlush_failure_keeps_entry (failAt : Option (ℕ × ℕ)) (m : MemoryMutation)
    (id : ℕ) (tx : TxData) (h : Heap) (snap : MemoryMutation)
    (hs : mapGet (h.snapshots m.snapshots) id = some snap)
    (hfail : (Flush failAt snap h tx).2 ≠ Res.ok ()) :
    (∃ e, (SnapshotFlush failAt m id tx h).2 = Res.error (MemErr.flushFailed id e) ∧
      (Flush failAt snap h tx).2 = Res.error e) ∧
    (SnapshotFlush failAt m id tx h).1.1 = h ∧
    mapGet ((SnapshotFlush failAt m id tx h).1.1.snapshots m.snapshots) id = some snap ∧
    ∀ tx2 : TxData,
      (SnapshotFlush none m id tx2 (SnapshotFlush failAt m id tx h).1.1).2 = Res.ok () ∧
      (SnapshotFlush none m id tx2 (SnapshotFlush failAt m id tx h).1.1).1.2 =
        (flushOps (pendingOf h snap)).foldl TxOp.apply tx2 := by
  have hnf : (Flush failAt snap h tx).2 ≠ Res.fault := by
    unfold Flush
    exact applyOps_ne_fault _ _ _ _
  have hheap : (SnapshotFlush failAt m id tx h).1.1 = h := by
    unfold SnapshotFlush
    simp only [hs]
    rcases hf : Flush failAt snap h tx with ⟨tx1, res⟩
    rw [hf] at hfail
    rcases res with u | e | _
    · exact absurd rfl hfail
    · rfl
    · rfl
  refine ⟨?_, hheap, by rw [hheap]; exact hs, ?_⟩
  · unfold SnapshotFlush
    simp only [hs]
    rcases hf : Flush failAt snap h tx with ⟨tx1, res⟩
    rw [hf] at hfail hnf
    rcases res with u | e | _
    · exact absurd rfl hfail
    · exact ⟨e, rfl, rfl⟩
    · exact absurd rfl hnf
  · intro tx2
    rw [hheap]
    unfold SnapshotFlush
    simp only [hs]
    unfold Flush
    rw [applyOps_none]
    exact ⟨rfl, rfl⟩

theorem SnapshotFlush_failure_keeps_entry_witness :
    mapGet ((Snapshot noFaults sampleBatch 1 sampleHeap).1.snapshots sampleBatch.snapshots) 1 =
      some (NewMemoryBatch 0 sampleHeap).1 ∧
    (SnapshotFlush (some (0, 5)) sampleBatch 1 []
      (Snapshot noFaults sampleBatch 1 sampleHeap).1).2 =
      Res.error (MemErr.flushFailed 1 (MemErr.store 5)) ∧
    mapGet ((SnapshotFlush (some (0, 5)) sampleBatch 1 []
      (Snapshot noFaults sampleBatch 1 sampleHeap).1).1.1.snapshots sampleBatch.snapshots) 1 =
      some (NewMemoryBatch 0 sampleHeap).1 :=
  ⟨by decide, by decide,
    (SnapshotFlush_failure_keeps_entry (some (0, 5)) sampleBatch 1 []
      (Snapshot noFaults sampleBatch 1 sampleHeap).1 (NewMemoryBatch 0 sampleHeap).1
      (by decide) (by decide)).2.2.1⟩

end Memdb

namespace Remote

open Bitmapdb

set_option linter.unusedVariables false

/-! ## NodeInfoReplyLess -/

theorem bytesLt_iff_lt : ∀ a b : Bytes, bytesLt a b = true ↔ a < b := by
  intro a
  induction a with
  | nil =>
    intro b
    cases b with
    | nil => simp [bytesLt]
    | cons y ys =>
      simp only [bytesLt, true_iff]
      exact List.Lex.nil
  | cons x xs ih =>
    intro b
    cases b with
    | nil => simp [bytesLt]
    | cons y ys =>
      simp only [bytesLt, Bool.or_eq_true, Bool.and_eq_true, decide_eq_true_eq, ih]
      constructor
      · rintro (h | ⟨h1, h2⟩)
        · exact List.Lex.rel h
        · subst h1; exact List.Lex.cons h2
      · intro h
        cases h with
        | rel h => exact Or.inl h
        | cons h => exact Or.inr ⟨rfl, h⟩

theorem Compare_eq_neg_one (a b : Bytes) : Compare a b = -1 ↔ bytesLt a b = true := by
  unfold Compare
  by_cases h : a = b
  · subst h; simp [bytesLt_irrefl]
  · by_cases h2 : bytesLt a b = true
    · simp [h, h2]
    · simp [h, h2]

theorem Compare_eq_zero (a b : Bytes) : Compare a b = 0 ↔ a = b := by
  unfold Compare
  by_cases h : a = b
  · simp [h]
  · by_cases h2 : bytesLt a b = true
    · simp [h, h2]
    · simp [h, h2]

theorem NodeInfoReplyLess_iff (i j : NodeInfoReply) :
    NodeInfoReplyLess i j = true ↔
      bytesLt i.Name j.Name = true ∨ (i.Name = j.Name ∧ bytesLt i.Enode j.Enode = true) := by
  unfold NodeInfoReplyLess
  by_cases h : i.Name = j.Name
  · have h0 : ¬ Compare i.Name j.Name ≠ 0 := by
      rw [not_not, Compare_eq_zero]; exact h
    rw [if_neg h0, decide_eq_true_eq, Compare_eq_neg_one]
    constructor
    · intro h1; exact Or.inr ⟨h, h1⟩
    · rintro (h1 | h1)
      · rw [h, bytesLt_irrefl] at h1; cases h1
      · exact h1.2
  · have h0 : Compare i.Name j.Name ≠ 0 := by
      rw [Ne, Compare_eq_zero]; exact h
    rw [if_pos h0, decide_eq_true_eq, Compare_eq_neg_one]
    constructor
    · intro h1; exact Or.inl h1
    · rintro (h1 | h1)
      · exact h1
      · exact absurd h1.1 h

/-- C22: `NodeInfoReplyLess` is the strict lexicographic order on the pair (Name, Enode):
`less(i, j)` holds exactly when `i.Name < j.Name`, or the names are equal and
`i.Enode < j.Enode`, the strings compared byte by byte; it is irreflexive and transitive, and
of `less(i, j)`, `less(j, i)` and (`i.Name = j.Name` and `i.Enode = j.Enode`) at least one
holds and no two hold together. -/
theorem NodeInfoReplyLess_strict_order :
    (∀ i j : NodeInfoReply, NodeInfoReplyLess i j = true ↔
      i.Name < j.Name ∨ (i.Name = j.Name ∧ i.Enode < j.Enode)) ∧
    (∀ i : NodeInfoReply, NodeInfoReplyLess i i = false) ∧
    (∀ i j k : NodeInfoReply, NodeInfoReplyLess i j = true → NodeInfoReplyLess j k = true →
      NodeInfoReplyLess i k = true) ∧
    (∀ i j : NodeInfoReply,
      (NodeInfoReplyLess i j = true ∨ NodeInfoReplyLess j i = true ∨
        (i.Name = j.Name ∧ i.Enode = j.Enode)) ∧
      ¬ (NodeInfoReplyLess i j = true ∧ NodeInfoReplyLess j i = true) ∧
      ¬ (NodeInfoReplyLess i j = true ∧ (i.Name = j.Name ∧ i.Enode = j.Enode)) ∧
      ¬ (NodeInfoReplyLess j i = true ∧ (i.Name = j.Name ∧ i.Enode = j.Enode))) := by
  have hirr : ∀ i : NodeInfoReply, NodeInfoReplyLess i i = false := by
    intro i
    cases h : NodeInfoReplyLess i i with
    | false => rfl
    | true =>
      rw [NodeInfoReplyLess_iff] at h
      rcases h with h | h
      · rw [bytesLt_irrefl] at h; cases h
      · rw [bytesLt_irrefl] at h; cases h.2
  have hasym : ∀ i j : NodeInfoReply,
      ¬ (NodeInfoReplyLess i j = true ∧ NodeInfoReplyLess j i = true) := by
    rintro i j ⟨h1, h2⟩
    rw [NodeInfoReplyLess_iff] at h1 h2
    rcases h1 with h1 | h1 <;> rcases h2 with h2 | h2
    · rw [bytesLt_asymm _ _ h1] at h2; cases h2
    · rw [h2.1, bytesLt_irrefl] at h1; cases h1
    · rw [h1.1, bytesLt_irrefl] at h2; cases h2
    · have := bytesLt_asymm _ _ h1.2
      rw [this] at h2; cases h2.2
  have hne : ∀ i j : NodeInfoReply,
      ¬ (NodeInfoReplyLess i j = true ∧ (i.Name = j.Name ∧ i.Enode = j.Enode)) := by
    rintro i j ⟨h1, h2, h3⟩
    rw [NodeInfoReplyLess_iff] at h1
    rcases h1 with h1 | h1
    · rw [h2, bytesLt_irrefl] at h1; cases h1
    · rw [h3, bytesLt_irrefl] at h1; cases h1.2
  refine ⟨?_, hirr, ?_, ?_⟩
  · intro i j
    rw [NodeInfoReplyLess_iff, bytesLt_iff_lt, bytesLt_iff_lt]
  · intro i j k h1 h2
    rw [NodeInfoReplyLess_iff] at h1 h2 ⊢
    rcases h1 with h1 | h1 <;> rcases h2 with h2 | h2
    · exact Or.inl (bytesLt_trans _ _ _ h1 h2)
    · exact Or.inl (h2.1 ▸ h1)
    · exact Or.inl (h1.1 ▸ h2)
    · exact Or.inr ⟨h1.1.trans h2.1, bytesLt_trans _ _ _ h1.2 h2.2⟩
  · intro i j
    refine ⟨?_, hasym i j, hne i j, ?_⟩
    · rw [NodeInfoReplyLess_iff, NodeInfoReplyLess_iff]
      by_cases hn : i.Name = j.Name
      · by_cases he : i.Enode = j.Enode
        · exact Or.inr (Or.inr ⟨hn, he⟩)
        · cases h1 : bytesLt i.Enode j.Enode with
          | true => exact Or.inl (Or.inr ⟨hn, rfl⟩)
          | false =>
            cases h2 : bytesLt j.Enode i.Enode with
            | true => exact Or.inr (Or.inl (Or.inr ⟨hn.symm, rfl⟩))
            | false => exact absurd (bytesLt_total _ _ h1 h2) he
      · cases h1 : bytesLt i.Name j.Name with
        | true => exact Or.inl (Or.inl rfl)
        | false =>
          cases h2 : bytesLt j.Name i.Name with
          | true => exact Or.inr (Or.inl (Or.inl rfl))
          | false => exact absurd (bytesLt_total _ _ h1 h2) hn
    · rintro ⟨h1, h2, h3⟩
      exact hne j i ⟨h1, h2.symm, h3.symm⟩

theorem NodeInfoReplyLess_strict_order_witness :
    NodeInfoReplyLess (NodeInfoReply.mk [97] [1]) (NodeInfoReply.mk [97] [2]) = true ∧
    NodeInfoReplyLess (NodeInfoReply.mk [97] [2]) (NodeInfoReply.mk [98] [0]) = true ∧
    NodeInfoReplyLess (NodeInfoReply.mk [97] [1]) (NodeInfoReply.mk [98] [0]) = true :=
  ⟨by decide, by decide,
    NodeInfoReplyLess_strict_order.2.2.1 (NodeInfoReply.mk [97] [1]) (NodeInfoReply.mk [97] [2])
      (NodeInfoReply.mk [98] [0]) (by decide) (by decide)⟩

end Remote
